import Mathlib

/-!
# claudewin9x client: path safety, idempotency cache, approvals, HTTP framing

A shallow embedding of the parts of the client (`src/client/util.c`,
`src/client/handlers.c`, `src/client/http.c`, `src/client/session.c`,
`src/client/claude.c`, `src/client/transfer.c`) that the specification's
contracts talk about, and the theorems that settle those contracts.

Conventions of the embedding.

* A C string is the list of its bytes before the terminating NUL.
* A `char` buffer that the code edits in place is a list of bytes indexed
  from the start of the buffer.  Reading past the modelled bytes sees NUL;
  a store past the modelled bytes extends the list, so a store behind the
  end of the caller's buffer stays visible in the result.
* `int` return codes `0` / `-1` become `some` / `none`.
-/

namespace ClaudeWin9x

/-! ## Bytes and buffers -/

/-- The terminating byte of a C string. -/
def NUL : Char := Char.ofNat 0

/-- Load the byte at offset `i` of a buffer. -/
def peek (m : List Char) (i : Nat) : Char := m.getD i NUL

/-- Store the bytes `bs` at offset `dst` of a buffer. -/
def store_bytes (m : List Char) (dst : Nat) (bs : List Char) : List Char :=
  (m ++ List.replicate (dst - m.length) NUL).take dst ++ bs ++ m.drop (dst + bs.length)

/-- Store one byte: `m[i] = c`. -/
def poke (m : List Char) (i : Nat) (c : Char) : List Char := store_bytes m i [c]

/-- The C string that starts at offset `i`, without its terminator. -/
def cstr_at (m : List Char) (i : Nat) : List Char := (m.drop i).takeWhile (fun c => c != NUL)

/-- The C function `strlen(m + i)`. -/
def strlen_at (m : List Char) (i : Nat) : Nat := (cstr_at m i).length

/-- The C function `memmove(m + dst, m + src, len)`: the source bytes are read
before any byte is stored. -/
def memmove (m : List Char) (dst src len : Nat) : List Char :=
  store_bytes m dst ((m.drop src).take len)

/-! ## util.c -/

/-- Source: `is_switch_char` (util.c). -/
def is_switch_char (c : Char) : Bool :=
  (decide ('a' ≤ c) && decide (c ≤ 'z')) || (decide ('A' ≤ c) && decide (c ≤ 'Z')) ||
    (decide ('0' ≤ c) && decide (c ≤ '9')) || c == '?' || c == '-' || c == '@'

/-- The test that ends a URL in `path_to_backslashes`: blank, tab, newline,
carriage return, double or single quote. -/
def is_url_end (c : Char) : Bool :=
  c == ' ' || c == '\t' || c == '\n' || c == '\r' || c == '"' || c == '\''

/-- The loop of `path_to_backslashes` from the byte `*p` on: `prev` and `in_url`
are the loop's two locals, the list is the text at `p`.  The look-ahead reads
`p[1]`, `p[2]` see bytes the loop has not yet rewritten. -/
def path_to_backslashes_from (prev : Char) (in_url : Bool) : List Char → List Char
  | [] => []
  | c :: rest =>
    if !in_url && c == ':' && rest.head? == some '/' && rest.tail.head? == some '/' then
      c :: path_to_backslashes_from c true rest
    else if in_url then
      c :: path_to_backslashes_from c (!is_url_end c) rest
    else if c == '/' then
      if (prev == ' ' || prev == '\t') && (rest.head?.map is_switch_char).getD false then
        c :: path_to_backslashes_from c false rest
      else
        '\\' :: path_to_backslashes_from '\\' false rest
    else
      c :: path_to_backslashes_from c false rest

/-- Source: `path_to_backslashes` (util.c); the in-place edit returns the new text. -/
def path_to_backslashes (str : List Char) : List Char :=
  path_to_backslashes_from ' ' false str

/-- The scanning loop of `normalize_path` (`while (*p) ...`): `m` is the buffer,
`p` the cursor, `segs` the offsets held in `segments[0 .. depth-1]`.  Each
round passes at least one byte, so `fuel` rounds suffice when `fuel` is at
least the number of bytes left.  The result is the buffer (separators
overwritten by NUL) and the segment offsets, or `none` for `return -1`. -/
def scan_loop : Nat → List Char → Nat → List Nat → Option (List Char × List Nat)
  | 0, m, p, segs => if peek m p = NUL then some (m, segs) else none
  | fuel + 1, m, p, segs =>
    if peek m p = NUL then some (m, segs)
    else
      let seg_start := p
      let seg_end := p + ((m.drop p).takeWhile (fun c => c != NUL && c != '\\')).length
      let sep := peek m seg_end == '\\'
      let m1 := if sep then poke m seg_end NUL else m
      let p1 := if sep then seg_end + 1 else seg_end
      if seg_start = seg_end || cstr_at m1 seg_start == ['.'] then
        scan_loop fuel m1 p1 segs
      else if cstr_at m1 seg_start == ['.', '.'] then
        if segs.length = 0 then none else scan_loop fuel m1 p1 segs.dropLast
      else if segs.length ≥ 128 then none
      else scan_loop fuel m1 p1 (segs ++ [seg_start])

/-- The output loop of `normalize_path` (`for (i = 0; i < depth; i++) ...`) over
the segment offsets still to be copied; returns the buffer and the cursor. -/
def emit_loop : List Nat → List Char → Nat → List Char × Nat
  | [], m, p => (m, p)
  | s :: rest, m, p =>
    let len := strlen_at m s
    let m1 := memmove m p s len
    let p1 := p + len
    if rest.length > 0 then emit_loop rest (poke m1 p1 '\\') (p1 + 1)
    else emit_loop rest m1 p1

/-- Source: `normalize_path` (util.c).  `path` is the text of the buffer; the
result is the text left in the buffer, or `none` for `return -1`. -/
def normalize_path (path : List Char) : Option (List Char) :=
  let m := path ++ [NUL]
  let drive := peek m 0 != NUL && peek m 1 == ':'
  let start0 := if drive then 2 else 0
  let start := if peek m start0 == '\\' then start0 + 1 else start0
  match scan_loop m.length m start [] with
  | none => none
  | some (m1, segs) =>
    let m2 := poke m1 start0 '\\'
    let r := emit_loop segs m2 (start0 + 1)
    some (cstr_at (poke r.1 r.2 NUL) 0)

/-- The text `snprintf` composes in `build_full_path`. -/
def compose_path (relative : List Char) : List Char :=
  match relative with
  | [] => "C:\\".toList
  | c :: _ =>
    if c == '/' || c == '\\' then "C:".toList ++ relative
    else "C:\\".toList ++ relative

/-- Source: `build_full_path` (util.c).  Returns the text left in `out`, or
`none` for `return -1`.  `snprintf` reports the full length of the composed
text, which must be below `out_size`. -/
def build_full_path (relative : List Char) (out_size : Nat) : Option (List Char) :=
  let composed := compose_path relative
  if composed.length ≥ out_size then none
  else normalize_path (path_to_backslashes composed)

/-! ## claude.h -/

/-- Source: `BUFFER_SIZE` (claude.h). -/
def BUFFER_SIZE : Nat := 32768

/-- Source: `MAX_PATH_LEN` (claude.h). -/
def MAX_PATH_LEN : Nat := 512

/-- Source: `IDEMPOTENCY_CACHE_SIZE` (claude.h). -/
def IDEMPOTENCY_CACHE_SIZE : Nat := 16

/-- Source: `HttpResult` (claude.h). -/
inductive HttpResult
  | HTTP_OK
  | HTTP_ERR_SOCKET
  | HTTP_ERR_CONNECT
  | HTTP_ERR_OVERFLOW
  | HTTP_ERR_SEND
  | HTTP_ERR_TIMEOUT
  | HTTP_ERR_NO_BODY
  | HTTP_ERR_SERVER
  | HTTP_ERR_TRUNCATED
  | HTTP_ERR_RESPONSE_TOO_LARGE
  deriving DecidableEq, Repr

/-- Source: `ClientState` (claude.h): the fields of `g_state` that the handlers
read or write.  A fixed `char` array holds the text before its NUL. -/
structure ClientState where
  session_id : List Char
  connected : Bool
  has_pending_approval : Bool
  approval_in_progress : Bool
  approval_id : List Char
  approval_tool_name : List Char
  approval_tool_input : List Char
  skip_permissions : Bool
  last_heartbeat : Nat := 0
  pending_output : List Char := []
  has_pending_output : Bool := false
  session_stopped : Bool := false
  deriving DecidableEq, Repr

/-- What the client does to the outside world, in program order. -/
inductive Event
  | http_get (path : List Char)
  | http_post (path : List Char) (body : List Char)
  | approval_prompt (tool_name : List Char) (tool_input : List Char)
  | auto_approve (tool_name : List Char)
  | fs_find (search_path : List Char)
  | fs_read (full_path : List Char)
  | fs_write (full_path : List Char) (content : List Char)
  | fs_mkdir (full_path : List Char)
  | log_error (context : List Char) (message : List Char)
  deriving DecidableEq, Repr

/-- The C function `strncpy(dst, src, n); dst[n] = 0` into a zeroed or
terminated field: the first `n` bytes of the text. -/
def strncpy (src : List Char) (n : Nat) : List Char := src.take n

/-! ## handlers.c: idempotency cache -/

/-- Source: `CacheEntry` (handlers.c).  `result` is `none` for a NULL pointer. -/
structure CacheEntry where
  id : List Char
  result : Option (List Char)
  deriving DecidableEq, Repr

/-- The search of `cache_lookup` over the slots still to visit. -/
def cache_lookup_from : List CacheEntry → List Char → Option (List Char)
  | [], _ => none
  | e :: rest, id =>
    if e.id ≠ [] ∧ e.id = id then e.result else cache_lookup_from rest id

/-- Source: `cache_lookup` (handlers.c): the first of the 16 slots whose id is
non-empty and equal to `id` gives the result. -/
def cache_lookup (cache : List CacheEntry) (id : List Char) : Option (List Char) :=
  cache_lookup_from (cache.take IDEMPOTENCY_CACHE_SIZE) id

/-- Source: `cache_store` (handlers.c): returns the cache and the new index.
The id is copied with `strncpy` into `char id[64]`; `strdup` is taken to
succeed. -/
def cache_store (cache : List CacheEntry) (index : Nat) (id result : List Char) :
    List CacheEntry × Nat :=
  let slot := index
  (cache.set slot { id := strncpy id 63, result := some result },
    (slot + 1) % IDEMPOTENCY_CACHE_SIZE)

/-- The static `fs_cache` / `cmd_cache` at program start: zeroed slots. -/
def cache_init : List CacheEntry :=
  List.replicate IDEMPOTENCY_CACHE_SIZE { id := [], result := none }

/-- A run of `cache_store` calls from a cache and index. -/
def cache_store_all : List CacheEntry × Nat → List (List Char × List Char) →
    List CacheEntry × Nat
  | c, [] => c
  | c, (id, result) :: rest => cache_store_all (cache_store c.1 c.2 id result) rest

/-! ## handlers.c: approvals -/

/-- The reply to `GET /approval/poll` as the handler reads it through cJSON:
`has_pending` is `cJSON_IsTrue`, a field is `some` when `cJSON_IsString`. -/
structure ApprovalPoll where
  has_pending : Bool
  approval_id : Option (List Char)
  tool_name : Option (List Char)
  tool_input : Option (List Char)
  deriving DecidableEq, Repr

/-- The locals `process_approval` copies out of `g_state`. -/
structure ApprovalLocals where
  local_approval_id : List Char
  local_tool_name : List Char
  local_tool_input : List Char
  deriving DecidableEq, Repr

/-- The request path `snprintf` builds in `poll_approval` (`char path[256]`). -/
def approval_poll_path (session_id : List Char) : List Char :=
  ("/approval/poll?session_id=".toList ++ session_id).take 255

/-- First critical section of `poll_approval` and the session test after it:
`some id` when the poll goes ahead with that session id, `none` when the
function returns 0 at once. -/
def poll_approval_check (st : ClientState) : Option (List Char) :=
  let local_session_id := strncpy st.session_id 63
  if st.has_pending_approval || st.approval_in_progress then none
  else if local_session_id = [] then none
  else some local_session_id

/-- The part of `poll_approval` after the request: `reply` is `none` when
`http_request` fails or the body is not JSON.  Returns the state and the
return value. -/
def poll_approval_latch (st : ClientState) (reply : Option ApprovalPoll) : ClientState × Bool :=
  match reply with
  | none => (st, false)
  | some r =>
    if !r.has_pending then (st, false)
    else
      ({ st with
          approval_id := match r.approval_id with
            | some s => strncpy s 63
            | none => []
          approval_tool_name := match r.tool_name with
            | some s => strncpy s 127
            | none => "unknown".toList
          approval_tool_input := match r.tool_input with
            | some s => if s ≠ [] then strncpy s (BUFFER_SIZE - 1) else []
            | none => []
          has_pending_approval := true }, true)

/-- Source: `poll_approval` (handlers.c): state, return value, requests sent. -/
def poll_approval (st : ClientState) (reply : Option ApprovalPoll) :
    ClientState × Bool × List Event :=
  match poll_approval_check st with
  | none => (st, false, [])
  | some sid =>
    let r := poll_approval_latch st reply
    (r.1, r.2, [Event.http_get (approval_poll_path sid)])

/-- First critical section of `process_approval`: `none` when nothing is
latched, else the state with the flags moved and the copied locals. -/
def process_approval_begin (st : ClientState) : Option (ClientState × ApprovalLocals) :=
  if !st.has_pending_approval then none
  else
    some ({ st with approval_in_progress := true, has_pending_approval := false },
      { local_approval_id := strncpy st.approval_id 63
        local_tool_name := strncpy st.approval_tool_name 127
        local_tool_input := strncpy st.approval_tool_input (BUFFER_SIZE - 1) })

/-- The decision step of `process_approval`: auto-approval, or the prompt and
the key read by `getch`. -/
def process_approval_decide (skip_permissions : Bool) (loc : ApprovalLocals) (key : Char) :
    Bool × List Event :=
  if skip_permissions then (true, [Event.auto_approve loc.local_tool_name])
  else (key == 'y' || key == 'Y',
    [Event.approval_prompt loc.local_tool_name loc.local_tool_input])

/-- The body `snprintf` builds for `/approval/respond` (`char body[512]`). -/
def approval_body (approval_id : List Char) (approved : Bool) : List Char :=
  ("\x7b\"approval_id\":\"".toList ++ approval_id ++ "\",\"approved\":".toList ++
    (if approved then "true".toList else "false".toList) ++ "\x7d".toList).take 511

/-- The answer step of `process_approval`: the POST, skipped for an empty id. -/
def process_approval_respond (loc : ApprovalLocals) (approved : Bool) : List Event :=
  if loc.local_approval_id ≠ [] then
    [Event.http_post "/approval/respond".toList (approval_body loc.local_approval_id approved)]
  else []

/-- Last critical section of `process_approval`. -/
def process_approval_end (st : ClientState) : ClientState :=
  { st with approval_in_progress := false }

/-- Source: `process_approval` (handlers.c): state, return value, events. -/
def process_approval (st : ClientState) (key : Char) : ClientState × Bool × List Event :=
  match process_approval_begin st with
  | none => (st, false, [])
  | some (st1, loc) =>
    let d := process_approval_decide st1.skip_permissions loc key
    (process_approval_end st1, true, d.2 ++ process_approval_respond loc d.1)

/-! ### The two threads, one atomic step at a time -/

/-- Where the scheduler thread stands inside `poll_approval`. -/
inductive SchedPc
  | idle
  | polling (session_id : List Char)
  deriving DecidableEq, Repr

/-- Where the UI thread stands inside `process_approval`. -/
inductive UiPc
  | idle
  | deciding (loc : ApprovalLocals)
  | responding (loc : ApprovalLocals) (approved : Bool)
  | finishing
  deriving DecidableEq, Repr

/-- Shared state and the position of each thread. -/
structure Sys where
  st : ClientState
  sched : SchedPc
  ui : UiPc
  deriving DecidableEq, Repr

/-- Which thread moves next, with what the outside world hands it: the poll
reply for the scheduler, the key for the UI. -/
inductive Act
  | sched (reply : Option ApprovalPoll)
  | ui (key : Char)
  deriving DecidableEq, Repr

/-- One atomic step of one thread. -/
def sys_step (s : Sys) : Act → Sys × List Event
  | Act.sched reply =>
    match s.sched with
    | SchedPc.idle =>
      match poll_approval_check s.st with
      | none => (s, [])
      | some sid => ({ s with sched := SchedPc.polling sid },
          [Event.http_get (approval_poll_path sid)])
    | SchedPc.polling _ =>
      ({ s with st := (poll_approval_latch s.st reply).1, sched := SchedPc.idle }, [])
  | Act.ui key =>
    match s.ui with
    | UiPc.idle =>
      match process_approval_begin s.st with
      | none => (s, [])
      | some (st1, loc) => ({ s with st := st1, ui := UiPc.deciding loc }, [])
    | UiPc.deciding loc =>
      let d := process_approval_decide s.st.skip_permissions loc key
      ({ s with ui := UiPc.responding loc d.1 }, d.2)
    | UiPc.responding loc approved =>
      ({ s with ui := UiPc.finishing }, process_approval_respond loc approved)
    | UiPc.finishing =>
      ({ s with st := process_approval_end s.st, ui := UiPc.idle }, [])

/-- Run an interleaving; the events come out in order. -/
def sys_run : Sys → List Act → Sys × List Event
  | s, [] => (s, [])
  | s, a :: rest =>
    let r := sys_step s a
    let r2 := sys_run r.1 rest
    (r2.1, r.2 ++ r2.2)

/-- The state of `g_state` at program start (claude.c), for a given policy. -/
def client_init (skip_permissions : Bool) : ClientState :=
  { session_id := [], connected := false, has_pending_approval := false,
    approval_in_progress := false, approval_id := [], approval_tool_name := [],
    approval_tool_input := [], skip_permissions := skip_permissions }

/-- Both threads outside the approval code. -/
def sys_init (st : ClientState) : Sys := { st := st, sched := SchedPc.idle, ui := UiPc.idle }

/-- Trace monitor: `some b` while no prompt has followed another prompt without
a POST to `/approval/respond` between them, `b` telling whether a prompt is
still unanswered; `none` once that has happened. -/
def prompt_monitor : Option Bool → Event → Option Bool
  | none, _ => none
  | some unanswered, Event.approval_prompt _ _ => if unanswered then none else some true
  | some unanswered, Event.http_post path _ =>
    if path = "/approval/respond".toList then some false else some unanswered
  | some unanswered, _ => some unanswered

/-- No approval prompt follows another one without a POST to
`/approval/respond` in between. -/
def no_repeated_prompt (trace : List Event) : Bool :=
  (trace.foldl prompt_monitor (some false)).isSome

/-! ## http.c -/

/-- Source: `http_error_string` (http.c). -/
def http_error_string : HttpResult → List Char
  | HttpResult.HTTP_OK => "Success".toList
  | HttpResult.HTTP_ERR_SOCKET => "Could not create socket".toList
  | HttpResult.HTTP_ERR_CONNECT => "Could not connect to server".toList
  | HttpResult.HTTP_ERR_OVERFLOW => "Request too large".toList
  | HttpResult.HTTP_ERR_SEND => "Failed to send request".toList
  | HttpResult.HTTP_ERR_TIMEOUT => "Request timed out".toList
  | HttpResult.HTTP_ERR_NO_BODY => "No response body".toList
  | HttpResult.HTTP_ERR_SERVER => "Server returned error status".toList
  | HttpResult.HTTP_ERR_TRUNCATED => "Response truncated".toList
  | HttpResult.HTTP_ERR_RESPONSE_TOO_LARGE =>
    "Response Content-Length exceeds buffer size".toList

/-- The C function `isspace` in the "C" locale. -/
def isspace (c : Char) : Bool :=
  c == ' ' || c == '\t' || c == '\n' || c == Char.ofNat 11 || c == Char.ofNat 12 || c == '\r'

/-- The digit loop of `atoi`. -/
def atoi_digits : Int → List Char → Int
  | acc, [] => acc
  | acc, c :: rest =>
    if c.isDigit then atoi_digits (acc * 10 + ((c.toNat - '0'.toNat : Nat) : Int)) rest
    else acc

/-- The largest `int` of the 32-bit Windows targets. -/
def INT_MAX : Int := 2 ^ 31 - 1

/-- The C function `atoi`: blanks, an optional sign, then digits.  The value is
the mathematical one.  It is the value the program computes as long as it
lies in the range of `int` (at most `INT_MAX` in absolute value); outside that
range C leaves the result undefined, and statements about the program keep
the value inside it. -/
def atoi (s : List Char) : Int :=
  match s.dropWhile isspace with
  | '-' :: rest => - atoi_digits 0 rest
  | '+' :: rest => atoi_digits 0 rest
  | rest => atoi_digits 0 rest

/-- The C function `strstr`: offset of the first occurrence of `needle`. -/
def strstr : List Char → List Char → Option Nat
  | [], needle => if needle = [] then some 0 else none
  | c :: rest, needle =>
    if needle.isPrefixOf (c :: rest) then some 0
    else (strstr rest needle).map (fun k => k + 1)

/-- The C function `strchr`: offset of the first occurrence of `c`. -/
def strchr (s : List Char) (c : Char) : Option Nat :=
  if s.indexOf c < s.length then some (s.indexOf c) else none

/-- Source: `parse_http_status` (http.c). -/
def parse_http_status (buffer : List Char) : Int :=
  if "HTTP/".toList.isPrefixOf buffer then
    match strchr buffer ' ' with
    | some k => atoi (buffer.drop (k + 1))
    | none => 0
  else 0

/-- Source: `parse_content_length` (http.c). -/
def parse_content_length (buffer : List Char) : Int :=
  match (strstr buffer "Content-Length:".toList).orElse
      (fun _ => strstr buffer "content-length:".toList) with
  | some k => atoi (buffer.drop (k + 15))
  | none => -1

/-- The receive loop of `http_request`: at most `sizeof(buffer) - 1` bytes of
what the peer sends before it closes or goes silent end up in `buffer`. -/
def http_receive (stream : List Char) : List Char := stream.take (BUFFER_SIZE - 1)

/-- Source: `http_request` (http.c), from `buffer[total] = 0` on: `received` are
the `total` bytes in `buffer`, the result is the return code and the text
left in `response`. -/
def http_response (received : List Char) (resp_size : Nat) : HttpResult × List Char :=
  let total := received.length
  let buffer := cstr_at received 0
  if total = 0 then (HttpResult.HTTP_ERR_TIMEOUT, [])
  else
    let status := parse_http_status buffer
    if status < 200 ∨ status ≥ 300 then (HttpResult.HTTP_ERR_SERVER, [])
    else
      match strstr buffer "\r\n\r\n".toList with
      | some k =>
        let body_start := k + 4
        let body_len : Int := (total : Int) - (body_start : Int)
        let content_length := parse_content_length buffer
        if content_length > 0 ∧ content_length ≥ (resp_size : Int) then
          (HttpResult.HTTP_ERR_RESPONSE_TOO_LARGE, [])
        else if content_length > 0 ∧ body_len < content_length then
          (HttpResult.HTTP_ERR_TRUNCATED, [])
        else if content_length ≤ 0 ∧ total ≥ BUFFER_SIZE - 1 then
          (HttpResult.HTTP_ERR_TRUNCATED, [])
        else (HttpResult.HTTP_OK, strncpy (buffer.drop body_start) (resp_size - 1))
      | none => (HttpResult.HTTP_ERR_NO_BODY, [])

/-! ## handlers.c: file operations -/

/-- One `WIN32_FIND_DATA` record: `cFileName`, the directory attribute bit,
`nFileSizeLow`. -/
structure FindData where
  cFileName : List Char
  is_directory : Bool
  nFileSizeLow : Nat
  deriving DecidableEq, Repr

/-- An item added to the cJSON `result` object. -/
inductive ResultItem
  | op_id (value : List Char)
  | error (message : List Char)
  | entries (items : List (List Char × List Char × Nat))
  | content (value : List Char)
  deriving DecidableEq, Repr

/-- Outcome of `CreateDirectory` with `GetLastError`. -/
inductive MkdirOutcome
  | created
  | already_exists
  | failed
  deriving DecidableEq, Repr

/-- The host file system as the handlers use it, over a state `σ`:
`find_files` is the `FindFirstFile` / `FindNextFile` enumeration (`none` for
an invalid handle), `fopen_read` the bytes of a file opened "rb" (`none`
when `fopen` fails), `fopen_write` opens "wb" and writes (`none` when
`fopen` fails, else the new state and the count `fwrite` returns),
`create_directory` is `CreateDirectory`. -/
structure HostFs (σ : Type) where
  find_files : σ → List Char → Option (List FindData)
  fopen_read : σ → List Char → Option (List Char)
  fopen_write : σ → List Char → List Char → Option (σ × Nat)
  create_directory : σ → List Char → σ × MkdirOutcome

/-- The reply to `GET /fs/poll` as read through cJSON. -/
structure FsPoll where
  has_pending : Bool
  op_id : Option (List Char)
  operation : Option (List Char)
  path : Option (List Char)
  content : Option (List Char)
  deriving DecidableEq, Repr

/-- The handler's own state: the host file system, `fs_cache`, `fs_cache_index`. -/
structure FsWorld (σ : Type) where
  fs : σ
  fs_cache : List CacheEntry
  fs_cache_index : Nat

/-- Source: `handle_list_op` (handlers.c). -/
def handle_list_op {σ : Type} (h : HostFs σ) (fs : σ) (full_path : List Char) :
    List ResultItem × List Event :=
  let search_path :=
    (if full_path.length > 0 ∧ full_path.getLast? = some '\\' then full_path ++ "*.*".toList
     else full_path ++ "\\*.*".toList).take (MAX_PATH_LEN + 8 - 1)
  match h.find_files fs search_path with
  | none => ([ResultItem.error "Directory not found".toList], [Event.fs_find search_path])
  | some found =>
    ([ResultItem.entries
        ((found.filter (fun d => !(d.cFileName == ['.'] || d.cFileName == ['.', '.']))).map
          (fun d => if d.is_directory then (d.cFileName, "dir".toList, 0)
                    else (d.cFileName, "file".toList, d.nFileSizeLow)))],
      [Event.fs_find search_path])

/-- Source: `handle_read_op` (handlers.c); `malloc` is taken to succeed. -/
def handle_read_op {σ : Type} (h : HostFs σ) (fs : σ) (full_path : List Char) :
    List ResultItem × List Event :=
  match h.fopen_read fs full_path with
  | none => ([ResultItem.error "File not found".toList], [Event.fs_read full_path])
  | some bytes =>
    ([ResultItem.content (cstr_at (bytes.take (BUFFER_SIZE * 2 - 1)) 0)],
      [Event.fs_read full_path])

/-- Source: `handle_write_op` (handlers.c). -/
def handle_write_op {σ : Type} (h : HostFs σ) (fs : σ) (full_path : List Char)
    (content : Option (List Char)) : σ × List ResultItem × List Event :=
  match content with
  | none => (fs, [ResultItem.error "No content provided".toList], [])
  | some c =>
    match h.fopen_write fs full_path c with
    | none => (fs, [ResultItem.error "Could not create file".toList],
        [Event.fs_write full_path c])
    | some (fs1, written) =>
      if written ≠ c.length then
        (fs1, [ResultItem.error "Write failed".toList], [Event.fs_write full_path c])
      else (fs1, [], [Event.fs_write full_path c])

/-- Source: `handle_mkdir_op` (handlers.c). -/
def handle_mkdir_op {σ : Type} (h : HostFs σ) (fs : σ) (full_path : List Char) :
    σ × List ResultItem × List Event :=
  match h.create_directory fs full_path with
  | (fs1, MkdirOutcome.failed) =>
    (fs1, [ResultItem.error "Could not create directory".toList], [Event.fs_mkdir full_path])
  | (fs1, _) => (fs1, [], [Event.fs_mkdir full_path])

/-- The log line written when a result POST fails. -/
def post_log (post_ret : HttpResult) : List Event :=
  if post_ret ≠ HttpResult.HTTP_OK then
    [Event.log_error "handle_fileop".toList (http_error_string post_ret)]
  else []

/-- Source: `handle_fileop` (handlers.c).  `print` is `cJSON_PrintUnformatted`
on the result object (`none` for NULL), `poll` the reply to `/fs/poll`
(`none` when the request fails or the body is not JSON), `post_ret` what
`http_request` returns for the result POST.  Returns the new state, the
return value and the events after the poll request. -/
def handle_fileop {σ : Type} (h : HostFs σ) (print : List ResultItem → Option (List Char))
    (w : FsWorld σ) (poll : Option FsPoll) (post_ret : HttpResult) :
    FsWorld σ × Bool × List Event :=
  match poll with
  | none => (w, false, [])
  | some r =>
    if !r.has_pending then (w, false, [])
    else
      match r.op_id, r.operation, r.path with
      | some op_id, some op, some filepath =>
        match cache_lookup w.fs_cache op_id with
        | some cached_result =>
          (w, true, Event.http_post "/fs/result".toList cached_result :: post_log post_ret)
        | none =>
          match build_full_path filepath MAX_PATH_LEN with
          | none =>
            (w, false, [Event.log_error "handle_fileop".toList
              "path too long or traversal rejected".toList])
          | some full_path =>
            let done : σ × List ResultItem × List Event :=
              if op = "list".toList then
                let r1 := handle_list_op h w.fs full_path
                (w.fs, r1.1, r1.2)
              else if op = "read".toList then
                let r1 := handle_read_op h w.fs full_path
                (w.fs, r1.1, r1.2)
              else if op = "write".toList then handle_write_op h w.fs full_path r.content
              else if op = "mkdir".toList then handle_mkdir_op h w.fs full_path
              else (w.fs, [ResultItem.error "Unknown operation".toList], [])
            let result := ResultItem.op_id op_id :: done.2.1
            match print result with
            | some result_str =>
              let c := cache_store w.fs_cache w.fs_cache_index op_id result_str
              ({ fs := done.1, fs_cache := c.1, fs_cache_index := c.2 }, true,
                done.2.2 ++ Event.http_post "/fs/result".toList result_str :: post_log post_ret)
            | none => ({ w with fs := done.1 }, true, done.2.2)
      | _, _, _ => (w, false,
          [Event.log_error "handle_fileop".toList "malformed file operation request".toList])

/-- Whether an event is a file-system operation. -/
def Event.is_fs : Event → Bool
  | Event.fs_find _ => true
  | Event.fs_read _ => true
  | Event.fs_write _ _ => true
  | Event.fs_mkdir _ => true
  | _ => false


/-! ## Notions used by the statements -/

/-- Position `i` of `s` lies inside a URL: a "://" starts at some earlier
position `j`, and no blank or quote stands strictly between `j` and `i`. -/
def in_url_at (s : List Char) (i : Nat) : Prop :=
  ∃ j, j < i ∧ "://".toList <+: s.drop j ∧
    ∀ k c, j < k → k < i → s[k]? = some c → is_url_end c = false

/-- The loop flag `in_url` when the loop, started with flag `u`, reaches position `i`. -/
def url_flag (u : Bool) (s : List Char) (i : Nat) : Prop :=
  (u = true ∧ ∀ k c, k < i → s[k]? = some c → is_url_end c = false) ∨ in_url_at s i

/-- The invariant that ties the monitor to the position of the UI thread. -/
def approval_inv (s : Sys) (mon : Option Bool) : Prop :=
  (s.st.has_pending_approval = true → s.st.approval_id ≠ []) ∧
  match s.ui with
  | UiPc.idle => mon = some false
  | UiPc.deciding loc => mon = some false ∧ loc.local_approval_id ≠ []
  | UiPc.responding loc _ => mon.isSome = true ∧ loc.local_approval_id ≠ []
  | UiPc.finishing => mon = some false

/-- Every poll reply that announces an approval carries a non-empty id. -/
def act_has_id : Act → Prop
  | Act.sched (some r) => r.has_pending = true → ∃ id, r.approval_id = some id ∧ id ≠ []
  | _ => True

/-- A reply that announces an approval for tool "Bash" under the given id. -/
def sample_reply (id : Option (List Char)) : ApprovalPoll :=
  { has_pending := true, approval_id := id, tool_name := some "Bash".toList,
    tool_input := some "ls".toList }

/-- A connected client in the idle approval state. -/
def sample_client : ClientState :=
  { client_init false with session_id := "s1".toList, connected := true }

/-- One full round: poll, latch, then the four UI steps with key `y`. -/
def sample_round (id : Option (List Char)) : List Act :=
  [Act.sched none, Act.sched (some (sample_reply id)),
   Act.ui 'y', Act.ui 'y', Act.ui 'y', Act.ui 'y']

/-- Every slot with a non-empty id holds a result (true at start, kept by `cache_store`). -/
def cache_filled (cache : List CacheEntry) : Prop :=
  ∀ e ∈ cache, e.id ≠ [] → e.result ≠ none

/-- A small host for examples: the state counts the calls that changed the
file system; every write and every `CreateDirectory` succeeds. -/
def counting_fs : HostFs Nat :=
  { find_files := fun _ _ => some []
    fopen_read := fun _ _ => none
    fopen_write := fun n _ c => some (n + 1, c.length)
    create_directory := fun n _ => (n + 1, MkdirOutcome.created) }

/-- A stand-in for `cJSON_PrintUnformatted` in examples: it prints the `op_id`
item and, when present, a first `error` item, without escaping. -/
def sample_print : List ResultItem → Option (List Char)
  | [ResultItem.op_id id] => some ("\x7b\"op_id\":\"".toList ++ id ++ "\"\x7d".toList)
  | ResultItem.op_id id :: ResultItem.error msg :: _ =>
    some ("\x7b\"op_id\":\"".toList ++ id ++ "\",\"error\":\"".toList ++ msg ++ "\"\x7d".toList)
  | _ => none

/-- The handler state at program start over `counting_fs`. -/
def sample_world : FsWorld Nat := { fs := 0, fs_cache := cache_init, fs_cache_index := 0 }

/-- The write request of the specification's second scenario. -/
def sample_write (op_id : List Char) : FsPoll :=
  { has_pending := true, op_id := some op_id, operation := some "write".toList,
    path := some "/x.txt".toList, content := some "hello".toList }


/-- The pieces of a text between its backslashes, from left to right. -/
def split_on_backslash : List Char → List (List Char)
  | [] => [[]]
  | c :: rest =>
    match split_on_backslash rest with
    | [] => [[c]]
    | s :: ss => if c = '\\' then [] :: s :: ss else (c :: s) :: ss

/-- Pieces joined again with the separator `sep` between neighbours. -/
def join_with (sep : Char) : List (List Char) → List Char
  | [] => []
  | [s] => s
  | s :: s2 :: rest => s ++ sep :: join_with sep (s2 :: rest)

/-- Depth bookkeeping over the pieces of a path, read left to right: an empty
piece or "." leaves the depth, ".." lowers it, any other piece raises it; the
result tells whether some ".." arrives while the depth is 0. -/
def escapes_root : Nat → List (List Char) → Bool
  | _, [] => false
  | depth, seg :: rest =>
    if seg = [] ∨ seg = ['.'] then escapes_root depth rest
    else if seg = ['.', '.'] then
      if depth = 0 then true else escapes_root (depth - 1) rest
    else escapes_root (depth + 1) rest

/-- The scanning loop of `normalize_path` told piece by piece: `p` is the offset
of the first piece, the stack holds each kept segment's offset and text. -/
def scan_pairs : List (List Char) → Nat → List (Nat × List Char) →
    Option (List (Nat × List Char))
  | [], _, st => some st
  | seg :: rest, p, st =>
    if seg = [] ∨ seg = ['.'] then scan_pairs rest (p + seg.length + 1) st
    else if seg = ['.', '.'] then
      if st.length = 0 then none else scan_pairs rest (p + seg.length + 1) st.dropLast
    else if st.length ≥ 128 then none
    else scan_pairs rest (p + seg.length + 1) (st ++ [(p, seg)])

/-- The C string at offset `s` of buffer `m` is exactly `t`. -/
def holds (m : List Char) (s : Nat) (t : List Char) : Prop :=
  NUL ∉ t ∧ ∃ r, m.drop s = t ++ NUL :: r

/-- What the scanning loop guarantees about its stack inside buffer `m`: every
entry is the C string at its offset, lies at or after `lo` and ends before
`hi`, is a proper name without backslash that satisfies `P`, and the entries
follow each other without overlap. -/
def stack_ok (P : List Char → Prop) (m : List Char) (lo hi : Nat)
    (st : List (Nat × List Char)) : Prop :=
  (∀ x ∈ st, holds m x.1 x.2 ∧ lo ≤ x.1 ∧ x.1 + x.2.length < hi ∧
    x.2 ≠ [] ∧ x.2 ≠ ['.'] ∧ x.2 ≠ ['.', '.'] ∧ '\\' ∉ x.2 ∧ P x.2) ∧
  st.Pairwise (fun a b => a.1 + a.2.length < b.1)

/-- The '/' at position `i` of `s` is one that `path_to_backslashes` is meant to
leave alone: it lies inside a URL, or it opens a switch (it stands at the
start or right after a blank or tab, and a switch character follows). -/
def exempt_slash (s : List Char) (i : Nat) : Prop :=
  in_url_at s i ∨
    ((i = 0 ∨ ∃ j, j + 1 = i ∧ (s[j]? = some ' ' ∨ s[j]? = some '\t')) ∧
      ∃ c, s[i + 1]? = some c ∧ is_switch_char c = true)

/-! ## Paths given by their segments -/

/-- The two path separators a caller may write. -/
def is_separator (c : Char) : Bool := c == '/' || c == '\\'

/-- A character of a plain segment: letter, digit, '_' or '.'. -/
def is_segment_char (c : Char) : Bool := c.isAlphanum || c == '_' || c == '.'

/-- A character that may stand in a segment without touching the slash
conversion or the scan: no separator, no NUL, no blank, no tab. -/
def is_clean_char (c : Char) : Bool :=
  !(c == '/' || c == '\\' || c == NUL || c == ' ' || c == '\t')

/-- The text of the separator-segment pairs, in order. -/
def tail_text : List (Char × List Char) → List Char
  | [] => []
  | x :: rest => x.1 :: (x.2 ++ tail_text rest)

/-- A path text: an optional leading separator, a first segment, then pairs of
one separator and one segment. -/
def make_path (lead : Option Char) (first : List Char) (more : List (Char × List Char)) :
    List Char :=
  lead.toList ++ first ++ tail_text more

/-- Resolution of segments by the specification's words, left to right over the
segments kept so far: "." is dropped, ".." removes the last kept segment
(`none` when there is none: the path would leave the root), any other segment
is kept. -/
def resolve_segments : List (List Char) → List (List Char) → Option (List (List Char))
  | kept, [] => some kept
  | kept, seg :: rest =>
    if seg = ['.'] then resolve_segments kept rest
    else if seg = ['.', '.'] then
      if kept = [] then none else resolve_segments kept.dropLast rest
    else resolve_segments (kept ++ [seg]) rest

/-- The number of kept segments stays at or below `limit` while the segments
are read from depth `depth`. -/
def depth_within (limit : Nat) : Nat → List (List Char) → Bool
  | _, [] => true
  | depth, seg :: rest =>
    if seg = ['.'] then depth_within limit depth rest
    else if seg = ['.', '.'] then depth_within limit (depth - 1) rest
    else decide (depth < limit) && depth_within limit (depth + 1) rest

/-! ## handlers.c: shell backends -/

/-- The Windows constant `MAX_PATH` (windef.h). -/
def MAX_PATH : Nat := 260

/-- What a shell backend hands back: the return value, the text left in
`output`, and the command lines passed to `_popen` or `system`. -/
structure ShellResult where
  exit_code : Int
  output : List Char
  cmdlines : List (List Char)
  deriving DecidableEq, Repr

/-- Source: `execute_command_nt` (handlers.c).  `popen` stands for `_popen`
with `_pclose`: `none` when the pipe cannot be opened, else the bytes the
child writes and its exit code. -/
def execute_command_nt (popen : List Char → Option (List Char × Int)) (command : List Char)
    (output_size : Nat) : ShellResult :=
  let overhead := ("cmd.exe /c ".length + 1) - 1 + (" 2>&1".length + 1)
  let max_cmd_len := 1024 - overhead
  if command.length > max_cmd_len then
    { exit_code := -1, output := strncpy "Command too long".toList (output_size - 1),
      cmdlines := [] }
  else
    let cmdline := ("cmd.exe /c ".toList ++ command ++ " 2>&1".toList).take (1024 - 1)
    match popen cmdline with
    | none =>
      { exit_code := -1, output := strncpy "Failed to execute command".toList (output_size - 1),
        cmdlines := [cmdline] }
    | some (out, code) =>
      { exit_code := code, output := cstr_at (out.take (output_size - 1)) 0,
        cmdlines := [cmdline] }

/-- The name `execute_command_9x` builds in `temp_file[MAX_PATH]`: the
directory from `TEMP`, else `TMP`, else "C:". -/
def temp_file_path (getenv : List Char → Option (List Char)) : List Char :=
  let temp_dir :=
    match getenv "TEMP".toList with
    | some d => d
    | none =>
      match getenv "TMP".toList with
      | some d => d
      | none => "C:".toList
  (temp_dir ++ "\\CMDOUT.TMP".toList).take (MAX_PATH - 1)

/-- Source: `execute_command_9x` (handlers.c).  `system` stands for the C
function with the file it leaves behind: the exit code and the bytes of the
temp file (`none` when it cannot be opened). -/
def execute_command_9x (getenv : List Char → Option (List Char))
    (system : List Char → Int × Option (List Char)) (command : List Char)
    (output_size : Nat) : ShellResult :=
  let temp_file := temp_file_path getenv
  let max_cmd_len := 2048 - 15 - 3 - temp_file.length - 1
  if command.length > max_cmd_len then
    { exit_code := -1, output := strncpy "Command too long".toList (output_size - 1),
      cmdlines := [] }
  else
    let cmdline :=
      ("command.com /c ".toList ++ command ++ " > ".toList ++ temp_file).take (2048 - 1)
    let ran := system cmdline
    match ran.2 with
    | some out =>
      { exit_code := ran.1, output := cstr_at (out.take (output_size - 1)) 0,
        cmdlines := [cmdline] }
    | none =>
      { exit_code := ran.1,
        output := strncpy "Error: Could not capture output".toList (output_size - 1),
        cmdlines := [cmdline] }

/-! ## session.c, claude.c: the session fields -/

/-- The reply to `POST /start` as read through cJSON: the string items
`error` and `session_id` (`none` when absent or not a string). -/
structure StartReply where
  error : Option (List Char)
  session_id : Option (List Char)
  deriving DecidableEq, Repr

/-- The reply to `GET /output` as read through cJSON. -/
structure OutputReply where
  output : Option (List Char)
  status : Option (List Char)
  deriving DecidableEq, Repr

/-- Source: `session_connect` (session.c).  `reply` is `none` when the request
fails or the body is not JSON, `tick` is `GetTickCount()`. -/
def session_connect (st : ClientState) (reply : Option StartReply) (tick : Nat) : ClientState :=
  if st.session_id ≠ [] then st
  else
    match reply with
    | none => st
    | some r =>
      if r.error.isSome then st
      else
        match r.session_id with
        | none => st
        | some id =>
          { st with session_id := strncpy id 63, connected := true, session_stopped := false,
                    last_heartbeat := tick }

/-- Source: `session_disconnect` (session.c). -/
def session_disconnect (st : ClientState) : ClientState :=
  if st.session_id = [] then st
  else { st with session_id := [], connected := false }

/-- Whether the reply carries the status "stopped". -/
def OutputReply.stopped (r : OutputReply) : Bool := r.status == some "stopped".toList

/-- Source: `session_poll_once` (session.c). -/
def session_poll_once (st : ClientState) (reply : Option OutputReply) : ClientState :=
  if st.session_id = [] then st
  else
    match reply with
    | none => st
    | some r => if r.stopped then { st with session_id := [], connected := false } else st

/-- Source: `poll_thread_func` (claude.c), the critical section of one round
that had a session id: the output is parked and the stop is flagged. -/
def poll_thread_output (st : ClientState) (reply : Option OutputReply) : ClientState :=
  match reply with
  | none => st
  | some r =>
    let st1 :=
      match r.output with
      | some o =>
        if o ≠ [] then
          { st with pending_output := strncpy o (BUFFER_SIZE - 1), has_pending_output := true }
        else st
      | none => st
    if r.stopped then { st1 with session_stopped := true } else st1

/-- The critical section shared by `check_pending_output` (claude.c) and the
threaded branch of `session_poll_output` (session.c). -/
def take_pending_output (st : ClientState) : ClientState :=
  let st1 := if st.has_pending_output then { st with has_pending_output := false } else st
  if st1.session_stopped then
    { st1 with session_stopped := false, session_id := [], connected := false }
  else st1

/-- Source: `check_pending_output` (claude.c), its effect on `g_state`:
without a poll thread it calls `poll_sync`, which leaves the session fields
alone. -/
def check_pending_output (threaded : Bool) (st : ClientState) : ClientState :=
  if threaded then take_pending_output st else st

/-- Source: `session_poll_output` (session.c), the session handling of one
round of its loop. -/
def session_poll_output (threaded : Bool) (st : ClientState) (reply : Option OutputReply) :
    ClientState :=
  if st.session_id = [] then st
  else if threaded then take_pending_output st
  else
    match reply with
    | none => st
    | some r => if r.stopped then { st with session_id := [], connected := false } else st

/-- One call into the session code. -/
inductive SessionOp
  | connect (reply : Option StartReply) (tick : Nat)
  | disconnect
  | poll_once (reply : Option OutputReply)
  | thread_output (reply : Option OutputReply)
  | check_pending (threaded : Bool)
  | poll_output (threaded : Bool) (reply : Option OutputReply)
  deriving DecidableEq, Repr

/-- The state after one call. -/
def session_step (st : ClientState) : SessionOp → ClientState
  | SessionOp.connect reply tick => session_connect st reply tick
  | SessionOp.disconnect => session_disconnect st
  | SessionOp.poll_once reply => session_poll_once st reply
  | SessionOp.thread_output reply => poll_thread_output st reply
  | SessionOp.check_pending threaded => check_pending_output threaded st
  | SessionOp.poll_output threaded reply => session_poll_output threaded st reply

/-- The state after a sequence of calls. -/
def session_run (st : ClientState) (ops : List SessionOp) : ClientState :=
  ops.foldl session_step st

/-- The relation between the two session fields: `connected` is set exactly
when `session_id` holds text. -/
def session_inv (st : ClientState) : Prop := st.connected = true ↔ st.session_id ≠ []

/-- A call whose `/start` reply, if it names a session, names it with a
non-empty id. -/
def SessionOp.names_session : SessionOp → Prop
  | SessionOp.connect (some r) _ => r.session_id ≠ some []
  | _ => True

/-! ## handlers.c: approval in synchronous mode -/

/-- Source: `handle_approval` (handlers.c): return value and events; `g_state`
is only read. -/
def handle_approval (st : ClientState) (reply : Option ApprovalPoll) (key : Char) :
    Bool × List Event :=
  if st.session_id = [] then (false, [])
  else
    let get := Event.http_get (approval_poll_path st.session_id)
    match reply with
    | none => (false, [get])
    | some r =>
      if !r.has_pending then (false, [get])
      else
        let prompt := Event.approval_prompt
          (match r.tool_name with
            | some s => s
            | none => "unknown".toList)
          (match r.tool_input with
            | some s => s
            | none => [])
        let approved := key == 'y' || key == 'Y'
        (true, get :: prompt ::
          (match r.approval_id with
            | some id => [Event.http_post "/approval/respond".toList (approval_body id approved)]
            | none => []))

/-- Threaded mode: `poll_approval` on the poll thread, then `process_approval`
on the main thread; the events of both. -/
def threaded_approval (st : ClientState) (reply : Option ApprovalPoll) (key : Char) :
    List Event :=
  let p := poll_approval st reply
  p.2.2 ++ (process_approval p.1 key).2.2

/-- The bodies POSTed to `/approval/respond`, in order. -/
def respond_bodies : List Event → List (List Char)
  | [] => []
  | Event.http_post path body :: rest =>
    if path = "/approval/respond".toList then body :: respond_bodies rest
    else respond_bodies rest
  | _ :: rest => respond_bodies rest

/-! ## transfer.c: download -/

/-- The largest `unsigned long` of the 32-bit Windows targets. -/
def ULONG_MAX : Nat := 2 ^ 32 - 1

/-- The optional sign in front of a number: whether it is a minus, and the
text behind it. -/
def strtoul_sign : List Char → Bool × List Char
  | '-' :: r => (true, r)
  | '+' :: r => (false, r)
  | r => (false, r)

/-- The C function `strtoul(s, &endptr, 10)`: blanks, an optional sign, then
digits; `none` when there is no digit (`endptr == s`), `ULONG_MAX` when the
number is out of range, the negation modulo 2^32 after a minus sign. -/
def strtoul (s : List Char) : Option Nat :=
  let signed := strtoul_sign (s.dropWhile isspace)
  let ds := signed.2.takeWhile Char.isDigit
  if ds = [] then none
  else
    let v := ds.foldl (fun acc c => acc * 10 + (c.toNat - '0'.toNat)) 0
    some (if v > ULONG_MAX then ULONG_MAX
      else if signed.1 then (2 ^ 32 - v) % 2 ^ 32 else v)

/-- One round of the receive loop as the peer and the disk decide it: `select`
times out, `recv` returns 0 or an error, or `recv` has `n` bytes on offer
and `fwrite` stores them all or not. -/
inductive RecvEvent
  | timeout
  | closed
  | data (n : Nat) (write_ok : Bool)
  deriving DecidableEq, Repr

/-- The receive loop of `transfer_download`: the final value of `total`.  A
round asks for at most `sizeof(buffer)` = 4096 bytes and at most what is
missing; the peer going away ends the list. -/
def download_loop (file_size : Nat) : Nat → List RecvEvent → Nat
  | total, [] => total
  | total, e :: rest =>
    if total < file_size then
      let to_read := if file_size - total < 4096 then file_size - total else 4096
      match e with
      | RecvEvent.timeout => total
      | RecvEvent.closed => total
      | RecvEvent.data n write_ok =>
        let received := min n to_read
        if received ≤ 0 then total
        else if !write_ok then total
        else download_loop file_size (total + received) rest
    else total

/-- Return value of `transfer_download` and the number of bytes received and
written (`total`). -/
structure DownloadResult where
  ret : Int
  total : Nat
  deriving DecidableEq, Repr

/-- Source: `transfer_download` (transfer.c).  `header` is the line `read_line`
returns (`none` when the socket, the connection, the request or the line
fails), `fopen_ok` whether the local file can be created. -/
def transfer_download (header : Option (List Char)) (fopen_ok : Bool)
    (events : List RecvEvent) : DownloadResult :=
  match header with
  | none => { ret := -1, total := 0 }
  | some line =>
    if "ERROR ".toList.isPrefixOf line then { ret := -1, total := 0 }
    else if !("OK ".toList.isPrefixOf line) then { ret := -1, total := 0 }
    else
      match strtoul (line.drop 3) with
      | none => { ret := -1, total := 0 }
      | some file_size =>
        if file_size = 0 then { ret := -1, total := 0 }
        else if !fopen_ok then { ret := -1, total := 0 }
        else
          let total := download_loop file_size 0 events
          if total = file_size then { ret := 0, total := total }
          else { ret := -1, total := total }

/-- The decimal digits of a size, as the file server prints it. -/
def decimal (n : Nat) : List Char := Nat.toDigits 10 n

/-! ## A file system in memory -/

/-- A host whose state lists the files, newest first: a write always succeeds
and stores every byte, a read finds the newest file of that name. -/
def mem_fs : HostFs (List (List Char × List Char)) :=
  { find_files := fun _ _ => none
    fopen_read := fun fs p => fs.lookup p
    fopen_write := fun fs p c => some ((p, c) :: fs, c.length)
    create_directory := fun fs _ => (fs, MkdirOutcome.created) }

/-- A host reads back what a complete write stored. -/
def reads_back {σ : Type} (h : HostFs σ) : Prop :=
  ∀ (fs fs1 : σ) (p c : List Char),
    h.fopen_write fs p c = some (fs1, c.length) → h.fopen_read fs1 p = some c

/-- A stand-in for `cJSON_PrintUnformatted` in examples: it prints the `op_id`
item and a first `content` or `error` item, without escaping. -/
def content_print : List ResultItem → Option (List Char)
  | [ResultItem.op_id id] => some ("\x7b\"op_id\":\"".toList ++ id ++ "\"\x7d".toList)
  | ResultItem.op_id id :: ResultItem.content c :: _ =>
    some ("\x7b\"op_id\":\"".toList ++ id ++ "\",\"content\":\"".toList ++ c ++ "\"\x7d".toList)
  | ResultItem.op_id id :: ResultItem.error msg :: _ =>
    some ("\x7b\"op_id\":\"".toList ++ id ++ "\",\"error\":\"".toList ++ msg ++ "\"\x7d".toList)
  | _ => none

/-- The handler state at program start over `mem_fs`. -/
def mem_world : FsWorld (List (List Char × List Char)) :=
  { fs := [], fs_cache := cache_init, fs_cache_index := 0 }

/-- A pending request of the file-operation channel. -/
def fs_request (op_id op path : List Char) (content : Option (List Char)) : FsPoll :=
  { has_pending := true, op_id := some op_id, operation := some op, path := some path,
    content := content }

/-! ## handlers.c: the command handler -/

/-- Source: `MAX_CMD_OUTPUT` (claude.h). -/
def MAX_CMD_OUTPUT : Nat := BUFFER_SIZE * 4

/-- A value the client puts into a cJSON object. -/
inductive JsonValue
  | str (s : List Char)
  | num (n : Int)
  deriving DecidableEq, Repr

/-- The reply to `GET /cmd/poll` as read through cJSON. -/
structure CmdPoll where
  has_pending : Bool
  cmd_id : Option (List Char)
  command : Option (List Char)
  working_directory : Option (List Char)
  deriving DecidableEq, Repr

/-- The host as `handle_command` uses it: `major` is
`LOBYTE(LOWORD(GetVersion()))`, `popen`, `getenv` and `system` are the
parameters of the two backends, `set_current_directory` tells whether
`SetCurrentDirectory` succeeds, `current_directory` is what
`GetCurrentDirectory` reports. -/
structure ShellHost where
  major : Nat
  popen : List Char → Option (List Char × Int)
  getenv : List Char → Option (List Char)
  system : List Char → Int × Option (List Char)
  set_current_directory : List Char → Bool
  current_directory : List Char

/-- The handler's own state: `cmd_cache`, `cmd_cache_index`. -/
structure CmdWorld where
  cmd_cache : List CacheEntry
  cmd_cache_index : Nat
  deriving DecidableEq, Repr

/-- What one call of `handle_command` does: the new state, the return value,
the POSTs and log lines, the directories passed to `SetCurrentDirectory`, the
command lines handed to a backend's `_popen` / `system`, and the result
object it built (`none` when it built none). -/
structure CommandRun where
  world : CmdWorld
  did_work : Bool
  events : List Event
  dirs : List (List Char)
  cmdlines : List (List Char)
  result : Option (List (List Char × JsonValue))
  deriving DecidableEq, Repr

/-- The log line written when the POST of a command result fails. -/
def cmd_post_log (post_ret : HttpResult) : List Event :=
  if post_ret ≠ HttpResult.HTTP_OK then
    [Event.log_error "handle_command".toList (http_error_string post_ret)]
  else []

/-- The text `handle_command` passes to the backend: the command copied into
`cmd_copy[1024]` with `strncpy`, then converted in place. -/
def command_copy (command : List Char) : List Char :=
  path_to_backslashes (strncpy command (1024 - 1))

/-- The backend `handle_command` selects by the major version. -/
def execute_command (h : ShellHost) (cmd_copy : List Char) : ShellResult :=
  if h.major ≥ 5 then execute_command_nt h.popen cmd_copy MAX_CMD_OUTPUT
  else execute_command_9x h.getenv h.system cmd_copy MAX_CMD_OUTPUT

/-- The directory switch of `handle_command`: the log lines and the
directories passed to `SetCurrentDirectory` before the command runs, and
whether the old directory is restored afterwards. -/
def change_directory (h : ShellHost) (workdir : Option (List Char)) :
    List Event × List (List Char) × Bool :=
  match workdir with
  | none => ([], [], false)
  | some dir =>
    if dir = [] then ([], [], false)
    else
      match build_full_path dir MAX_PATH_LEN with
      | none => ([], [], false)
      | some full_workdir =>
        if h.set_current_directory full_workdir then ([], [full_workdir], true)
        else ([Event.log_error "command".toList "Could not change directory".toList],
          [full_workdir], false)

/-- Source: `handle_command` (handlers.c).  `print` is `cJSON_PrintUnformatted`
on the result object (`none` for NULL), `poll` the reply to `/cmd/poll`
(`none` when the request fails or the body is not JSON), `post_ret` what
`http_request` returns for the result POST; `malloc` is taken to succeed. -/
def handle_command (h : ShellHost) (print : List (List Char × JsonValue) → Option (List Char))
    (w : CmdWorld) (poll : Option CmdPoll) (post_ret : HttpResult) : CommandRun :=
  match poll with
  | none => { world := w, did_work := false, events := [], dirs := [], cmdlines := [],
              result := none }
  | some r =>
    if !r.has_pending then
      { world := w, did_work := false, events := [], dirs := [], cmdlines := [], result := none }
    else
      match r.cmd_id, r.command with
      | some cmd_id, some command =>
        match cache_lookup w.cmd_cache cmd_id with
        | some cached_result =>
          { world := w, did_work := true,
            events := Event.http_post "/cmd/result".toList cached_result ::
              cmd_post_log post_ret,
            dirs := [], cmdlines := [], result := none }
        | none =>
          let cd := change_directory h r.working_directory
          let ran := execute_command h (command_copy command)
          let dirs := cd.2.1 ++ (if cd.2.2 then [h.current_directory] else [])
          let result : List (List Char × JsonValue) :=
            [("command_id".toList, JsonValue.str cmd_id),
             ("stdout".toList, JsonValue.str ran.output),
             ("stderr".toList, JsonValue.str []),
             ("exit_code".toList, JsonValue.num ran.exit_code)]
          match print result with
          | some result_str =>
            let c := cache_store w.cmd_cache w.cmd_cache_index cmd_id result_str
            { world := { cmd_cache := c.1, cmd_cache_index := c.2 }, did_work := true,
              events := cd.1 ++ Event.http_post "/cmd/result".toList result_str ::
                cmd_post_log post_ret,
              dirs := dirs, cmdlines := ran.cmdlines, result := some result }
          | none =>
            { world := w, did_work := true, events := cd.1, dirs := dirs,
              cmdlines := ran.cmdlines, result := some result }
      | _, _ =>
        { world := w, did_work := false,
          events := [Event.log_error "handle_command".toList
            "malformed command request".toList],
          dirs := [], cmdlines := [], result := none }

/-- A Windows 98 host for examples: major version 4, no `TEMP` or `TMP`, every
command exits with 0 and leaves an empty temp file. -/
def win98_host : ShellHost :=
  { major := 4
    popen := fun _ => some ([], 0)
    getenv := fun _ => none
    system := fun _ => (0, some [])
    set_current_directory := fun _ => true
    current_directory := "C:\\".toList }

/-- A Windows XP host for examples: major version 5. -/
def winxp_host : ShellHost := { win98_host with major := 5 }

/-- A stand-in for `cJSON_PrintUnformatted` on command results in examples: the
fields in order, without escaping. -/
def cmd_print (result : List (List Char × JsonValue)) : Option (List Char) :=
  some ("\x7b".toList ++
    join_with ','
      (result.map (fun kv =>
        "\"".toList ++ kv.1 ++ "\":".toList ++
          (match kv.2 with
            | JsonValue.str s => "\"".toList ++ s ++ "\"".toList
            | JsonValue.num n => if n < 0 then '-' :: decimal n.natAbs else decimal n.natAbs))) ++
    "\x7d".toList)

/-- The command handler's state at program start. -/
def cmd_world : CmdWorld := { cmd_cache := cache_init, cmd_cache_index := 0 }

/-- A pending request of the command channel, without a working directory. -/
def cmd_request (cmd_id command : List Char) : CmdPoll :=
  { has_pending := true, cmd_id := some cmd_id, command := some command,
    working_directory := none }

/-! ## session.c: heartbeat -/

/-- Source: `HEARTBEAT_INTERVAL_MS` (claude.h). -/
def HEARTBEAT_INTERVAL_MS : Nat := 30000

/-- Subtraction of two `DWORD` values: the difference modulo 2^32. -/
def dword_sub (a b : Nat) : Nat := (a % 2 ^ 32 + 2 ^ 32 - b % 2 ^ 32) % 2 ^ 32

/-- The body `snprintf` builds in `session_heartbeat` (`char body[256]`). -/
def heartbeat_body (session_id : List Char) : List Char :=
  ("\x7b\"session_id\":\"".toList ++ session_id ++ "\"\x7d".toList).take 255

/-- Source: `session_heartbeat` (session.c).  `tick` is `GetTickCount()`,
`post_ret` what `http_request` returns for the POST. -/
def session_heartbeat (st : ClientState) (tick : Nat) (post_ret : HttpResult) :
    ClientState × List Event :=
  if st.session_id = [] then (st, [])
  else
    let now := tick % 2 ^ 32
    if st.last_heartbeat ≠ 0 ∧ dword_sub now st.last_heartbeat < HEARTBEAT_INTERVAL_MS then
      (st, [])
    else
      (if post_ret = HttpResult.HTTP_OK then { st with last_heartbeat := now } else st,
        [Event.http_post "/heartbeat".toList (heartbeat_body st.session_id)])

/-! ## claude.c: one round of the scheduler -/

/-- A call the scheduler makes in one round. -/
inductive SchedCall
  | handle_fileop
  | handle_command
  | poll_approval
  | handle_approval
  | get_output
  deriving DecidableEq, Repr

/-- The loop `while (handler()) { }`: `returns` lists what the successive calls
return; the loop ends with the first 0.  `none` when the list holds no 0, so
that the loop is still running when the list is used up. -/
def drain (call : SchedCall) : List Bool → Option (List SchedCall)
  | [] => none
  | true :: rest => (drain call rest).map (fun calls => call :: calls)
  | false :: _ => some [call]

/-- Source: `poll_thread_func` (claude.c), the calls of one round of its loop
for the session id copied at the start of the round. -/
def poll_thread_func (local_session_id : List Char) (fs_returns cmd_returns : List Bool) :
    Option (List SchedCall) :=
  if local_session_id = [] then some []
  else
    match drain SchedCall.handle_fileop fs_returns with
    | none => none
    | some fs_calls =>
      match drain SchedCall.handle_command cmd_returns with
      | none => none
      | some cmd_calls =>
        some (fs_calls ++ cmd_calls ++ [SchedCall.poll_approval, SchedCall.get_output])

/-- Source: `poll_sync` (claude.c), the calls it makes. -/
def poll_sync (session_id : List Char) (fs_returns cmd_returns : List Bool) :
    Option (List SchedCall) :=
  if session_id = [] then some []
  else
    match drain SchedCall.handle_fileop fs_returns with
    | none => none
    | some fs_calls =>
      match drain SchedCall.handle_command cmd_returns with
      | none => none
      | some cmd_calls =>
        some (fs_calls ++ cmd_calls ++ [SchedCall.handle_approval, SchedCall.get_output])

/-- The request a call opens with: every handler polls its channel first. -/
def SchedCall.poll_path : SchedCall → List Char
  | SchedCall.handle_fileop => "/fs/poll".toList
  | SchedCall.handle_command => "/cmd/poll".toList
  | SchedCall.poll_approval => "/approval/poll".toList
  | SchedCall.handle_approval => "/approval/poll".toList
  | SchedCall.get_output => "/output".toList

/-- In a list of calls, no call with `later` stands before a call with `earlier`. -/
def calls_ordered (earlier later : SchedCall → Bool) (calls : List SchedCall) : Prop :=
  ∀ (i j : Nat) (a b : SchedCall), calls[i]? = some a → calls[j]? = some b → later a = true → earlier b = true →
    j < i

/-! ## Output hand-over between the threads -/

/-- What the critical section of `check_pending_output` and of the threaded
branch of `session_poll_output` prints: `pending_output`, when
`has_pending_output` is set. -/
def pending_print (st : ClientState) : List (List Char) :=
  if st.has_pending_output then [st.pending_output] else []

/-- What one call into the session code prints of the agent's output. -/
def session_print (st : ClientState) : SessionOp → List (List Char)
  | SessionOp.check_pending threaded => if threaded then pending_print st else []
  | SessionOp.poll_output threaded reply =>
    if st.session_id = [] then []
    else if threaded then pending_print st
    else
      match reply with
      | some r =>
        (match r.output with
          | some o => if o ≠ [] then [o] else []
          | none => [])
      | none => []
  | SessionOp.poll_once reply =>
    if st.session_id = [] then []
    else
      match reply with
      | some r =>
        (match r.output with
          | some o => if o ≠ [] then [o] else []
          | none => [])
      | none => []
  | _ => []

/-- Everything a sequence of calls prints of the agent's output, in order. -/
def session_prints : ClientState → List SessionOp → List (List Char)
  | _, [] => []
  | st, op :: rest => session_print st op ++ session_prints (session_step st op) rest

/-- One round of the poll thread that fetched the output `o`. -/
def fetch_output (o : List Char) : SessionOp :=
  SessionOp.thread_output (some { output := some o, status := none })

/-! ## The JSON reading of an approval answer -/

/-- The value of a hexadecimal digit. -/
def hex_value (c : Char) : Option Nat :=
  if '0' ≤ c ∧ c ≤ '9' then some (c.toNat - '0'.toNat)
  else if 'a' ≤ c ∧ c ≤ 'f' then some (c.toNat - 'a'.toNat + 10)
  else if 'A' ≤ c ∧ c ≤ 'F' then some (c.toNat - 'A'.toNat + 10)
  else none

/-- The character a JSON escape `\e` stands for (RFC 8259), `\u` apart. -/
def json_unescape : Char → Option Char
  | '"' => some '"'
  | '\\' => some '\\'
  | '/' => some '/'
  | 'b' => some (Char.ofNat 8)
  | 'f' => some (Char.ofNat 12)
  | 'n' => some '\n'
  | 'r' => some '\r'
  | 't' => some '\t'
  | _ => none

/-- A JSON string read from behind its opening quote (RFC 8259): the text it
denotes and what follows the closing quote; `none` when the string is not
closed, holds a control character or a bad escape. -/
def json_string_tail : List Char → Option (List Char × List Char)
  | [] => none
  | '"' :: rest => some ([], rest)
  | '\\' :: 'u' :: a :: b :: c :: d :: rest =>
    match hex_value a, hex_value b, hex_value c, hex_value d with
    | some x, some y, some z, some w =>
      (json_string_tail rest).map
        (fun r => (Char.ofNat (((x * 16 + y) * 16 + z) * 16 + w) :: r.1, r.2))
    | _, _, _, _ => none
  | '\\' :: e :: rest =>
    match json_unescape e with
    | some ch => (json_string_tail rest).map (fun r => (ch :: r.1, r.2))
    | none => none
  | ['\\'] => none
  | ch :: rest =>
    if ch.toNat < 32 then none
    else (json_string_tail rest).map (fun r => (ch :: r.1, r.2))

/-- What is left of `s` behind the text `t`, when `s` starts with it. -/
def after_text (t s : List Char) : Option (List Char) :=
  if t.isPrefixOf s then some (s.drop t.length) else none

/-- The JSON reading of a body of the shape the client sends to
`/approval/respond`, an object with the string member `approval_id` and the
boolean member `approved`: the two values, or `none` when the body is not
such an object. -/
def respond_body_reading (body : List Char) : Option (List Char × Bool) :=
  match after_text "\x7b\"approval_id\":\"".toList body with
  | none => none
  | some s =>
    match json_string_tail s with
    | none => none
    | some (id, rest) =>
      if rest = ",\"approved\":true\x7d".toList then some (id, true)
      else if rest = ",\"approved\":false\x7d".toList then some (id, false)
      else none

/-- A character that stands for itself inside a JSON string. -/
def json_plain (c : Char) : Bool := c != '"' && c != '\\' && decide (32 ≤ c.toNat)

/-! # Theorems -/

theorem url_start_iff (c : Char) (rest : List Char) :
    ((c == ':' && rest.head? == some '/' && rest.tail.head? == some '/') = true) ↔
      "://".toList <+: (c :: rest) := by
  constructor
  · intro h
    simp only [Bool.and_eq_true, beq_iff_eq] at h
    obtain ⟨⟨h1, h2⟩, h3⟩ := h
    match rest, h2, h3 with
    | a :: b :: t, h2, h3 =>
      simp at h2 h3
      subst h1 h2 h3
      exact ⟨t, rfl⟩
  · rintro ⟨t, ht⟩
    simp at ht
    obtain ⟨h1, h2⟩ := ht
    subst h1 h2
    simp

theorem in_url_at_cons {c : Char} {rest : List Char} {i : Nat}
    (h : in_url_at rest i) : in_url_at (c :: rest) (i + 1) := by
  obtain ⟨j, hj, hp, hk⟩ := h
  refine ⟨j + 1, by omega, by simpa using hp, ?_⟩
  intro k d hjk hki hd
  obtain ⟨k, rfl⟩ : ∃ k0, k = k0 + 1 := ⟨k - 1, by omega⟩
  exact hk k d (by omega) (by omega) (by simpa using hd)

theorem ptb_length (prev : Char) (u : Bool) (s : List Char) :
    (path_to_backslashes_from prev u s).length = s.length := by
  induction s generalizing prev u with
  | nil => simp [path_to_backslashes_from]
  | cons c rest ih =>
    unfold path_to_backslashes_from
    split_ifs <;> simp [ih]

theorem ptb_other (prev : Char) (u : Bool) (s : List Char) (i : Nat) (c : Char)
    (h : s[i]? = some c) (hc : c ≠ '/') :
    (path_to_backslashes_from prev u s)[i]? = some c := by
  induction s generalizing prev u i with
  | nil => simp at h
  | cons d rest ih =>
    unfold path_to_backslashes_from
    cases i with
    | zero =>
      simp at h
      subst h
      split_ifs with h1 h2 h3 h4 <;> simp_all
    | succ i =>
      simp at h
      split_ifs <;> simp [ih _ _ i h]

theorem ptb_slash (prev : Char) (u : Bool) (s : List Char) (i : Nat)
    (h : s[i]? = some '/') :
    (path_to_backslashes_from prev u s)[i]? = some '/' ∨
      (path_to_backslashes_from prev u s)[i]? = some '\\' := by
  induction s generalizing prev u i with
  | nil => simp at h
  | cons d rest ih =>
    unfold path_to_backslashes_from
    cases i with
    | zero =>
      simp at h
      subst h
      split_ifs <;> simp
    | succ i =>
      simp at h
      split_ifs <;> simp [ih _ _ i h]

theorem url_flag_step {u u1 : Bool} {d : Char} {rest : List Char} {i : Nat}
    (hu : ¬ url_flag u (d :: rest) (i + 1))
    (h1 : u1 = true → (u = true ∧ is_url_end d = false) ∨ "://".toList <+: (d :: rest)) :
    ¬ url_flag u1 rest i := by
  rintro (⟨hu1, hall⟩ | hin)
  · rcases h1 hu1 with ⟨hut, hd⟩ | hp
    · apply hu
      left
      refine ⟨hut, ?_⟩
      intro k c hk hc
      cases k with
      | zero => simp at hc; subst hc; exact hd
      | succ k => exact hall k c (by omega) (by simpa using hc)
    · apply hu
      right
      refine ⟨0, by omega, by simpa using hp, ?_⟩
      intro k c hk0 hki hc
      obtain ⟨k, rfl⟩ : ∃ k0, k = k0 + 1 := ⟨k - 1, by omega⟩
      exact hall k c (by omega) (by simpa using hc)
  · exact hu (Or.inr (in_url_at_cons hin))

theorem prev_shift (P : Prop) (prev1 d : Char) (rest : List Char) (i : Nat)
    (hp : (prev1 = ' ' ∨ prev1 = '\t') ↔ (d = ' ' ∨ d = '\t')) :
    ((i = 0 ∧ (prev1 = ' ' ∨ prev1 = '\t')) ∨
        ∃ j, j + 1 = i ∧ (rest[j]? = some ' ' ∨ rest[j]? = some '\t')) ↔
      ((False ∧ P) ∨
        ∃ j, j + 1 = i + 1 ∧ ((d :: rest)[j]? = some ' ' ∨ (d :: rest)[j]? = some '\t')) := by
  constructor
  · rintro (⟨rfl, h⟩ | ⟨j, rfl, h⟩)
    · right
      exact ⟨0, rfl, by simpa using hp.mp h⟩
    · right
      exact ⟨j + 1, rfl, by simpa using h⟩
  · rintro (⟨h, _⟩ | ⟨j, hj, h⟩)
    · exact h.elim
    · have hji : j = i := by omega
      subst hji
      cases j with
      | zero =>
        left
        exact ⟨rfl, hp.mpr (by simpa using h)⟩
      | succ j =>
        right
        exact ⟨j, rfl, by simpa using h⟩

theorem ptb_switch (prev : Char) (u : Bool) (s : List Char) (i : Nat)
    (h : s[i]? = some '/') (hu : ¬ url_flag u s i) :
    (path_to_backslashes_from prev u s)[i]? = some '/' ↔
      ((i = 0 ∧ (prev = ' ' ∨ prev = '\t')) ∨
          ∃ j, j + 1 = i ∧ (s[j]? = some ' ' ∨ s[j]? = some '\t')) ∧
        ∃ c, s[i + 1]? = some c ∧ is_switch_char c = true := by
  induction s generalizing prev u i with
  | nil => simp at h
  | cons d rest ih =>
    cases i with
    | zero =>
      simp at h
      subst h
      have hu0 : u = false := by
        cases u with
        | false => rfl
        | true => exact absurd (Or.inl ⟨rfl, by intro k c hk; omega⟩) hu
      subst hu0
      unfold path_to_backslashes_from
      cases rest with
      | nil => simp
      | cons a t =>
        by_cases hsw : is_switch_char a = true <;>
        by_cases hp : (prev = ' ' ∨ prev = '\t') <;> simp [hsw, hp]
    | succ i =>
      simp only [List.getElem?_cons_succ] at h
      have key : ∀ (prev1 : Char) (u1 : Bool),
          ((prev1 = ' ' ∨ prev1 = '\t') ↔ (d = ' ' ∨ d = '\t')) →
          (u1 = true → (u = true ∧ is_url_end d = false) ∨ "://".toList <+: (d :: rest)) →
          ((path_to_backslashes_from prev1 u1 rest)[i]? = some '/' ↔
            ((False ∧ (prev = ' ' ∨ prev = '\t')) ∨
              ∃ j, j + 1 = i + 1 ∧
                ((d :: rest)[j]? = some ' ' ∨ (d :: rest)[j]? = some '\t')) ∧
            ∃ c, rest[i + 1]? = some c ∧ is_switch_char c = true) := by
        intro prev1 u1 hp h1
        rw [ih prev1 u1 i h (url_flag_step hu h1),
          prev_shift (prev = ' ' ∨ prev = '\t') prev1 d rest i hp]
      unfold path_to_backslashes_from
      split_ifs with h1 h2 h3 h4
      · simp only [List.getElem?_cons_succ]
        refine key d true Iff.rfl ?_
        intro _
        right
        have : (d == ':' && rest.head? == some '/' && rest.tail.head? == some '/') = true := by
          simp only [Bool.and_eq_true] at h1 ⊢
          exact ⟨⟨h1.1.1.2, h1.1.2⟩, h1.2⟩
        exact (url_start_iff d rest).mp this
      · simp only [List.getElem?_cons_succ]
        refine key d _ Iff.rfl ?_
        intro hd
        left
        exact ⟨h2, by simpa using hd⟩
      · simp only [List.getElem?_cons_succ]
        refine key d false Iff.rfl ?_
        intro hd
        simp at hd
      · simp only [List.getElem?_cons_succ]
        refine key '\\' false ?_ ?_
        · have hd : d = '/' := by simpa using h3
          subst hd
          decide
        · intro hd
          simp at hd
      · simp only [List.getElem?_cons_succ]
        refine key d false Iff.rfl ?_
        intro hd
        simp at hd

/-- C10 (as amended): `path_to_backslashes` keeps the length and every byte
other than '/'; a '/' outside any URL stays '/' exactly when it stands at the
start of the string or right after a blank or a tab (no other white space
counts) and the next byte is an ASCII letter or digit, '?', '-' or '@', and
becomes a backslash otherwise; "dir /s C:/tmp/a" becomes "dir /s C:\\tmp\\a". -/
theorem path_to_backslashes_switch_rule (s : List Char) :
    (path_to_backslashes s).length = s.length ∧
    (∀ (i : Nat) (c : Char), s[i]? = some c → c ≠ '/' → (path_to_backslashes s)[i]? = some c) ∧
    (∀ (i : Nat), s[i]? = some '/' → ¬ in_url_at s i →
      ((path_to_backslashes s)[i]? = some '/' ∨ (path_to_backslashes s)[i]? = some '\\') ∧
      ((path_to_backslashes s)[i]? = some '/' ↔
        (i = 0 ∨ ∃ j, j + 1 = i ∧ (s[j]? = some ' ' ∨ s[j]? = some '\t')) ∧
          ∃ c, s[i + 1]? = some c ∧ is_switch_char c = true)) ∧
    path_to_backslashes "dir /s C:/tmp/a".toList = "dir /s C:\\tmp\\a".toList := by
  refine ⟨ptb_length _ _ s, fun i c h hc => ptb_other _ _ s i c h hc, ?_, by decide⟩
  intro i h hu
  refine ⟨ptb_slash _ _ s i h, ?_⟩
  have hflag : ¬ url_flag false s i := by
    rintro (⟨h0, _⟩ | h1)
    · exact absurd h0 (by decide)
    · exact hu h1
  unfold path_to_backslashes
  rw [ptb_switch ' ' false s i h hflag]
  simp

/-- C10 counterexample: the rule "kept exactly when preceded by a white-space
character and followed by a switch character" fails: the '/' that opens "/s"
is kept with nothing before it, and in "a", newline, "/s" the '/' follows a
white-space character and precedes `s`, yet becomes a backslash. -/
theorem path_to_backslashes_whitespace_rule_fails :
    ¬ (∀ (s : List Char) (i : Nat), s[i]? = some '/' → ¬ in_url_at s i →
        ((path_to_backslashes s)[i]? = some '/' ↔
          (∃ j c, j + 1 = i ∧ s[j]? = some c ∧ isspace c = true) ∧
            ∃ c, s[i + 1]? = some c ∧ is_switch_char c = true)) ∧
    path_to_backslashes "/s".toList = "/s".toList ∧
    path_to_backslashes "a\n/s".toList = "a\n\\s".toList := by
  refine ⟨?_, by decide, by decide⟩
  intro hall
  have h0 : ¬ in_url_at "/s".toList 0 := by
    rintro ⟨j, hj, _⟩
    omega
  obtain ⟨⟨j, _, hj, _⟩, _⟩ := (hall "/s".toList 0 rfl h0).mp (by decide)
  omega

/-! ### Buffers -/

theorem store_bytes_eq {m : List Char} {dst : Nat} {bs : List Char}
    (h : dst + bs.length ≤ m.length) :
    store_bytes m dst bs = m.take dst ++ bs ++ m.drop (dst + bs.length) := by
  unfold store_bytes
  have h0 : dst - m.length = 0 := by omega
  rw [h0]
  simp

theorem store_bytes_length {m : List Char} {dst : Nat} {bs : List Char}
    (h : dst + bs.length ≤ m.length) : (store_bytes m dst bs).length = m.length := by
  rw [store_bytes_eq h]
  simp
  omega

theorem store_bytes_take {m : List Char} {dst p : Nat} (bs : List Char)
    (hp : p ≤ dst) (hm : p ≤ m.length) : (store_bytes m dst bs).take p = m.take p := by
  unfold store_bytes
  have hlen : ((m ++ List.replicate (dst - m.length) NUL).take dst).length = dst := by
    simp
    omega
  rw [List.append_assoc, List.take_append_of_le_length (by rw [hlen]; exact hp),
    List.take_take, Nat.min_eq_left hp, List.take_append_of_le_length hm]

theorem store_bytes_drop {m : List Char} {dst k : Nat} {bs : List Char}
    (h : dst + bs.length ≤ m.length) (hk : dst + bs.length ≤ k) :
    (store_bytes m dst bs).drop k = m.drop k := by
  rw [store_bytes_eq h]
  have hlen : (m.take dst ++ bs).length = dst + bs.length := by
    simp
    omega
  obtain ⟨d, rfl⟩ : ∃ d, k = (dst + bs.length) + d := ⟨k - (dst + bs.length), by omega⟩
  rw [← hlen, ← List.drop_drop, List.drop_left, hlen, List.drop_drop]

theorem store_bytes_take_end {m : List Char} {dst : Nat} {bs : List Char}
    (h : dst + bs.length ≤ m.length) :
    (store_bytes m dst bs).take (dst + bs.length) = m.take dst ++ bs := by
  rw [store_bytes_eq h]
  have hlen : (m.take dst ++ bs).length = dst + bs.length := by
    simp
    omega
  rw [← hlen, List.take_left]

theorem peek_eq_head (m : List Char) (i : Nat) : peek m i = (m.drop i).headD NUL := by
  unfold peek
  rw [List.getD_eq_getElem?_getD, List.headD_eq_head?_getD, List.head?_drop]

theorem takeWhile_append_stop {f : Char → Bool} {seg : List Char} {x : Char} {r : List Char}
    (hseg : ∀ c ∈ seg, f c = true) (hx : f x = false) :
    (seg ++ x :: r).takeWhile f = seg := by
  induction seg with
  | nil => simp [List.takeWhile, hx]
  | cons a t ih =>
    simp only [List.cons_append, List.takeWhile_cons, hseg a (List.mem_cons_self _ _), ↓reduceIte]
    rw [ih (fun c hc => hseg c (List.mem_cons_of_mem _ hc))]

theorem ne_nul_of_not_mem {t : List Char} (h : NUL ∉ t) : ∀ c ∈ t, (c != NUL) = true := by
  intro c hc
  simp only [bne_iff_ne, ne_eq]
  rintro rfl
  exact h hc

theorem holds_cstr {m : List Char} {s : Nat} {t : List Char} (h : holds m s t) :
    cstr_at m s = t := by
  obtain ⟨hn, r, hr⟩ := h
  unfold cstr_at
  rw [hr]
  exact takeWhile_append_stop (ne_nul_of_not_mem hn) (by simp)

theorem holds_bound {m : List Char} {s : Nat} {t : List Char} (h : holds m s t) :
    s + t.length < m.length := by
  obtain ⟨_, r, hr⟩ := h
  have := congrArg List.length hr
  simp at this
  omega

theorem holds_take {m : List Char} {s : Nat} {t : List Char} (h : holds m s t) :
    (m.drop s).take t.length = t := by
  obtain ⟨_, r, hr⟩ := h
  rw [hr, List.take_left]

theorem holds_of_drop_eq {m m1 : List Char} {s : Nat} {t : List Char} (h : holds m s t)
    (hd : m1.drop s = m.drop s) : holds m1 s t := by
  obtain ⟨hn, r, hr⟩ := h
  exact ⟨hn, r, by rw [hd, hr]⟩

/-! ### Pieces of a path -/

theorem split_ne_nil (t : List Char) : split_on_backslash t ≠ [] := by
  cases t with
  | nil => simp [split_on_backslash]
  | cons c rest =>
    unfold split_on_backslash
    split
    · simp
    · split_ifs <;> simp

theorem split_cons (c : Char) (rest : List Char) :
    ∃ s ss, split_on_backslash rest = s :: ss ∧
      split_on_backslash (c :: rest) =
        if c = '\\' then [] :: s :: ss else (c :: s) :: ss := by
  cases h : split_on_backslash rest with
  | nil => exact absurd h (split_ne_nil rest)
  | cons s ss =>
    refine ⟨s, ss, rfl, ?_⟩
    rw [split_on_backslash, h]

theorem join_split (t : List Char) : join_with '\\' (split_on_backslash t) = t := by
  induction t with
  | nil => rfl
  | cons c rest ih =>
    obtain ⟨s, ss, h1, h2⟩ := split_cons c rest
    rw [h2]
    rw [h1] at ih
    split_ifs with hc
    · subst hc
      simp [join_with, ih]
    · cases ss with
      | nil =>
        simp only [join_with] at ih ⊢
        rw [ih]
      | cons s2 rest2 =>
        simp only [join_with] at ih ⊢
        rw [← ih]
        simp

theorem split_pieces (t : List Char) :
    ∀ s ∈ split_on_backslash t, '\\' ∉ s ∧ ∀ c ∈ s, c ∈ t := by
  induction t with
  | nil =>
    intro s hs
    simp [split_on_backslash] at hs
    subst hs
    simp
  | cons c rest ih =>
    obtain ⟨s0, ss, h1, h2⟩ := split_cons c rest
    rw [h2]
    rw [h1] at ih
    intro s hs
    split_ifs at hs with hc
    · rcases List.mem_cons.mp hs with rfl | hs
      · simp
      · obtain ⟨ha, hb⟩ := ih s hs
        exact ⟨ha, fun x hx => List.mem_cons_of_mem _ (hb x hx)⟩
    · rcases List.mem_cons.mp hs with rfl | hs
      · obtain ⟨ha, hb⟩ := ih s0 (List.mem_cons_self _ _)
        refine ⟨?_, ?_⟩
        · intro hmem
          rcases List.mem_cons.mp hmem with h | h
          · exact hc h.symm
          · exact ha h
        · intro x hx
          rcases List.mem_cons.mp hx with rfl | hx
          · exact List.mem_cons_self _ _
          · exact List.mem_cons_of_mem _ (hb x hx)
      · obtain ⟨ha, hb⟩ := ih s (List.mem_cons_of_mem _ hs)
        exact ⟨ha, fun x hx => List.mem_cons_of_mem _ (hb x hx)⟩

theorem split_length_le (t : List Char) : (split_on_backslash t).length ≤ t.length + 1 := by
  induction t with
  | nil => simp [split_on_backslash]
  | cons c rest ih =>
    obtain ⟨s0, ss, h1, h2⟩ := split_cons c rest
    rw [h2]
    rw [h1] at ih
    split_ifs <;> simp at ih ⊢ <;> omega

theorem split_append_sep {a : List Char} (b : List Char) (ha : '\\' ∉ a) :
    split_on_backslash (a ++ '\\' :: b) = a :: split_on_backslash b := by
  induction a with
  | nil =>
    obtain ⟨s0, ss, h1, h2⟩ := split_cons '\\' b
    simp only [List.nil_append]
    rw [h2, h1]
    simp
  | cons c rest ih =>
    have hc : c ≠ '\\' := fun h => ha (by rw [h]; exact List.mem_cons_self _ _)
    have hrest : '\\' ∉ rest := fun h => ha (List.mem_cons_of_mem _ h)
    obtain ⟨s0, ss, h1, h2⟩ := split_cons c (rest ++ '\\' :: b)
    simp only [List.cons_append]
    rw [h2, if_neg hc]
    rw [ih hrest] at h1
    simp only [List.cons.injEq] at h1
    rw [← h1.1, ← h1.2]

theorem split_no_sep {a : List Char} (ha : '\\' ∉ a) : split_on_backslash a = [a] := by
  induction a with
  | nil => rfl
  | cons c rest ih =>
    have hc : c ≠ '\\' := fun h => ha (by rw [h]; exact List.mem_cons_self _ _)
    have hrest : '\\' ∉ rest := fun h => ha (List.mem_cons_of_mem _ h)
    obtain ⟨s0, ss, h1, h2⟩ := split_cons c rest
    rw [h2, if_neg hc]
    rw [ih hrest] at h1
    simp only [List.cons.injEq] at h1
    rw [← h1.1, ← h1.2]

theorem split_join {ps : List (List Char)} (hne : ps ≠ []) (hps : ∀ s ∈ ps, '\\' ∉ s) :
    split_on_backslash (join_with '\\' ps) = ps := by
  induction ps with
  | nil => exact absurd rfl hne
  | cons a rest ih =>
    cases rest with
    | nil => exact split_no_sep (hps a (List.mem_cons_self _ _))
    | cons b rest2 =>
      simp only [join_with]
      rw [split_append_sep _ (hps a (List.mem_cons_self _ _)),
        ih (by simp) (fun s hs => hps s (List.mem_cons_of_mem _ hs))]

/-! ### The scanning loop -/

theorem peek_at_length (pre rest : List Char) :
    peek (pre ++ rest) pre.length = rest.headD NUL := by
  rw [peek_eq_head, List.drop_left]

theorem poke_at_length (pre : List Char) (x c : Char) (r : List Char) :
    poke (pre ++ x :: r) pre.length c = pre ++ c :: r := by
  unfold poke
  rw [store_bytes_eq (by simp), List.take_left]
  have : (pre ++ x :: r).drop (pre.length + [c].length) = r := by
    have h1 : pre ++ x :: r = (pre ++ [x]) ++ r := by simp
    have h2 : pre.length + [c].length = (pre ++ [x]).length := by simp
    rw [h1, h2, List.drop_left]
  rw [this]
  simp

theorem cstr_at_length (pre rest : List Char) :
    cstr_at (pre ++ rest) pre.length = rest.takeWhile (fun c => c != NUL) := by
  unfold cstr_at
  rw [List.drop_left]

theorem scan_loop_round (fuel : Nat) (pre seg r : List Char) (x : Char) (segs : List Nat)
    (hseg : NUL ∉ seg ∧ '\\' ∉ seg) (hx : x = NUL ∨ x = '\\') (hgo : seg ≠ [] ∨ x = '\\') :
    scan_loop (fuel + 1) (pre ++ seg ++ x :: r) pre.length segs =
      if seg = [] ∨ seg = ['.'] then
        scan_loop fuel (pre ++ seg ++ NUL :: r)
          (if x = '\\' then pre.length + seg.length + 1 else pre.length + seg.length) segs
      else if seg = ['.', '.'] then
        if segs.length = 0 then none
        else scan_loop fuel (pre ++ seg ++ NUL :: r)
          (if x = '\\' then pre.length + seg.length + 1 else pre.length + seg.length)
          segs.dropLast
      else if segs.length ≥ 128 then none
      else scan_loop fuel (pre ++ seg ++ NUL :: r)
        (if x = '\\' then pre.length + seg.length + 1 else pre.length + seg.length)
        (segs ++ [pre.length]) := by
  have hsepnul : ('\\' : Char) ≠ NUL := by decide
  have h1 : peek (pre ++ seg ++ x :: r) pre.length ≠ NUL := by
    rw [List.append_assoc, peek_at_length]
    cases seg with
    | nil =>
      rcases hgo with h | h
      · exact absurd rfl h
      · subst h
        simpa using hsepnul
    | cons a t =>
      simp only [List.cons_append, List.headD_cons]
      rintro rfl
      exact hseg.1 (List.mem_cons_self _ _)
  have h2 : ((pre ++ seg ++ x :: r).drop pre.length).takeWhile
      (fun c => c != NUL && c != '\\') = seg := by
    rw [List.append_assoc, List.drop_left]
    apply takeWhile_append_stop
    · intro c hc
      simp only [Bool.and_eq_true, bne_iff_ne, ne_eq]
      exact ⟨fun h => hseg.1 (h ▸ hc), fun h => hseg.2 (h ▸ hc)⟩
    · rcases hx with rfl | rfl <;> simp
  have h3 : peek (pre ++ seg ++ x :: r) (pre.length + seg.length) = x := by
    rw [← List.length_append, peek_at_length]
    rfl
  have h4 : poke (pre ++ seg ++ x :: r) (pre.length + seg.length) NUL =
      pre ++ seg ++ NUL :: r := by
    rw [← List.length_append, poke_at_length]
  have h5 : cstr_at (pre ++ seg ++ NUL :: r) pre.length = seg := by
    rw [List.append_assoc, cstr_at_length]
    exact takeWhile_append_stop (ne_nul_of_not_mem hseg.1) (by simp)
  have h6 : (pre.length = pre.length + seg.length) ↔ seg = [] := by
    rw [← List.length_eq_zero]
    omega
  rw [scan_loop]
  simp only [h1, ↓reduceIte, h2, h3, h4]
  rcases hx with rfl | rfl
  · have hb : (NUL == '\\') = false := by decide
    have hn : ¬ (NUL = '\\') := by decide
    simp only [hb, Bool.false_eq_true, ↓reduceIte, h5, hn, Bool.or_eq_true, decide_eq_true_eq, h6,
      beq_iff_eq]
  · simp only [beq_self_eq_true, ↓reduceIte, h5, Bool.or_eq_true, decide_eq_true_eq, h6,
      beq_iff_eq]

theorem scan_loop_at_nul (fuel : Nat) (pre tl : List Char) (segs : List Nat) :
    scan_loop fuel (pre ++ NUL :: tl) pre.length segs = some (pre ++ NUL :: tl, segs) := by
  have h : peek (pre ++ NUL :: tl) pre.length = NUL := by
    rw [peek_at_length]
    rfl
  cases fuel with
  | zero => rw [scan_loop, if_pos h]
  | succ f => rw [scan_loop, if_pos h]

theorem scan_pairs_cons (seg : List Char) (rest : List (List Char)) (p : Nat)
    (st : List (Nat × List Char)) :
    scan_pairs (seg :: rest) p st =
      if seg = [] ∨ seg = ['.'] then scan_pairs rest (p + seg.length + 1) st
      else if seg = ['.', '.'] then
        if st.length = 0 then none else scan_pairs rest (p + seg.length + 1) st.dropLast
      else if st.length ≥ 128 then none
      else scan_pairs rest (p + seg.length + 1) (st ++ [(p, seg)]) := by
  rw [scan_pairs]

theorem scan_loop_pairs (ps : List (List Char)) (fuel : Nat) (pre tl : List Char)
    (st : List (Nat × List Char)) (hne : ps ≠ [])
    (hps : ∀ s ∈ ps, NUL ∉ s ∧ '\\' ∉ s) (hfuel : ps.length ≤ fuel) :
    scan_loop fuel (pre ++ join_with '\\' ps ++ NUL :: tl) pre.length (st.map Prod.fst) =
      (scan_pairs ps pre.length st).map
        (fun st1 => (pre ++ join_with NUL ps ++ NUL :: tl, st1.map Prod.fst)) := by
  induction ps generalizing fuel pre st with
  | nil => exact absurd rfl hne
  | cons seg rest ih =>
    obtain ⟨f, rfl⟩ : ∃ f, fuel = f + 1 := ⟨fuel - 1, by simp at hfuel; omega⟩
    have hseg := hps seg (List.mem_cons_self _ _)
    have hmap1 : ∀ (s : List (Nat × List Char)), (s.dropLast).map Prod.fst =
        (s.map Prod.fst).dropLast := fun s => by simp [List.map_dropLast]
    cases rest with
    | nil =>
      simp only [join_with]
      by_cases hnil : seg = []
      · subst hnil
        simp only [List.append_nil, scan_pairs, true_or, ↓reduceIte, Option.map_some']
        exact scan_loop_at_nul _ pre tl _
      · rw [scan_loop_round f pre seg tl NUL _ hseg (Or.inl rfl) (Or.inl hnil)]
        have hn : ¬ (NUL = '\\') := by decide
        simp only [hn, ↓reduceIte, scan_pairs, List.length_map]
        have hat : ∀ (segs : List Nat),
            scan_loop f (pre ++ seg ++ NUL :: tl) (pre.length + seg.length) segs =
              some (pre ++ seg ++ NUL :: tl, segs) := by
          intro segs
          rw [← List.length_append]
          exact scan_loop_at_nul f (pre ++ seg) tl segs
        simp only [hat]
        split_ifs <;> simp [List.map_dropLast]
    | cons s2 rest2 =>
      simp only [join_with]
      have hrec : ∀ (st1 : List (Nat × List Char)),
          scan_loop f (pre ++ seg ++ NUL :: (join_with '\\' (s2 :: rest2) ++ NUL :: tl))
              (pre.length + seg.length + 1) (st1.map Prod.fst) =
            (scan_pairs (s2 :: rest2) (pre.length + seg.length + 1) st1).map
              (fun st2 => (pre ++ (seg ++ NUL :: join_with NUL (s2 :: rest2)) ++ NUL :: tl,
                st2.map Prod.fst)) := by
        intro st1
        have := ih f (pre ++ seg ++ [NUL]) st1 (by simp)
          (fun s hs => hps s (List.mem_cons_of_mem _ hs)) (by simp at hfuel ⊢; omega)
        simp only [List.append_assoc, List.singleton_append, List.length_append,
          List.length_cons, List.length_nil, Nat.zero_add, List.cons_append] at this ⊢
        rw [← Nat.add_assoc] at this
        exact this
      have hshape : pre ++ (seg ++ '\\' :: join_with '\\' (s2 :: rest2)) ++ NUL :: tl =
          pre ++ seg ++ '\\' :: (join_with '\\' (s2 :: rest2) ++ NUL :: tl) := by simp
      rw [hshape, scan_loop_round f pre seg _ '\\' _ hseg (Or.inr rfl) (Or.inr rfl),
        scan_pairs_cons]
      simp only [↓reduceIte, List.length_map]
      have hpush : st.map Prod.fst ++ [pre.length] = (st ++ [(pre.length, seg)]).map Prod.fst := by
        simp
      rw [← hmap1, hpush, hrec, hrec, hrec]
      split_ifs <;> simp

theorem join_nul_cons (seg : List Char) (rest : List (List Char)) (tl : List Char) :
    join_with NUL (seg :: rest) ++ NUL :: tl =
      seg ++ NUL :: (if rest = [] then tl else join_with NUL rest ++ NUL :: tl) := by
  cases rest with
  | nil => simp [join_with]
  | cons s2 r2 => simp [join_with]

theorem stack_ok_mono {P : List Char → Prop} {m : List Char} {lo hi hi2 : Nat}
    {st : List (Nat × List Char)} (h : stack_ok P m lo hi st) (hle : hi ≤ hi2) :
    stack_ok P m lo hi2 st := by
  refine ⟨fun x hx => ?_, h.2⟩
  obtain ⟨a, b, c, d⟩ := h.1 x hx
  exact ⟨a, b, by omega, d⟩

theorem stack_ok_dropLast {P : List Char → Prop} {m : List Char} {lo hi : Nat}
    {st : List (Nat × List Char)} (h : stack_ok P m lo hi st) :
    stack_ok P m lo hi st.dropLast :=
  ⟨fun x hx => h.1 x (List.mem_of_mem_dropLast hx), h.2.sublist (List.dropLast_sublist st)⟩

theorem stack_ok_push {P : List Char → Prop} {m : List Char} {lo hi : Nat}
    {st : List (Nat × List Char)} (h : stack_ok P m lo hi st) (p : Nat) (seg : List Char)
    (hh : holds m p seg) (hlo : lo ≤ p) (hhi : hi ≤ p)
    (h1 : seg ≠ []) (h2 : seg ≠ ['.']) (h3 : seg ≠ ['.', '.']) (h4 : '\\' ∉ seg) (h5 : P seg) :
    stack_ok P m lo (p + seg.length + 1) (st ++ [(p, seg)]) := by
  constructor
  · intro x hx
    rcases List.mem_append.mp hx with hx | hx
    · obtain ⟨a, b, c, d⟩ := h.1 x hx
      exact ⟨a, b, by omega, d⟩
    · simp only [List.mem_singleton] at hx
      subst hx
      exact ⟨hh, hlo, by simp, h1, h2, h3, h4, h5⟩
  · rw [List.pairwise_append]
    refine ⟨h.2, List.pairwise_singleton _ _, ?_⟩
    intro a ha b hb
    simp only [List.mem_singleton] at hb
    subst hb
    have := (h.1 a ha).2.2.1
    simp only
    omega

theorem scan_pairs_ok (P : List Char → Prop) (ps : List (List Char)) (pre tl : List Char)
    (m : List Char) (lo : Nat) (st st1 : List (Nat × List Char))
    (hps : ∀ s ∈ ps, NUL ∉ s ∧ '\\' ∉ s ∧ P s)
    (hm : ps = [] ∨ m = pre ++ join_with NUL ps ++ NUL :: tl) (hlo : lo ≤ pre.length)
    (hst : stack_ok P m lo pre.length st)
    (hrun : scan_pairs ps pre.length st = some st1) :
    ∃ hi, stack_ok P m lo hi st1 := by
  induction ps generalizing pre st with
  | nil =>
    simp only [scan_pairs, Option.some.injEq] at hrun
    subst hrun
    exact ⟨_, hst⟩
  | cons seg rest ih =>
    have hseg := hps seg (List.mem_cons_self _ _)
    have hrest : ∀ s ∈ rest, NUL ∉ s ∧ '\\' ∉ s ∧ P s :=
      fun s hs => hps s (List.mem_cons_of_mem _ hs)
    have hm1 : m = pre ++ (seg ++ NUL :: (if rest = [] then tl
        else join_with NUL rest ++ NUL :: tl)) := by
      rcases hm with h | h
      · exact absurd h (by simp)
      · rw [h, List.append_assoc, join_nul_cons]
    have hm2 : rest = [] ∨ m = (pre ++ seg ++ [NUL]) ++ join_with NUL rest ++ NUL :: tl := by
      by_cases hr : rest = []
      · exact Or.inl hr
      · right
        rw [hm1, if_neg hr]
        simp
    have hlen : (pre ++ seg ++ [NUL]).length = pre.length + seg.length + 1 := by
      simp only [List.length_append, List.length_cons, List.length_nil]
    have hhold : holds m pre.length seg := by
      refine ⟨hseg.1, (if rest = [] then tl else join_with NUL rest ++ NUL :: tl), ?_⟩
      rw [hm1, List.drop_left]
    rw [scan_pairs_cons] at hrun
    split_ifs at hrun with h1 h2 h3 h4
    · rw [← hlen] at hrun
      exact ih (pre ++ seg ++ [NUL]) st hrest hm2 (by rw [hlen]; omega)
        (stack_ok_mono hst (by rw [hlen]; omega)) hrun
    · rw [← hlen] at hrun
      exact ih (pre ++ seg ++ [NUL]) st.dropLast hrest hm2 (by rw [hlen]; omega)
        (stack_ok_mono (stack_ok_dropLast hst) (by rw [hlen]; omega)) hrun
    · rw [← hlen] at hrun
      have hpush := stack_ok_push hst pre.length seg hhold hlo (le_refl _)
        (fun h => h1 (Or.inl h)) (fun h => h1 (Or.inr h)) h2 hseg.2.1 hseg.2.2
      rw [← hlen] at hpush
      exact ih (pre ++ seg ++ [NUL]) _ hrest hm2 (by rw [hlen]; omega) hpush hrun

/-! ### The output loop -/

theorem join_cons_ne (sep : Char) (t : List Char) {rest : List (List Char)} (h : rest ≠ []) :
    join_with sep (t :: rest) = t ++ sep :: join_with sep rest := by
  cases rest with
  | nil => exact absurd rfl h
  | cons a b => rfl

theorem emit_loop_take (segs : List Nat) (m : List Char) (p q : Nat)
    (hq : q ≤ p) (hm : q ≤ m.length) :
    (emit_loop segs m p).1.take q = m.take q ∧ p ≤ (emit_loop segs m p).2 := by
  induction segs generalizing m p with
  | nil => exact ⟨rfl, le_refl _⟩
  | cons s rest ih =>
    rw [emit_loop]
    have h1 : (memmove m p s (strlen_at m s)).take q = m.take q :=
      store_bytes_take _ hq hm
    have h1len : q ≤ (memmove m p s (strlen_at m s)).length := by
      have := congrArg List.length h1
      simp only [List.length_take] at this
      omega
    split_ifs
    · have h2 : (poke (memmove m p s (strlen_at m s)) (p + strlen_at m s) '\\').take q =
          m.take q := by
        rw [← h1]
        exact store_bytes_take _ (by omega) h1len
      have h2len : q ≤ (poke (memmove m p s (strlen_at m s)) (p + strlen_at m s) '\\').length := by
        have := congrArg List.length h2
        simp only [List.length_take] at this
        omega
      obtain ⟨a, b⟩ := ih (poke (memmove m p s (strlen_at m s)) (p + strlen_at m s) '\\')
        (p + strlen_at m s + 1) (by omega) h2len
      exact ⟨by rw [a, h2], by omega⟩
    · obtain ⟨a, b⟩ := ih (memmove m p s (strlen_at m s)) (p + strlen_at m s) (by omega) h1len
      exact ⟨by rw [a, h1], by omega⟩

theorem emit_loop_spec (pairs : List (Nat × List Char)) (m : List Char) (p : Nat)
    (hpairs : ∀ x ∈ pairs, p ≤ x.1 ∧ holds m x.1 x.2)
    (hsep : pairs.Pairwise (fun a b => a.1 + a.2.length < b.1)) :
    (emit_loop (pairs.map Prod.fst) m p).2 =
        p + (join_with '\\' (pairs.map Prod.snd)).length ∧
      (emit_loop (pairs.map Prod.fst) m p).1.take
          (p + (join_with '\\' (pairs.map Prod.snd)).length) =
        m.take p ++ join_with '\\' (pairs.map Prod.snd) ∧
      (emit_loop (pairs.map Prod.fst) m p).1.length = m.length ∧
      (pairs ≠ [] → p + (join_with '\\' (pairs.map Prod.snd)).length < m.length) := by
  induction pairs generalizing m p with
  | nil => simp [emit_loop, join_with]
  | cons x rest ih =>
    obtain ⟨s, t⟩ := x
    obtain ⟨hps, hh⟩ := hpairs (s, t) (List.mem_cons_self _ _)
    simp only at hps hh
    have hbound := holds_bound hh
    have hb : p + t.length ≤ m.length := by omega
    have hlen : strlen_at m s = t.length := by rw [strlen_at, holds_cstr hh]
    have hmove : memmove m p s (strlen_at m s) = store_bytes m p t := by
      rw [memmove, hlen, holds_take hh]
    simp only [List.map_cons]
    rw [emit_loop, hmove, hlen]
    simp only [List.length_map]
    rw [List.pairwise_cons] at hsep
    by_cases hrest : rest = []
    · subst hrest
      simp only [List.length_nil, gt_iff_lt, Nat.lt_irrefl, ↓reduceIte, List.map_nil, emit_loop,
        join_with]
      exact ⟨trivial, store_bytes_take_end hb, store_bytes_length hb, fun _ => by omega⟩
    · have hpos : rest.length > 0 := List.length_pos.mpr hrest
      rw [if_pos hpos]
      have hm1len : (store_bytes m p t).length = m.length := store_bytes_length hb
      have hb2 : p + t.length + [('\\' : Char)].length ≤ (store_bytes m p t).length := by
        rw [hm1len]
        simp only [List.length_cons, List.length_nil]
        omega
      have hrest2 : ∀ y ∈ rest, p + t.length + 1 ≤ y.1 ∧
          holds (poke (store_bytes m p t) (p + t.length) '\\') y.1 y.2 := by
        intro y hy
        have hy1 := hsep.1 y hy
        simp only at hy1
        have hy2 := (hpairs y (List.mem_cons_of_mem _ hy)).2
        refine ⟨by omega, holds_of_drop_eq hy2 ?_⟩
        rw [poke, store_bytes_drop hb2 (by simp only [List.length_cons, List.length_nil]; omega),
          store_bytes_drop hb (by omega)]
      obtain ⟨i1, i2, i3, i4⟩ := ih (poke (store_bytes m p t) (p + t.length) '\\')
        (p + t.length + 1) hrest2 hsep.2
      have hjoin : join_with '\\' (t :: rest.map Prod.snd) =
          t ++ '\\' :: join_with '\\' (rest.map Prod.snd) :=
        join_cons_ne _ _ (by simpa using hrest)
      have htake : (poke (store_bytes m p t) (p + t.length) '\\').take (p + t.length + 1) =
          m.take p ++ t ++ ['\\'] := by
        have := store_bytes_take_end hb2
        simp only [List.length_cons, List.length_nil] at this
        rw [poke, this, store_bytes_take_end hb]
      have hplen : (poke (store_bytes m p t) (p + t.length) '\\').length = m.length := by
        rw [poke, store_bytes_length hb2, hm1len]
      have harith : p + (t ++ '\\' :: join_with '\\' (rest.map Prod.snd)).length =
          p + t.length + 1 + (join_with '\\' (rest.map Prod.snd)).length := by
        simp only [List.length_append, List.length_cons]
        omega
      rw [hjoin, harith]
      refine ⟨i1, ?_, by rw [i3, hplen], fun _ => ?_⟩
      · rw [i2, htake]
        simp
      · have := i4 hrest
        rw [hplen] at this
        exact this

theorem cstr_of_poke {m : List Char} {p : Nat} (hp : p ≤ m.length) (hn : NUL ∉ m.take p) :
    cstr_at (poke m p NUL) 0 = m.take p := by
  unfold cstr_at poke store_bytes
  have h0 : p - m.length = 0 := by omega
  rw [h0]
  simp only [List.replicate_zero, List.append_nil, List.drop_zero, List.append_assoc,
    List.singleton_append]
  exact takeWhile_append_stop (ne_nul_of_not_mem hn) (by simp)

/-! ### `normalize_path` on a drive path -/

theorem mem_join_with {sep c : Char} {ps : List (List Char)} (h : c ∈ join_with sep ps) :
    c = sep ∨ ∃ s ∈ ps, c ∈ s := by
  induction ps with
  | nil => simp [join_with] at h
  | cons a rest ih =>
    cases rest with
    | nil =>
      simp only [join_with] at h
      exact Or.inr ⟨a, List.mem_cons_self _ _, h⟩
    | cons b rest2 =>
      simp only [join_with, List.mem_append, List.mem_cons] at h
      rcases h with h | h | h
      · exact Or.inr ⟨a, List.mem_cons_self _ _, h⟩
      · exact Or.inl h
      · rcases ih h with h1 | ⟨s, hs, hc⟩
        · exact Or.inl h1
        · exact Or.inr ⟨s, List.mem_cons_of_mem _ hs, hc⟩

theorem stack_ok_nil (P : List Char → Prop) (m : List Char) (lo hi : Nat) :
    stack_ok P m lo hi [] :=
  ⟨fun _ hx => absurd hx (List.not_mem_nil _), List.Pairwise.nil⟩

theorem normalize_path_scan (pre text : List Char) (k : Nat)
    (hpre : pre = ['C', ':', '\\'] ∧ k = 3 ∨
      (pre = ['C', ':'] ∧ k = 2 ∧ text.head? ≠ some '\\' ∧ text ≠ []))
    (hnul : NUL ∉ text) :
    normalize_path (pre ++ text) =
      (scan_pairs (split_on_backslash text) k []).map (fun st =>
        cstr_at (poke
          (emit_loop (st.map Prod.fst)
            (poke (pre ++ join_with NUL (split_on_backslash text) ++ [NUL]) 2 '\\') 3).1
          (emit_loop (st.map Prod.fst)
            (poke (pre ++ join_with NUL (split_on_backslash text) ++ [NUL]) 2 '\\') 3).2
          NUL) 0) := by
  have hps : ∀ s ∈ split_on_backslash text, NUL ∉ s ∧ '\\' ∉ s := fun s hs =>
    ⟨fun h => hnul ((split_pieces text s hs).2 _ h), (split_pieces text s hs).1⟩
  have hk : k = pre.length := by
    rcases hpre with ⟨rfl, rfl⟩ | ⟨rfl, rfl, _⟩ <;> rfl
  have hfuel : (split_on_backslash text).length ≤ (pre ++ text ++ [NUL]).length := by
    have := split_length_le text
    simp only [List.length_append, List.length_cons, List.length_nil]
    omega
  have hscan := scan_loop_pairs (split_on_backslash text) (pre ++ text ++ [NUL]).length pre []
    [] (split_ne_nil text) hps hfuel
  rw [join_split, ← hk] at hscan
  simp only [List.map_nil] at hscan
  have h0 : (peek (pre ++ text ++ [NUL]) 0 != NUL && peek (pre ++ text ++ [NUL]) 1 == ':') =
      true := by
    rcases hpre with ⟨rfl, rfl⟩ | ⟨rfl, rfl, _⟩ <;> simp [peek, NUL]
  have h2 : (if (peek (pre ++ text ++ [NUL]) 2 == '\\') = true then 2 + 1 else 2) = k := by
    rcases hpre with ⟨rfl, rfl⟩ | ⟨rfl, rfl, hhead, hne⟩
    · simp [peek]
    · cases text with
      | nil => exact absurd rfl hne
      | cons x t =>
        have hx : x ≠ '\\' := by simpa using hhead
        simp [peek, hx]
  unfold normalize_path
  simp only [h0, ↓reduceIte, h2, hscan]
  cases scan_pairs (split_on_backslash text) k [] with
  | none => rfl
  | some st => rfl

theorem normalize_path_rooted (P : List Char → Prop) (text : List Char)
    (st : List (Nat × List Char)) (hnul : NUL ∉ text)
    (hP : ∀ s ∈ split_on_backslash text, P s)
    (hrun : scan_pairs (split_on_backslash text) 3 [] = some st) :
    normalize_path (['C', ':', '\\'] ++ text) =
        some (['C', ':', '\\'] ++ join_with '\\' (st.map Prod.snd)) ∧
      ∀ x ∈ st, x.2 ≠ [] ∧ x.2 ≠ ['.'] ∧ x.2 ≠ ['.', '.'] ∧ '\\' ∉ x.2 ∧ P x.2 ∧ NUL ∉ x.2 := by
  have hps : ∀ s ∈ split_on_backslash text, NUL ∉ s ∧ '\\' ∉ s ∧ P s := fun s hs =>
    ⟨fun h => hnul ((split_pieces text s hs).2 _ h), (split_pieces text s hs).1, hP s hs⟩
  obtain ⟨hi, hok⟩ := scan_pairs_ok P (split_on_backslash text) ['C', ':', '\\'] []
    (['C', ':', '\\'] ++ join_with NUL (split_on_backslash text) ++ [NUL]) 3 [] st hps
    (Or.inr rfl) (le_refl _) (stack_ok_nil _ _ _ _) hrun
  have hfacts : ∀ x ∈ st, x.2 ≠ [] ∧ x.2 ≠ ['.'] ∧ x.2 ≠ ['.', '.'] ∧ '\\' ∉ x.2 ∧ P x.2 ∧
      NUL ∉ x.2 := by
    intro x hx
    obtain ⟨a, _, _, b, c, d, e, f⟩ := hok.1 x hx
    exact ⟨b, c, d, e, f, a.1⟩
  refine ⟨?_, hfacts⟩
  rw [normalize_path_scan ['C', ':', '\\'] text 3 (Or.inl ⟨rfl, rfl⟩) hnul, hrun]
  simp only [Option.map_some', Option.some.injEq]
  have hpoke : poke (['C', ':', '\\'] ++ join_with NUL (split_on_backslash text) ++ [NUL]) 2 '\\' =
      ['C', ':', '\\'] ++ join_with NUL (split_on_backslash text) ++ [NUL] :=
    poke_at_length ['C', ':'] '\\' '\\' (join_with NUL (split_on_backslash text) ++ [NUL])
  rw [hpoke]
  obtain ⟨e1, e2, e3, e4⟩ := emit_loop_spec st
    (['C', ':', '\\'] ++ join_with NUL (split_on_backslash text) ++ [NUL]) 3
    (fun x hx => ⟨(hok.1 x hx).2.1, (hok.1 x hx).1⟩) hok.2
  have htake3 : (['C', ':', '\\'] ++ join_with NUL (split_on_backslash text) ++ [NUL]).take 3 =
      ['C', ':', '\\'] := rfl
  rw [htake3] at e2
  have hle : (emit_loop (st.map Prod.fst)
      (['C', ':', '\\'] ++ join_with NUL (split_on_backslash text) ++ [NUL]) 3).2 ≤
      (emit_loop (st.map Prod.fst)
        (['C', ':', '\\'] ++ join_with NUL (split_on_backslash text) ++ [NUL]) 3).1.length := by
    rw [e1, e3]
    by_cases hst : st = []
    · subst hst
      simp [join_with]
    · exact Nat.le_of_lt (e4 hst)
  have hnn : NUL ∉ ['C', ':', '\\'] ++ join_with '\\' (st.map Prod.snd) := by
    intro hmem
    rcases List.mem_append.mp hmem with h | h
    · revert h
      decide
    · rcases mem_join_with h with h1 | ⟨s, hs, hc⟩
      · revert h1
        decide
      · obtain ⟨x, hx, rfl⟩ := List.mem_map.mp hs
        exact (hfacts x hx).2.2.2.2.2 hc
  rw [cstr_of_poke hle (by rw [e1, e2]; exact hnn), e1, e2]

theorem normalize_path_starts (pre text : List Char) (k : Nat) (out : List Char)
    (hpre : pre = ['C', ':', '\\'] ∧ k = 3 ∨
      (pre = ['C', ':'] ∧ k = 2 ∧ text.head? ≠ some '\\' ∧ text ≠ []))
    (hnul : NUL ∉ text) (hout : normalize_path (pre ++ text) = some out) :
    ['C', ':', '\\'] <+: out := by
  rw [normalize_path_scan pre text k hpre hnul] at hout
  cases hrun : scan_pairs (split_on_backslash text) k [] with
  | none => rw [hrun] at hout; simp at hout
  | some st =>
    rw [hrun] at hout
    simp only [Option.map_some', Option.some.injEq] at hout
    have hm2 : (poke (pre ++ join_with NUL (split_on_backslash text) ++ [NUL]) 2 '\\').take 3 =
        ['C', ':', '\\'] := by
      rcases hpre with ⟨rfl, rfl⟩ | ⟨rfl, rfl, _, _⟩
      · have hpoke : poke (['C', ':', '\\'] ++ join_with NUL (split_on_backslash text) ++ [NUL])
            2 '\\' = ['C', ':', '\\'] ++ join_with NUL (split_on_backslash text) ++ [NUL] :=
          poke_at_length ['C', ':'] '\\' '\\' (join_with NUL (split_on_backslash text) ++ [NUL])
        rw [hpoke]
        rfl
      · have := @store_bytes_take_end
          (['C', ':'] ++ join_with NUL (split_on_backslash text) ++ [NUL]) 2 ['\\']
          (by simp)
        rw [poke]
        exact this
    have hm2len : 3 ≤ (poke (pre ++ join_with NUL (split_on_backslash text) ++ [NUL]) 2
        '\\').length := by
      have := congrArg List.length hm2
      simp only [List.length_take, List.length_cons, List.length_nil] at this
      omega
    obtain ⟨e1, e2⟩ := emit_loop_take (st.map Prod.fst)
      (poke (pre ++ join_with NUL (split_on_backslash text) ++ [NUL]) 2 '\\') 3 3 (le_refl _) hm2len
    rw [hm2] at e1
    have e1len : 3 ≤ (emit_loop (st.map Prod.fst)
        (poke (pre ++ join_with NUL (split_on_backslash text) ++ [NUL]) 2 '\\') 3).1.length := by
      have := congrArg List.length e1
      simp only [List.length_take, List.length_cons, List.length_nil] at this
      omega
    have hfin : (poke (emit_loop (st.map Prod.fst)
        (poke (pre ++ join_with NUL (split_on_backslash text) ++ [NUL]) 2 '\\') 3).1
        (emit_loop (st.map Prod.fst)
          (poke (pre ++ join_with NUL (split_on_backslash text) ++ [NUL]) 2 '\\') 3).2 NUL).take 3 =
        (emit_loop (st.map Prod.fst)
          (poke (pre ++ join_with NUL (split_on_backslash text) ++ [NUL]) 2 '\\') 3).1.take 3 :=
      store_bytes_take [NUL] e2 e1len
    rw [e1] at hfin
    rw [← hout, cstr_at, List.drop_zero]
    generalize (poke (emit_loop (st.map Prod.fst)
        (poke (pre ++ join_with NUL (split_on_backslash text) ++ [NUL]) 2 '\\') 3).1
        (emit_loop (st.map Prod.fst)
          (poke (pre ++ join_with NUL (split_on_backslash text) ++ [NUL]) 2 '\\') 3).2 NUL) = X
      at hfin ⊢
    match X, hfin with
    | a :: b :: c :: rest, hfin =>
      simp only [List.take, List.cons.injEq, and_true] at hfin
      obtain ⟨rfl, rfl, rfl⟩ := hfin
      exact ⟨rest.takeWhile (fun c => c != NUL), by simp [List.takeWhile, NUL]⟩

/-! ### `build_full_path` -/

theorem ptb_keeps_slash (s : List Char) (i : Nat) (h : s[i]? = some '/')
    (hu : ¬ in_url_at s i) :
    (path_to_backslashes s)[i]? = some '/' ↔
      (i = 0 ∨ ∃ j, j + 1 = i ∧ (s[j]? = some ' ' ∨ s[j]? = some '\t')) ∧
        ∃ c, s[i + 1]? = some c ∧ is_switch_char c = true := by
  have hflag : ¬ url_flag false s i := by
    rintro (⟨h0, _⟩ | h1)
    · exact absurd h0 (by decide)
    · exact hu h1
  unfold path_to_backslashes
  rw [ptb_switch ' ' false s i h hflag]
  simp

theorem ptb_mem (prev : Char) (u : Bool) (s : List Char) :
    ∀ c ∈ path_to_backslashes_from prev u s, c ∈ s ∨ c = '\\' := by
  induction s generalizing prev u with
  | nil => simp [path_to_backslashes_from]
  | cons d rest ih =>
    intro c hc
    unfold path_to_backslashes_from at hc
    split_ifs at hc <;>
    · rcases List.mem_cons.mp hc with h | h
      · first
        | exact Or.inl (h ▸ List.mem_cons_self _ _)
        | exact Or.inr h
      · rcases ih _ _ c h with h1 | h1
        · exact Or.inl (List.mem_cons_of_mem _ h1)
        · exact Or.inr h1

theorem ptb_no_slash (s : List Char) (hs : ∀ i, s[i]? = some '/' → ¬ exempt_slash s i) :
    '/' ∉ path_to_backslashes s := by
  intro hmem
  obtain ⟨i, hi⟩ := List.mem_iff_getElem?.mp hmem
  have hlt : i < s.length := by
    have h1 : i < (path_to_backslashes s).length := by
      by_contra hge
      rw [List.getElem?_eq_none (by omega)] at hi
      simp at hi
    rw [path_to_backslashes, ptb_length] at h1
    exact h1
  have hsi : s[i]? = some (s[i]) := List.getElem?_eq_getElem hlt
  by_cases hc : s[i] = '/'
  · rw [hc] at hsi
    have hne := hs i hsi
    have hnu : ¬ in_url_at s i := fun h => hne (Or.inl h)
    exact hne (Or.inr ((ptb_keeps_slash s i hsi hnu).mp hi))
  · have := ptb_other ' ' false s i _ hsi hc
    rw [path_to_backslashes] at hi
    rw [hi] at this
    simp only [Option.some.injEq] at this
    exact hc this.symm

theorem convert_shape (rel : List Char) :
    (¬ ['/', '/'] <+: rel →
      ∃ text, path_to_backslashes (compose_path rel) = ['C', ':', '\\'] ++ text) ∧
    (['/', '/'] <+: rel →
      ∃ text, path_to_backslashes (compose_path rel) = ['C', ':'] ++ '/' :: '/' :: text) := by
  cases rel with
  | nil =>
    refine ⟨fun _ => ⟨[], by decide⟩, fun h => ?_⟩
    simp at h
  | cons x r =>
    by_cases hx : x = '/'
    · subst hx
      cases r with
      | nil =>
        refine ⟨fun _ => ⟨[], by decide⟩, fun h => ?_⟩
        simp at h
      | cons y r2 =>
        by_cases hy : y = '/'
        · subst hy
          refine ⟨fun h => absurd (by simp) h, fun _ => ?_⟩
          refine ⟨path_to_backslashes_from '/' true r2, ?_⟩
          simp [compose_path, path_to_backslashes, path_to_backslashes_from, is_url_end]
        · refine ⟨fun _ => ?_, fun h => ?_⟩
          · refine ⟨path_to_backslashes_from '\\' false (y :: r2), ?_⟩
            simp [compose_path, path_to_backslashes, path_to_backslashes_from, hy]
          · simp at h
            exact absurd h.symm hy
    · refine ⟨fun _ => ?_, fun h => ?_⟩
      · by_cases hb : x = '\\'
        · subst hb
          refine ⟨path_to_backslashes_from '\\' false r, ?_⟩
          simp [compose_path, path_to_backslashes, path_to_backslashes_from]
        · refine ⟨path_to_backslashes_from '\\' false (x :: r), ?_⟩
          simp [compose_path, path_to_backslashes, path_to_backslashes_from, hx, hb]
      · simp at h
        exact absurd h.1.symm hx

theorem compose_mem (rel : List Char) :
    ∀ c ∈ compose_path rel, c ∈ rel ∨ c = 'C' ∨ c = ':' ∨ c = '\\' := by
  intro c hc
  cases rel with
  | nil =>
    simp [compose_path] at hc
    tauto
  | cons x r =>
    simp only [compose_path] at hc
    split_ifs at hc <;>
    · simp only [String.toList, List.cons_append, List.nil_append, List.mem_cons] at hc ⊢
      tauto

theorem convert_no_nul (rel : List Char) (hnul : NUL ∉ rel) :
    NUL ∉ path_to_backslashes (compose_path rel) := by
  intro h
  rcases ptb_mem _ _ _ _ h with h1 | h1
  · rcases compose_mem rel _ h1 with h2 | h2 | h2 | h2
    · exact hnul h2
    · revert h2; decide
    · revert h2; decide
    · revert h2; decide
  · revert h1; decide

theorem scan_pairs_escape (ps : List (List Char)) (p : Nat) (st : List (Nat × List Char))
    (h : escapes_root st.length ps = true) : scan_pairs ps p st = none := by
  induction ps generalizing p st with
  | nil => simp [escapes_root] at h
  | cons seg rest ih =>
    rw [scan_pairs_cons]
    rw [escapes_root] at h
    split_ifs with h1 h2 h3 h4
    · rw [if_pos h1] at h
      exact ih _ _ h
    · rfl
    · rw [if_neg h1, if_pos h2, if_neg h3] at h
      exact ih _ _ (by simpa using h)
    · rfl
    · rw [if_neg h1, if_neg h2] at h
      exact ih _ _ (by simpa using h)

/-- C1 (as amended): if `build_full_path` succeeds on a NUL-free input, the
output starts with "C:\"; unless the input begins with "//", none of the
output's backslash-delimited segments is "." or ".."; and the output holds no
'/' unless the composed path has a '/' that `path_to_backslashes` exempts (in
a URL, or opening a switch after a blank or tab). -/
theorem build_full_path_shape (relative : List Char) (out_size : Nat) (out : List Char)
    (hnul : NUL ∉ relative) (hok : build_full_path relative out_size = some out) :
    "C:\\".toList <+: out ∧
    (¬ "//".toList <+: relative →
      ∀ seg ∈ split_on_backslash out, seg ≠ ".".toList ∧ seg ≠ "..".toList) ∧
    ((∀ i, (compose_path relative)[i]? = some '/' →
        ¬ exempt_slash (compose_path relative) i) →
      '/' ∉ out) := by
  unfold build_full_path at hok
  simp only at hok
  split_ifs at hok with hsize
  have hcn := convert_no_nul relative hnul
  by_cases hpp : ['/', '/'] <+: relative
  · obtain ⟨text, htext⟩ := (convert_shape relative).2 hpp
    rw [htext] at hok hcn
    have hnt : NUL ∉ '/' :: '/' :: text := fun h => hcn (List.mem_append_right _ h)
    refine ⟨normalize_path_starts ['C', ':'] ('/' :: '/' :: text) 2 out
      (Or.inr ⟨rfl, rfl, by simp, by simp⟩) hnt hok, fun h => absurd hpp h, fun hex => ?_⟩
    have := ptb_no_slash _ hex
    rw [htext] at this
    exact absurd (by simp) this
  · obtain ⟨text, htext⟩ := (convert_shape relative).1 hpp
    rw [htext] at hok hcn
    have hnt : NUL ∉ text := fun h => hcn (List.mem_append_right _ h)
    cases hrun : scan_pairs (split_on_backslash text) 3 [] with
    | none =>
      rw [normalize_path_scan ['C', ':', '\\'] text 3 (Or.inl ⟨rfl, rfl⟩) hnt, hrun] at hok
      simp at hok
    | some st =>
      obtain ⟨heq, hfacts⟩ := normalize_path_rooted (fun s => ∀ c ∈ s, c ∈ text) text st hnt
        (fun s hs => (split_pieces text s hs).2) hrun
      rw [heq] at hok
      simp only [Option.some.injEq] at hok
      subst hok
      refine ⟨⟨_, rfl⟩, fun _ => ?_, fun hex => ?_⟩
      · have hsplit : split_on_backslash (['C', ':', '\\'] ++ join_with '\\' (st.map Prod.snd)) =
            ['C', ':'] :: split_on_backslash (join_with '\\' (st.map Prod.snd)) :=
          split_append_sep (a := ['C', ':']) _ (by decide)
        rw [hsplit]
        intro seg hseg
        rcases List.mem_cons.mp hseg with rfl | hseg
        · decide
        · by_cases hst : st = []
          · subst hst
            simp [join_with, split_on_backslash] at hseg
            subst hseg
            decide
          · rw [split_join (by simpa using hst) (by
              intro s hs
              obtain ⟨x, hx, rfl⟩ := List.mem_map.mp hs
              exact (hfacts x hx).2.2.2.1)] at hseg
            obtain ⟨x, hx, rfl⟩ := List.mem_map.mp hseg
            exact ⟨(hfacts x hx).2.1, (hfacts x hx).2.2.1⟩
      · have hconv := ptb_no_slash _ hex
        rw [htext] at hconv
        have htx : '/' ∉ text := fun h => hconv (List.mem_append_right _ h)
        intro hmem
        rcases List.mem_append.mp hmem with h | h
        · revert h
          decide
        · rcases mem_join_with h with h1 | ⟨s, hs, hc⟩
          · revert h1
            decide
          · obtain ⟨x, hx, rfl⟩ := List.mem_map.mp hs
            exact htx ((hfacts x hx).2.2.2.2.1 _ hc)

/-- Witness for C1: "foo/../bar" in a 100-byte buffer. -/
theorem build_full_path_shape_witness :
    "C:\\".toList <+: "C:\\bar".toList ∧
      ∀ seg ∈ split_on_backslash "C:\\bar".toList, seg ≠ ".".toList ∧ seg ≠ "..".toList :=
  ⟨(build_full_path_shape "foo/../bar".toList 100 "C:\\bar".toList (by decide) (by decide)).1,
    (build_full_path_shape "foo/../bar".toList 100 "C:\\bar".toList (by decide) (by decide)).2.1
      (by decide)⟩

/-- C1 counterexample: the path "a /b" is accepted and its '/' stays, because it
follows a blank and precedes a switch character. -/
theorem build_full_path_keeps_slash :
    build_full_path "a /b".toList MAX_PATH_LEN = some "C:\\a /b".toList ∧
      '/' ∈ "C:\\a /b".toList := by
  decide

/-- C2: on a NUL-free input whose pieces after slash conversion, read left to
right behind the drive prefix, bring a ".." while the depth is 0,
`build_full_path` fails; and it fails on "..". -/
theorem build_full_path_escape_fails :
    (∀ (relative : List Char) (out_size : Nat), NUL ∉ relative →
      escapes_root 0
        (split_on_backslash ((path_to_backslashes (compose_path relative)).drop 2)) = true →
      build_full_path relative out_size = none) ∧
    (∀ out_size : Nat, build_full_path "..".toList out_size = none) := by
  constructor
  · intro relative out_size hnul hesc
    unfold build_full_path
    simp only
    split_ifs with hsize
    · rfl
    · have hcn := convert_no_nul relative hnul
      by_cases hpp : ['/', '/'] <+: relative
      · obtain ⟨text, htext⟩ := (convert_shape relative).2 hpp
        rw [htext] at hesc hcn ⊢
        have hnt : NUL ∉ '/' :: '/' :: text := fun h => hcn (List.mem_append_right _ h)
        rw [normalize_path_scan ['C', ':'] ('/' :: '/' :: text) 2
          (Or.inr ⟨rfl, rfl, by simp, by simp⟩) hnt]
        have hd : (['C', ':'] ++ '/' :: '/' :: text).drop 2 = '/' :: '/' :: text := rfl
        rw [hd] at hesc
        rw [scan_pairs_escape _ 2 [] hesc]
        rfl
      · obtain ⟨text, htext⟩ := (convert_shape relative).1 hpp
        rw [htext] at hesc hcn ⊢
        have hnt : NUL ∉ text := fun h => hcn (List.mem_append_right _ h)
        rw [normalize_path_scan ['C', ':', '\\'] text 3 (Or.inl ⟨rfl, rfl⟩) hnt]
        have hd : (['C', ':', '\\'] ++ text).drop 2 = [] ++ '\\' :: text := rfl
        rw [hd, split_append_sep (a := []) text (by simp), escapes_root] at hesc
        simp only [true_or, ↓reduceIte] at hesc
        rw [scan_pairs_escape _ 3 [] hesc]
        rfl
  · intro out_size
    unfold build_full_path
    simp only
    split_ifs
    · rfl
    · decide

/-- Witness for C2: "a/../../b" leaves the root at its second "..". -/
theorem build_full_path_escape_fails_witness :
    build_full_path "a/../../b".toList MAX_PATH_LEN = none :=
  build_full_path_escape_fails.1 "a/../../b".toList MAX_PATH_LEN (by decide) (by decide)

set_option maxRecDepth 100000 in
/-- C3, the failing input: "//x" with a 6-byte buffer passes the length test
(the composed "C://x" has 5 bytes), yet the text left in `out` has 6 bytes,
so its terminator is stored at `out[6]`; likewise a 509-byte path that begins
with "//" leaves 512 bytes of text in the 512-byte `full_path`. -/
theorem build_full_path_overflow :
    build_full_path "//x".toList 6 = some "C:\\\\/x".toList ∧
      ¬ ("C:\\\\/x".toList.length < 6) ∧
      (build_full_path ("//".toList ++ List.replicate 507 'a') MAX_PATH_LEN).map List.length =
        some MAX_PATH_LEN := by
  decide

/-! ### Idempotency cache -/

theorem cache_lookup_from_none {l : List CacheEntry} {id : List Char}
    (h : ∀ e ∈ l, e.id = [] ∨ e.id ≠ id) : cache_lookup_from l id = none := by
  induction l with
  | nil => rfl
  | cons e rest ih =>
    unfold cache_lookup_from
    have he := h e (List.mem_cons_self _ _)
    rw [if_neg (by tauto)]
    exact ih (fun x hx => h x (List.mem_cons_of_mem _ hx))

theorem cache_lookup_from_hit {l : List CacheEntry} {id : List Char} {n : Nat} {e : CacheEntry}
    (hn : l[n]? = some e) (he : e.id = id) (hid : id ≠ [])
    (hfree : ∀ j, j < n → ∀ x, l[j]? = some x → x.id ≠ id) :
    cache_lookup_from l id = e.result := by
  induction l generalizing n with
  | nil => simp at hn
  | cons x rest ih =>
    unfold cache_lookup_from
    cases n with
    | zero =>
      simp at hn
      subst hn
      rw [if_pos ⟨by rw [he]; exact hid, he⟩]
    | succ n =>
      have hx := hfree 0 (by omega) x (by simp)
      rw [if_neg (by tauto)]
      exact ih (by simpa using hn) (fun j hj y hy => hfree (j + 1) (by omega) y (by simpa using hy))

theorem cache_store_length (cache : List CacheEntry) (i : Nat) (id result : List Char) :
    (cache_store cache i id result).1.length = cache.length := by
  simp [cache_store]

theorem cache_store_index (cache : List CacheEntry) (i : Nat) (id result : List Char) :
    (cache_store cache i id result).2 = (i + 1) % IDEMPOTENCY_CACHE_SIZE := rfl

theorem cache_store_slot (cache : List CacheEntry) (i : Nat) (id result : List Char)
    (hi : i < cache.length) :
    (cache_store cache i id result).1[i]? =
      some { id := strncpy id 63, result := some result } := by
  simp [cache_store, hi]

theorem cache_store_other (cache : List CacheEntry) (i j : Nat) (id result : List Char)
    (hj : j ≠ i) : (cache_store cache i id result).1[j]? = cache[j]? := by
  simp [cache_store, List.getElem?_set_ne (Ne.symm hj)]

theorem cache_store_all_append (c : List CacheEntry × Nat)
    (xs ys : List (List Char × List Char)) :
    cache_store_all c (xs ++ ys) = cache_store_all (cache_store_all c xs) ys := by
  induction xs generalizing c with
  | nil => rfl
  | cons x rest ih =>
    obtain ⟨id, r⟩ := x
    simp only [List.cons_append, cache_store_all]
    exact ih _

theorem cache_store_all_spec (cache : List CacheEntry) (idx : Nat)
    (later : List (List Char × List Char)) (hidx : idx < IDEMPOTENCY_CACHE_SIZE) :
    (cache_store_all (cache, idx) later).1.length = cache.length ∧
    (cache_store_all (cache, idx) later).2 = (idx + later.length) % IDEMPOTENCY_CACHE_SIZE ∧
    ∀ j, (∀ t, t < later.length → (idx + t) % IDEMPOTENCY_CACHE_SIZE ≠ j) →
      (cache_store_all (cache, idx) later).1[j]? = cache[j]? := by
  induction later generalizing cache idx with
  | nil =>
    refine ⟨rfl, ?_, fun _ _ => rfl⟩
    simp only [cache_store_all, List.length_nil, Nat.add_zero]
    exact (Nat.mod_eq_of_lt hidx).symm
  | cons x rest ih =>
    obtain ⟨id, r⟩ := x
    simp only [cache_store_all, List.length_cons]
    have hnext : (idx + 1) % IDEMPOTENCY_CACHE_SIZE < IDEMPOTENCY_CACHE_SIZE :=
      Nat.mod_lt _ (by decide)
    obtain ⟨h1, h2, h3⟩ := ih (cache_store cache idx id r).1 ((idx + 1) % IDEMPOTENCY_CACHE_SIZE) hnext
    have hpair : cache_store cache idx id r =
        ((cache_store cache idx id r).1, (idx + 1) % IDEMPOTENCY_CACHE_SIZE) := rfl
    rw [hpair]
    refine ⟨by rw [h1, cache_store_length], ?_, ?_⟩
    · rw [h2]
      simp only [IDEMPOTENCY_CACHE_SIZE]
      omega
    · intro j hj
      rw [h3 j]
      · apply cache_store_other
        have := hj 0 (by omega)
        simp only [Nat.add_zero, Nat.mod_eq_of_lt hidx] at this
        exact Ne.symm this
      · intro t ht
        have := hj (t + 1) (by omega)
        simp only [IDEMPOTENCY_CACHE_SIZE] at this ⊢
        omega

theorem cache_store_all_ids (c : List CacheEntry × Nat) (stores : List (List Char × List Char)) :
    ∀ e ∈ (cache_store_all c stores).1, e ∈ c.1 ∨ ∃ s ∈ stores, e.id = strncpy s.1 63 := by
  induction stores generalizing c with
  | nil => intro e he; exact Or.inl he
  | cons x rest ih =>
    obtain ⟨id, r⟩ := x
    intro e he
    simp only [cache_store_all] at he
    rcases ih _ e he with h | ⟨s, hs, hse⟩
    · rcases List.mem_or_eq_of_mem_set h with h1 | h1
      · exact Or.inl h1
      · exact Or.inr ⟨(id, r), List.mem_cons_self _ _, by rw [h1]⟩
    · exact Or.inr ⟨s, List.mem_cons_of_mem _ hs, hse⟩

/-- C8 (as amended): for a cache of 16 slots with index below 16, a non-empty id
of at most 63 bytes that no slot before the index holds, and any result,
`cache_lookup` right after `cache_store` returns exactly that result; and in a
cache filled from the empty one by stores, `cache_lookup` of an id that is not
the 63-byte copy of any stored id returns nothing. -/
theorem cache_lookup_after_store :
    (∀ (cache : List CacheEntry) (index : Nat) (id result : List Char),
      cache.length = IDEMPOTENCY_CACHE_SIZE → index < IDEMPOTENCY_CACHE_SIZE →
      id ≠ [] → id.length ≤ 63 →
      (∀ j, j < index → ∀ e, cache[j]? = some e → e.id ≠ id) →
      cache_lookup (cache_store cache index id result).1 id = some result) ∧
    (∀ (stores : List (List Char × List Char)) (id : List Char),
      (∀ s ∈ stores, strncpy s.1 63 ≠ id) →
      cache_lookup (cache_store_all (cache_init, 0) stores).1 id = none) := by
  constructor
  · intro cache index id result hlen hidx hid h63 hfree
    unfold cache_lookup
    rw [List.take_of_length_le (by rw [cache_store_length, hlen])]
    have hslot := cache_store_slot cache index id result (by rw [hlen]; exact hidx)
    rw [cache_lookup_from_hit hslot (by simp [strncpy, List.take_of_length_le h63]) hid]
    intro j hj x hx
    rw [cache_store_other cache index j id result (by omega)] at hx
    exact hfree j hj x hx
  · intro stores id hne
    unfold cache_lookup
    apply cache_lookup_from_none
    intro e he
    rcases cache_store_all_ids _ stores e (List.mem_of_mem_take he) with h | ⟨s, hs, hse⟩
    · left
      simp only [cache_init, List.mem_replicate] at h
      rw [h.2]
    · right
      rw [hse]
      exact hne s hs

/-- Witness for C8: both parts applied to concrete caches. -/
theorem cache_lookup_after_store_witness :
    cache_lookup (cache_store cache_init 3 "op-1".toList "\x7b\x7d".toList).1 "op-1".toList =
        some "\x7b\x7d".toList ∧
      cache_lookup (cache_store_all (cache_init, 0) [("op-1".toList, "\x7b\x7d".toList)]).1
        "op-2".toList = none :=
  ⟨cache_lookup_after_store.1 cache_init 3 "op-1".toList "\x7b\x7d".toList rfl (by decide)
      (by decide) (by decide) (by decide),
    cache_lookup_after_store.2 [("op-1".toList, "\x7b\x7d".toList)] "op-2".toList (by decide)⟩

/-- C8 counterexample: after `cache_store` of the empty id, and after
`cache_store` of a 64-byte id, `cache_lookup` of that same id finds nothing;
and with the id already held by an earlier slot the older result comes back. -/
theorem cache_lookup_after_store_fails :
    cache_lookup (cache_store cache_init 0 [] "r".toList).1 [] ≠ some "r".toList ∧
    cache_lookup (cache_store cache_init 0 (List.replicate 64 'a') "r".toList).1
        (List.replicate 64 'a') ≠ some "r".toList ∧
    cache_lookup (cache_store (cache_store cache_init 0 "A".toList "old".toList).1 1
        "A".toList "new".toList).1 "A".toList ≠ some "new".toList := by
  decide

/-- C9: with 16 slots and index `i` below 16, `cache_store` writes the new entry
into slot `i`, leaves every other slot as it was and moves the index to
`(i + 1) mod 16`; the entry then stays in slot `i` through up to 15 further
stores and the 16th further store replaces it. -/
theorem cache_store_fifo :
    (∀ (cache : List CacheEntry) (i : Nat) (id result : List Char),
      cache.length = IDEMPOTENCY_CACHE_SIZE → i < IDEMPOTENCY_CACHE_SIZE →
      (cache_store cache i id result).1[i]? =
          some { id := strncpy id 63, result := some result } ∧
        (∀ j, j ≠ i → (cache_store cache i id result).1[j]? = cache[j]?) ∧
        (cache_store cache i id result).1.length = IDEMPOTENCY_CACHE_SIZE ∧
        (cache_store cache i id result).2 = (i + 1) % 16) ∧
    (∀ (cache : List CacheEntry) (i : Nat) (id result : List Char)
      (later : List (List Char × List Char)),
      cache.length = IDEMPOTENCY_CACHE_SIZE → i < IDEMPOTENCY_CACHE_SIZE →
      (later.length ≤ 15 →
        (cache_store_all (cache_store cache i id result) later).1[i]? =
          some { id := strncpy id 63, result := some result }) ∧
      (∀ id16 r16, later.length = 15 →
        (cache_store_all (cache_store cache i id result) (later ++ [(id16, r16)])).1[i]? =
          some { id := strncpy id16 63, result := some r16 })) := by
  constructor
  · intro cache i id result hlen hi
    exact ⟨cache_store_slot cache i id result (by rw [hlen]; exact hi),
      fun j hj => cache_store_other cache i j id result hj,
      by rw [cache_store_length, hlen], rfl⟩
  · intro cache i id result later hlen hi
    have hnext : (i + 1) % IDEMPOTENCY_CACHE_SIZE < IDEMPOTENCY_CACHE_SIZE :=
      Nat.mod_lt _ (by decide)
    have hpair : cache_store cache i id result =
        ((cache_store cache i id result).1, (i + 1) % IDEMPOTENCY_CACHE_SIZE) := rfl
    obtain ⟨h1, h2, h3⟩ := cache_store_all_spec (cache_store cache i id result).1
      ((i + 1) % IDEMPOTENCY_CACHE_SIZE) later hnext
    constructor
    · intro hl
      rw [hpair, h3 i, cache_store_slot cache i id result (by rw [hlen]; exact hi)]
      intro t ht
      simp only [IDEMPOTENCY_CACHE_SIZE] at hi ⊢
      omega
    · intro id16 r16 hl
      rw [cache_store_all_append, hpair]
      simp only [cache_store_all]
      have hidx : (cache_store_all ((cache_store cache i id result).1,
          (i + 1) % IDEMPOTENCY_CACHE_SIZE) later).2 = i := by
        rw [h2, hl]
        simp only [IDEMPOTENCY_CACHE_SIZE] at hi ⊢
        omega
      rw [hidx]
      exact cache_store_slot _ i id16 r16 (by rw [h1, cache_store_length, hlen]; exact hi)

/-! ### Approvals -/

/-- C7: while `approval_in_progress` or `has_pending_approval` is set,
`poll_approval` returns 0, sends no request and leaves the whole state as it
was; a call that latches (returns 1) started with both flags clear; and from
that idle state, with a session and a pending reply, it does latch. -/
theorem poll_approval_busy_frame :
    (∀ (st : ClientState) (reply : Option ApprovalPoll),
      st.approval_in_progress = true ∨ st.has_pending_approval = true →
      poll_approval st reply = (st, false, [])) ∧
    (∀ (st : ClientState) (reply : Option ApprovalPoll),
      (poll_approval st reply).2.1 = true ∨ (poll_approval st reply).1 ≠ st →
      st.has_pending_approval = false ∧ st.approval_in_progress = false) ∧
    (∀ (st : ClientState) (r : ApprovalPoll),
      st.has_pending_approval = false → st.approval_in_progress = false →
      st.session_id ≠ [] → r.has_pending = true →
      (poll_approval st (some r)).2.1 = true ∧
        (poll_approval st (some r)).1.has_pending_approval = true) := by
  have busy : ∀ (st : ClientState) (reply : Option ApprovalPoll),
      st.approval_in_progress = true ∨ st.has_pending_approval = true →
      poll_approval st reply = (st, false, []) := by
    intro st reply h
    have hc : poll_approval_check st = none := by
      unfold poll_approval_check
      rcases h with h | h <;> simp [h]
    simp [poll_approval, hc]
  refine ⟨busy, ?_, ?_⟩
  · intro st reply h
    by_contra hcon
    have hb : st.approval_in_progress = true ∨ st.has_pending_approval = true := by
      cases h1 : st.has_pending_approval <;> cases h2 : st.approval_in_progress <;> simp_all
    rw [busy st reply hb] at h
    simp at h
  · intro st r h1 h2 h3 h4
    have hs : strncpy st.session_id 63 ≠ [] := by
      cases hsid : st.session_id with
      | nil => exact absurd hsid h3
      | cons a t => simp [strncpy]
    have hc : poll_approval_check st = some (strncpy st.session_id 63) := by
      simp [poll_approval_check, h1, h2, hs]
    simp [poll_approval, hc, poll_approval_latch, h4]

theorem strncpy_ne_nil {s : List Char} {n : Nat} (hs : s ≠ []) (hn : 0 < n) :
    strncpy s n ≠ [] := by
  cases s with
  | nil => exact absurd rfl hs
  | cons a t =>
    obtain ⟨m, rfl⟩ : ∃ m, n = m + 1 := ⟨n - 1, by omega⟩
    simp [strncpy]

theorem approval_inv_step (s : Sys) (mon : Option Bool) (a : Act)
    (hinv : approval_inv s mon) (ha : act_has_id a) :
    approval_inv (sys_step s a).1 ((sys_step s a).2.foldl prompt_monitor mon) := by
  obtain ⟨st, sched, ui⟩ := s
  obtain ⟨hid, hui⟩ := hinv
  cases a with
  | sched reply =>
    cases sched with
    | idle =>
      simp only [sys_step]
      cases hc : poll_approval_check st with
      | none => exact ⟨hid, hui⟩
      | some sid =>
        refine ⟨hid, ?_⟩
        cases ui <;> simp_all [prompt_monitor, approval_inv]
        all_goals (cases mon <;> simp_all [prompt_monitor])
    | polling sid =>
      simp only [sys_step, List.foldl_nil]
      refine ⟨?_, hui⟩
      cases reply with
      | none => exact hid
      | some r =>
        simp only [poll_approval_latch]
        cases hp : r.has_pending with
        | false => simpa using hid
        | true =>
          obtain ⟨id, hr, hne⟩ := ha hp
          intro _
          simp only [Bool.not_true, Bool.false_eq_true, ↓reduceIte, hr]
          exact strncpy_ne_nil hne (by decide)
  | ui key =>
    cases ui with
    | idle =>
      simp only [sys_step]
      cases hb : process_approval_begin st with
      | none => exact ⟨hid, hui⟩
      | some p =>
        obtain ⟨st1, loc⟩ := p
        simp only [process_approval_begin] at hb
        split_ifs at hb with hpend
        simp only [Option.some.injEq, Prod.mk.injEq] at hb
        obtain ⟨rfl, rfl⟩ := hb
        simp only [List.foldl_nil]
        refine ⟨by simp, ?_⟩
        simp only [approval_inv] at hui ⊢
        exact ⟨hui, strncpy_ne_nil (hid (by simpa using hpend)) (by decide)⟩
    | deciding loc =>
      simp only [approval_inv] at hui
      obtain ⟨rfl, hloc⟩ := hui
      simp only [sys_step, process_approval_decide]
      refine ⟨hid, ?_⟩
      cases st.skip_permissions <;> simp [prompt_monitor, hloc]
    | responding loc approved =>
      simp only [approval_inv] at hui
      obtain ⟨hmon, hloc⟩ := hui
      simp only [sys_step, process_approval_respond, if_pos hloc]
      refine ⟨hid, ?_⟩
      cases mon with
      | none => simp at hmon
      | some b => simp [prompt_monitor]
    | finishing =>
      simp only [sys_step, List.foldl_nil]
      exact ⟨by simpa [process_approval_end] using hid, hui⟩

theorem approval_inv_run (acts : List Act) (s : Sys) (mon : Option Bool)
    (hinv : approval_inv s mon) (ha : ∀ a ∈ acts, act_has_id a) :
    ((sys_run s acts).2.foldl prompt_monitor mon).isSome = true := by
  induction acts generalizing s mon with
  | nil =>
    obtain ⟨_, hui⟩ := hinv
    simp only [sys_run, List.foldl_nil]
    cases hu : s.ui <;> simp_all [approval_inv]
  | cons a rest ih =>
    simp only [sys_run, List.foldl_append]
    exact ih _ _ (approval_inv_step s mon a hinv (ha a (List.mem_cons_self _ _)))
      (fun b hb => ha b (List.mem_cons_of_mem _ hb))

/-- C6 (as amended): in every interleaving of the atomic steps of
`poll_approval` (scheduler) and `process_approval` (UI), started with both
threads outside the approval code, no prompt follows another prompt without a
POST to `/approval/respond` between them, provided every announced approval
carries a non-empty `approval_id` string (and so does an approval latched at
the start). -/
theorem no_prompt_twice_without_respond (st : ClientState) (acts : List Act)
    (hst : st.has_pending_approval = true → st.approval_id ≠ [])
    (hacts : ∀ r, Act.sched (some r) ∈ acts → r.has_pending = true →
      ∃ id, r.approval_id = some id ∧ id ≠ []) :
    no_repeated_prompt (sys_run (sys_init st) acts).2 = true := by
  unfold no_repeated_prompt
  apply approval_inv_run acts (sys_init st) (some false) ⟨hst, rfl⟩
  intro a ha
  cases a with
  | sched reply =>
    cases reply with
    | none => trivial
    | some r => exact hacts r ha
  | ui key => trivial

/-- Witness for C6: two rounds with the id "a1". -/
theorem no_prompt_twice_without_respond_witness :
    no_repeated_prompt
      (sys_run (sys_init sample_client)
        (sample_round (some "a1".toList) ++ sample_round (some "a1".toList))).2 = true :=
  no_prompt_twice_without_respond sample_client
    (sample_round (some "a1".toList) ++ sample_round (some "a1".toList))
    (by decide)
    (by
      intro r hr hp
      have hr2 : r = sample_reply (some "a1".toList) := by
        simp [sample_round] at hr
        exact hr
      subst hr2
      exact ⟨"a1".toList, rfl, by decide⟩)

/-- C6 counterexample: the server announces an approval without an
`approval_id` and repeats it on the next poll; the user is prompted twice and
no POST to `/approval/respond` happens in between. -/
theorem prompt_twice_without_respond :
    (sys_run (sys_init sample_client) (sample_round none ++ sample_round none)).2 =
      [Event.http_get "/approval/poll?session_id=s1".toList,
       Event.approval_prompt "Bash".toList "ls".toList,
       Event.http_get "/approval/poll?session_id=s1".toList,
       Event.approval_prompt "Bash".toList "ls".toList] ∧
    no_repeated_prompt
      (sys_run (sys_init sample_client) (sample_round none ++ sample_round none)).2 = false := by
  decide

/-- Witness for C7: a client that is prompting ignores a pending reply, an idle
one latches it. -/
theorem poll_approval_busy_frame_witness :
    poll_approval { sample_client with approval_in_progress := true }
        (some (sample_reply (some "a1".toList))) =
      ({ sample_client with approval_in_progress := true }, false, []) ∧
    (poll_approval sample_client (some (sample_reply (some "a1".toList)))).2.1 = true :=
  ⟨poll_approval_busy_frame.1 { sample_client with approval_in_progress := true }
      (some (sample_reply (some "a1".toList))) (Or.inl rfl),
    (poll_approval_busy_frame.2.2 sample_client (sample_reply (some "a1".toList))
      rfl rfl (by decide) rfl).1⟩

/-! ### HTTP framing -/

theorem strstr_bound {s needle : List Char} {k : Nat} (h : strstr s needle = some k) :
    k + needle.length ≤ s.length := by
  induction s generalizing k with
  | nil =>
    unfold strstr at h
    split_ifs at h with hn
    simp only [Option.some.injEq] at h
    subst h hn
    simp
  | cons c rest ih =>
    unfold strstr at h
    split_ifs at h with hp
    · simp only [Option.some.injEq] at h
      subst h
      have := (List.isPrefixOf_iff_prefix.mp hp).length_le
      omega
    · cases hr : strstr rest needle with
      | none => rw [hr] at h; simp at h
      | some j =>
        rw [hr] at h
        simp only [Option.map_some', Option.some.injEq] at h
        have := ih hr
        simp only [List.length_cons]
        omega

theorem cstr_at_zero_length_le (m : List Char) : (cstr_at m 0).length ≤ m.length := by
  simp only [cstr_at, List.drop_zero]
  exact (List.takeWhile_sublist _).length_le

/-- C5 (as amended): for a received response with a 2xx status line, a blank
line after the headers at offset `k`, a declared Content-Length `L` with
`0 ≤ L ≤ INT_MAX` (a length that fits the `int` that `atoi` returns) and a
response buffer of `B > 0` bytes: the result is `ResponseTooLarge` exactly
when `L ≥ B`; it is `Truncated` exactly when `L < B` and the received body is
shorter than `L`, or `L = 0` and the receive buffer is full. -/
theorem http_response_length_checks (received : List Char) (B k : Nat) (L : Int)
    (hstatus : 200 ≤ parse_http_status (cstr_at received 0) ∧
      parse_http_status (cstr_at received 0) < 300)
    (hsep : strstr (cstr_at received 0) "\r\n\r\n".toList = some k)
    (hL : parse_content_length (cstr_at received 0) = L) (hL0 : 0 ≤ L)
    (_hint : L ≤ INT_MAX) (hB : 0 < B) :
    ((http_response received B).1 = HttpResult.HTTP_ERR_RESPONSE_TOO_LARGE ↔ (B : Int) ≤ L) ∧
    ((http_response received B).1 = HttpResult.HTTP_ERR_TRUNCATED ↔
      (L < (B : Int) ∧ (received.length : Int) - ((k + 4 : Nat) : Int) < L) ∨
        (L = 0 ∧ BUFFER_SIZE - 1 ≤ received.length)) := by
  have hne : received.length ≠ 0 := by
    intro h0
    have : received = [] := List.length_eq_zero.mp h0
    subst this
    simp [cstr_at, parse_http_status] at hstatus
  obtain ⟨hs1, hs2⟩ := hstatus
  have hk := strstr_bound hsep
  have hk2 := cstr_at_zero_length_le received
  simp only [String.toList, List.length_cons, List.length_nil] at hk
  unfold http_response
  simp only [BUFFER_SIZE]
  simp only [hne, ↓reduceIte, hsep, hL]
  rw [if_neg (by omega)]
  by_cases h1 : L > 0 ∧ L ≥ (B : Int)
  · rw [if_pos h1]
    refine ⟨⟨fun _ => by omega, fun _ => rfl⟩, ⟨fun h => by simp at h, fun h => ?_⟩⟩
    exfalso
    omega
  · rw [if_neg h1]
    by_cases h2 : L > 0 ∧ (received.length : Int) - ((k + 4 : Nat) : Int) < L
    · rw [if_pos h2]
      refine ⟨⟨fun h => by simp at h, fun h => ?_⟩, ⟨fun _ => ?_, fun _ => rfl⟩⟩
      · exfalso
        omega
      · left
        constructor <;> omega
    · rw [if_neg h2]
      by_cases h3 : L ≤ 0 ∧ received.length ≥ 32768 - 1
      · rw [if_pos h3]
        refine ⟨⟨fun h => by simp at h, fun h => ?_⟩, ⟨fun _ => ?_, fun _ => rfl⟩⟩
        · exfalso
          omega
        · right
          constructor <;> omega
      · rw [if_neg h3]
        refine ⟨⟨fun h => by simp at h, fun h => ?_⟩, ⟨fun h => by simp at h, fun h => ?_⟩⟩
        · exfalso
          omega
        · exfalso
          omega

/-- Witness for C5: a reply that declares 5 bytes and carries 2 is `Truncated`
and not `ResponseTooLarge`. -/
theorem http_response_length_checks_witness :
    (5 : Int) ≤ INT_MAX ∧
    ((http_response "HTTP/1.1 200 OK\r\nContent-Length: 5\r\n\r\nhi".toList BUFFER_SIZE).1 =
        HttpResult.HTTP_ERR_RESPONSE_TOO_LARGE ↔ ((BUFFER_SIZE : Nat) : Int) ≤ 5) ∧
    ((http_response "HTTP/1.1 200 OK\r\nContent-Length: 5\r\n\r\nhi".toList BUFFER_SIZE).1 =
        HttpResult.HTTP_ERR_TRUNCATED ↔
      ((5 : Int) < ((BUFFER_SIZE : Nat) : Int) ∧
        (("HTTP/1.1 200 OK\r\nContent-Length: 5\r\n\r\nhi".toList.length : Nat) : Int) -
          ((34 + 4 : Nat) : Int) < 5) ∨
        ((5 : Int) = 0 ∧
          BUFFER_SIZE - 1 ≤ "HTTP/1.1 200 OK\r\nContent-Length: 5\r\n\r\nhi".toList.length)) :=
  ⟨by decide,
    http_response_length_checks "HTTP/1.1 200 OK\r\nContent-Length: 5\r\n\r\nhi".toList
      BUFFER_SIZE 34 5 (by decide) (by decide) (by decide) (by decide) (by decide) (by decide)⟩

/-- C5 counterexample: a reply that declares 40000 bytes and carries 2, read
into the 32768-byte response buffer, is answered `ResponseTooLarge`: the body
is shorter than the declared length and yet the result is not `Truncated`. -/
theorem http_response_too_large_not_truncated :
    parse_content_length "HTTP/1.1 200 OK\r\nContent-Length: 40000\r\n\r\nhi".toList = 40000 ∧
    strstr "HTTP/1.1 200 OK\r\nContent-Length: 40000\r\n\r\nhi".toList "\r\n\r\n".toList =
      some 38 ∧
    "HTTP/1.1 200 OK\r\nContent-Length: 40000\r\n\r\nhi".toList.length - (38 + 4) = 2 ∧
    (http_response "HTTP/1.1 200 OK\r\nContent-Length: 40000\r\n\r\nhi".toList BUFFER_SIZE).1 =
      HttpResult.HTTP_ERR_RESPONSE_TOO_LARGE ∧
    (http_response "HTTP/1.1 200 OK\r\nContent-Length: 40000\r\n\r\nhi".toList BUFFER_SIZE).1 ≠
      HttpResult.HTTP_ERR_TRUNCATED := by
  decide

/-! ### File-operation replay -/

theorem cache_lookup_from_miss {l : List CacheEntry} {id : List Char}
    (hf : cache_filled l) (h : cache_lookup_from l id = none) :
    ∀ e ∈ l, e.id = [] ∨ e.id ≠ id := by
  induction l with
  | nil => intro e he; simp at he
  | cons x rest ih =>
    unfold cache_lookup_from at h
    intro e he
    by_cases hx : x.id ≠ [] ∧ x.id = id
    · rw [if_pos hx] at h
      exact absurd h (hf x (List.mem_cons_self _ _) hx.1)
    · rw [if_neg hx] at h
      rcases List.mem_cons.mp he with rfl | he
      · by_cases h0 : e.id = []
        · exact Or.inl h0
        · exact Or.inr (fun h1 => hx ⟨h0, h1⟩)
      · exact ih (fun y hy => hf y (List.mem_cons_of_mem _ hy)) h e he

theorem cache_lookup_store_hit (cache : List CacheEntry) (index : Nat) (id result : List Char)
    (hlen : cache.length = IDEMPOTENCY_CACHE_SIZE) (hidx : index < IDEMPOTENCY_CACHE_SIZE)
    (hid : id ≠ []) (h63 : id.length ≤ 63)
    (hfree : ∀ j, j < index → ∀ e, cache[j]? = some e → e.id ≠ id) :
    cache_lookup (cache_store cache index id result).1 id = some result := by
  unfold cache_lookup
  rw [List.take_of_length_le (by rw [cache_store_length, hlen])]
  have hslot := cache_store_slot cache index id result (by rw [hlen]; exact hidx)
  rw [cache_lookup_from_hit hslot (by simp [strncpy, List.take_of_length_le h63]) hid]
  intro j hj x hx
  rw [cache_store_other cache index j id result (by omega)] at hx
  exact hfree j hj x hx

theorem cache_lookup_store_after_miss (cache : List CacheEntry) (index : Nat)
    (id result : List Char)
    (hlen : cache.length = IDEMPOTENCY_CACHE_SIZE) (hidx : index < IDEMPOTENCY_CACHE_SIZE)
    (hf : cache_filled cache) (hid : id ≠ []) (h63 : id.length ≤ 63)
    (hmiss : cache_lookup cache id = none) :
    cache_lookup (cache_store cache index id result).1 id = some result := by
  apply cache_lookup_store_hit cache index id result hlen hidx hid h63
  intro j _ e he
  unfold cache_lookup at hmiss
  rw [List.take_of_length_le (by rw [hlen])] at hmiss
  rcases cache_lookup_from_miss hf hmiss e (List.getElem?_mem he) with h0 | h0
  · rw [h0]; exact fun h => hid h.symm
  · exact h0

theorem post_log_no_post (post_ret : HttpResult) (p b : List Char) :
    Event.http_post p b ∉ post_log post_ret := by
  unfold post_log
  split_ifs <;> simp

theorem fileop_events_fs {σ : Type} (h : HostFs σ) (fs : σ) (full_path op : List Char)
    (content : Option (List Char)) :
    ∀ e ∈ (if op = "list".toList then
          ((fs, (handle_list_op h fs full_path).1, (handle_list_op h fs full_path).2) :
            σ × List ResultItem × List Event)
        else if op = "read".toList then
          (fs, (handle_read_op h fs full_path).1, (handle_read_op h fs full_path).2)
        else if op = "write".toList then handle_write_op h fs full_path content
        else if op = "mkdir".toList then handle_mkdir_op h fs full_path
        else (fs, [ResultItem.error "Unknown operation".toList], [])).2.2, e.is_fs = true := by
  split_ifs
  · simp only [handle_list_op]
    cases h.find_files fs _ <;> simp [Event.is_fs]
  · simp only [handle_read_op]
    cases h.fopen_read fs full_path <;> simp [Event.is_fs]
  · cases content with
    | none => simp [handle_write_op]
    | some c =>
      simp only [handle_write_op]
      cases h.fopen_write fs full_path c with
      | none => simp [Event.is_fs]
      | some p =>
        simp only
        split_ifs <;> simp [Event.is_fs]
  · simp only [handle_mkdir_op]
    rcases h.create_directory fs full_path with ⟨fs1, o⟩
    cases o <;> simp [Event.is_fs]
  · simp

theorem fileop_events_no_post {σ : Type} (h : HostFs σ) (fs : σ) (full_path op : List Char)
    (content : Option (List Char)) (p b : List Char) :
    Event.http_post p b ∉
      (if op = "list".toList then
          ((fs, (handle_list_op h fs full_path).1, (handle_list_op h fs full_path).2) :
            σ × List ResultItem × List Event)
        else if op = "read".toList then
          (fs, (handle_read_op h fs full_path).1, (handle_read_op h fs full_path).2)
        else if op = "write".toList then handle_write_op h fs full_path content
        else if op = "mkdir".toList then handle_mkdir_op h fs full_path
        else (fs, [ResultItem.error "Unknown operation".toList], [])).2.2 := by
  intro hmem
  have := fileop_events_fs h fs full_path op content _ hmem
  simp [Event.is_fs] at this

/-- C4 (as amended): when one `handle_fileop` call has POSTed the result `body`
for a request whose `op_id` is non-empty and at most 63 bytes long, the next
call that polls a pending, well-formed request with the same `op_id` POSTs
exactly `body` to `/fs/result` again, performs no file-system operation and
leaves file system and cache as they were. -/
theorem handle_fileop_replay {σ : Type} (h : HostFs σ)
    (print : List ResultItem → Option (List Char)) (w : FsWorld σ) (r1 r2 : FsPoll)
    (post1 post2 : HttpResult) (id body : List Char)
    (hlen : w.fs_cache.length = IDEMPOTENCY_CACHE_SIZE)
    (hidx : w.fs_cache_index < IDEMPOTENCY_CACHE_SIZE)
    (hfill : cache_filled w.fs_cache)
    (hid1 : r1.op_id = some id) (hid2 : r2.op_id = some id)
    (hne : id ≠ []) (h63 : id.length ≤ 63)
    (hpost : Event.http_post "/fs/result".toList body ∈
      (handle_fileop h print w (some r1) post1).2.2)
    (hpend : r2.has_pending = true) (hop : r2.operation ≠ none) (hpath : r2.path ≠ none) :
    (handle_fileop h print (handle_fileop h print w (some r1) post1).1 (some r2) post2).2.2 =
        Event.http_post "/fs/result".toList body :: post_log post2 ∧
      (∀ e ∈ (handle_fileop h print (handle_fileop h print w (some r1) post1).1
          (some r2) post2).2.2, e.is_fs = false) ∧
      (handle_fileop h print (handle_fileop h print w (some r1) post1).1 (some r2) post2).1.fs =
        (handle_fileop h print w (some r1) post1).1.fs ∧
      (handle_fileop h print (handle_fileop h print w (some r1) post1).1 (some r2) post2).1.fs_cache =
        (handle_fileop h print w (some r1) post1).1.fs_cache ∧
      (handle_fileop h print (handle_fileop h print w (some r1) post1).1 (some r2) post2).2.1 =
        true := by
  have hlook : cache_lookup (handle_fileop h print w (some r1) post1).1.fs_cache id =
      some body := by
    revert hpost
    simp only [handle_fileop, hid1]
    cases hp1 : r1.has_pending with
    | false => simp
    | true =>
      simp only [Bool.not_true, Bool.false_eq_true, ↓reduceIte]
      cases ho : r1.operation with
      | none => simp
      | some op =>
        cases hpa : r1.path with
        | none => simp
        | some filepath =>
          simp only
          cases hc : cache_lookup w.fs_cache id with
          | some cached =>
            simp only [List.mem_cons, Event.http_post.injEq, true_and]
            rintro (hb | hb)
            · rw [hc, hb]
            · exact absurd hb (post_log_no_post post1 _ _)
          | none =>
            simp only
            cases hb : build_full_path filepath MAX_PATH_LEN with
            | none => simp
            | some full_path =>
              simp only
              split
              · rename_i result_str hprint
                simp only [List.mem_append, List.mem_cons, Event.http_post.injEq, true_and]
                rintro (hb1 | hb1 | hb1)
                · exact absurd hb1 (fileop_events_no_post h w.fs full_path op r1.content _ _)
                · subst hb1
                  exact cache_lookup_store_after_miss _ _ _ _ hlen hidx hfill hne h63 hc
                · exact absurd hb1 (post_log_no_post post1 _ _)
              · intro hb1
                exact absurd hb1 (fileop_events_no_post h w.fs full_path op r1.content _ _)
  obtain ⟨op2, hop2⟩ := Option.ne_none_iff_exists'.mp hop
  obtain ⟨p2, hp2⟩ := Option.ne_none_iff_exists'.mp hpath
  have hsecond : handle_fileop h print (handle_fileop h print w (some r1) post1).1
      (some r2) post2 =
      ((handle_fileop h print w (some r1) post1).1, true,
        Event.http_post "/fs/result".toList body :: post_log post2) := by
    generalize (handle_fileop h print w (some r1) post1).1 = w1 at hlook ⊢
    simp only [handle_fileop, hpend, hid2, hop2, hp2, hlook, Bool.not_true, Bool.false_eq_true,
      ↓reduceIte]
  rw [hsecond]
  refine ⟨rfl, ?_, rfl, rfl, rfl⟩
  intro e he
  rcases List.mem_cons.mp he with rfl | he
  · rfl
  · unfold post_log at he
    split_ifs at he
    · simp at he
      subst he
      rfl
    · simp at he

theorem cache_filled_init : cache_filled cache_init := by
  intro e he h0
  simp only [cache_init, List.mem_replicate] at he
  exact absurd (by rw [he.2]) h0

theorem cache_store_filled (cache : List CacheEntry) (i : Nat) (id result : List Char)
    (h : cache_filled cache) : cache_filled (cache_store cache i id result).1 := by
  intro e he _
  rcases List.mem_or_eq_of_mem_set he with h1 | h1
  · exact h e h1 ‹_›
  · rw [h1]
    simp

/-- The cache keeps its 16 slots, an index below 16 and a result in every named
slot across every `handle_fileop` call (and has them at program start). -/
theorem handle_fileop_keeps_cache {σ : Type} (h : HostFs σ)
    (print : List ResultItem → Option (List Char)) (w : FsWorld σ) (poll : Option FsPoll)
    (post_ret : HttpResult)
    (hlen : w.fs_cache.length = IDEMPOTENCY_CACHE_SIZE)
    (hidx : w.fs_cache_index < IDEMPOTENCY_CACHE_SIZE) (hfill : cache_filled w.fs_cache) :
    (handle_fileop h print w poll post_ret).1.fs_cache.length = IDEMPOTENCY_CACHE_SIZE ∧
      (handle_fileop h print w poll post_ret).1.fs_cache_index < IDEMPOTENCY_CACHE_SIZE ∧
      cache_filled (handle_fileop h print w poll post_ret).1.fs_cache := by
  have hbase : w.fs_cache.length = IDEMPOTENCY_CACHE_SIZE ∧
      w.fs_cache_index < IDEMPOTENCY_CACHE_SIZE ∧ cache_filled w.fs_cache := ⟨hlen, hidx, hfill⟩
  unfold handle_fileop
  cases poll with
  | none => exact hbase
  | some r =>
    simp only
    split_ifs
    · exact hbase
    · cases r.op_id with
      | none => exact hbase
      | some op_id =>
        cases r.operation with
        | none => exact hbase
        | some op =>
          cases r.path with
          | none => exact hbase
          | some filepath =>
            simp only
            cases cache_lookup w.fs_cache op_id with
            | some cached => exact hbase
            | none =>
              simp only
              cases build_full_path filepath MAX_PATH_LEN with
              | none => exact hbase
              | some full_path =>
                simp only
                split
                · exact ⟨by rw [cache_store_length, hlen], Nat.mod_lt _ (by decide),
                    cache_store_filled _ _ _ _ hfill⟩
                · exact hbase

/-- Witness for C4: the write request "A" of the second scenario, polled twice. -/
theorem handle_fileop_replay_witness :
    (handle_fileop counting_fs sample_print
      (handle_fileop counting_fs sample_print sample_world (some (sample_write "A".toList))
        HttpResult.HTTP_OK).1
      (some (sample_write "A".toList)) HttpResult.HTTP_OK).2.2 =
      [Event.http_post "/fs/result".toList "\x7b\"op_id\":\"A\"\x7d".toList] :=
  (handle_fileop_replay counting_fs sample_print sample_world (sample_write "A".toList)
    (sample_write "A".toList) HttpResult.HTTP_OK HttpResult.HTTP_OK "A".toList
    "\x7b\"op_id\":\"A\"\x7d".toList rfl (by decide)
    (by intro e he; simp [sample_world, cache_init] at he; intro h0; exact absurd (by rw [he.2]) h0)
    rfl rfl (by decide) (by decide) (by decide) rfl (by decide) (by decide)).1

/-- C4 counterexample: a write request with the empty `op_id` is executed and
its result stored and POSTed; the next call with the same request writes the
file again. -/
theorem handle_fileop_empty_id_runs_twice :
    (handle_fileop counting_fs sample_print sample_world (some (sample_write []))
        HttpResult.HTTP_OK).2.2 =
      [Event.fs_write "C:\\x.txt".toList "hello".toList,
       Event.http_post "/fs/result".toList "\x7b\"op_id\":\"\"\x7d".toList] ∧
    (handle_fileop counting_fs sample_print
      (handle_fileop counting_fs sample_print sample_world (some (sample_write []))
        HttpResult.HTTP_OK).1
      (some (sample_write [])) HttpResult.HTTP_OK).2.2 =
      [Event.fs_write "C:\\x.txt".toList "hello".toList,
       Event.http_post "/fs/result".toList "\x7b\"op_id\":\"\"\x7d".toList] ∧
    (handle_fileop counting_fs sample_print
      (handle_fileop counting_fs sample_print sample_world (some (sample_write []))
        HttpResult.HTTP_OK).1
      (some (sample_write [])) HttpResult.HTTP_OK).1.fs = 2 := by
  decide

/-! ### Slashes inside a URL -/

theorem ptb_in_url (prev : Char) (u : Bool) (s : List Char) (i : Nat) (c : Char)
    (h : s[i]? = some c) (hu : url_flag u s i) :
    (path_to_backslashes_from prev u s)[i]? = some c := by
  induction s generalizing prev u i with
  | nil => simp at h
  | cons d rest ih =>
    cases i with
    | zero =>
      have hu1 : u = true := by
        rcases hu with ⟨h1, _⟩ | ⟨j, hj, _⟩
        · exact h1
        · omega
      subst hu1
      simp only [List.getElem?_cons_zero, Option.some.injEq] at h
      subst h
      unfold path_to_backslashes_from
      simp
    | succ i =>
      simp only [List.getElem?_cons_succ] at h
      have step : ∀ (u1 : Bool),
          ((u = true ∧ is_url_end d = false) ∨ "://".toList <+: (d :: rest) → u1 = true) →
          url_flag u1 rest i := by
        intro u1 hu1
        rcases hu with ⟨h1, hall⟩ | ⟨j, hj, hp, hk⟩
        · left
          refine ⟨hu1 (Or.inl ⟨h1, hall 0 d (by omega) (by simp)⟩), ?_⟩
          intro k c0 hk hc0
          exact hall (k + 1) c0 (by omega) (by simpa using hc0)
        · cases j with
          | zero =>
            left
            refine ⟨hu1 (Or.inr (by simpa using hp)), ?_⟩
            intro k c0 hk0 hc0
            exact hk (k + 1) c0 (by omega) (by omega) (by simpa using hc0)
          | succ j =>
            right
            refine ⟨j, by omega, by simpa using hp, ?_⟩
            intro k c0 hjk hki hc0
            exact hk (k + 1) c0 (by omega) (by omega) (by simpa using hc0)
      unfold path_to_backslashes_from
      split_ifs with h1 h2 h3 h4
      · simp only [List.getElem?_cons_succ]
        exact ih _ true i h (step true (fun _ => rfl))
      · simp only [List.getElem?_cons_succ]
        apply ih _ _ i h
        apply step
        rintro (⟨_, hd⟩ | hp)
        · simp [hd]
        · have hd : d = ':' := by
            obtain ⟨t, ht⟩ := hp
            simp at ht
            exact ht.1.symm
          subst hd
          decide
      · simp only [List.getElem?_cons_succ]
        apply ih _ _ i h
        apply step
        rintro (⟨hu1, _⟩ | hp)
        · exact absurd hu1 h2
        · have hd : d = ':' := by
            obtain ⟨t, ht⟩ := hp
            simp at ht
            exact ht.1.symm
          subst hd
          simp at h3
      · simp only [List.getElem?_cons_succ]
        apply ih _ _ i h
        apply step
        rintro (⟨hu1, _⟩ | hp)
        · exact absurd hu1 h2
        · have hd : d = ':' := by
            obtain ⟨t, ht⟩ := hp
            simp at ht
            exact ht.1.symm
          subst hd
          simp at h3
      · simp only [List.getElem?_cons_succ]
        apply ih _ _ i h
        apply step
        rintro (⟨hu1, _⟩ | hp)
        · exact absurd hu1 h2
        · exfalso
          apply h1
          have := (url_start_iff d rest).mpr hp
          simp only [Bool.and_eq_true] at this ⊢
          exact ⟨⟨⟨by simpa using h2, this.1.1⟩, this.1.2⟩, this.2⟩

/-- C11: every '/' that lies inside a URL, that is after a "://" with no blank,
tab, newline, carriage return or quote in between (so in particular with no
white space or quote at all in between), is left unchanged by
`path_to_backslashes`; and "curl https://x.y/z and /p" comes back unchanged. -/
theorem path_to_backslashes_url_kept :
    (∀ (s : List Char) (i : Nat), s[i]? = some '/' → in_url_at s i →
      (path_to_backslashes s)[i]? = some '/') ∧
    (∀ (s : List Char) (i : Nat), s[i]? = some '/' →
      (∃ j, j < i ∧ "://".toList <+: s.drop j ∧
        ∀ k c, j < k → k < i → s[k]? = some c →
          (isspace c || c == '"' || c == '\'') = false) →
      (path_to_backslashes s)[i]? = some '/') ∧
    path_to_backslashes "curl https://x.y/z and /p".toList =
      "curl https://x.y/z and /p".toList := by
  refine ⟨fun s i h hu => ptb_in_url ' ' false s i '/' h (Or.inr hu), ?_, by decide⟩
  intro s i h hu
  apply ptb_in_url ' ' false s i '/' h
  right
  obtain ⟨j, hj, hp, hk⟩ := hu
  refine ⟨j, hj, hp, ?_⟩
  intro k c hjk hki hc
  have := hk k c hjk hki hc
  simp only [isspace, Bool.or_eq_false_iff] at this
  simp only [is_url_end, Bool.or_eq_false_iff]
  tauto

/-! ### Paths made of clean segments -/

theorem clean_facts {c : Char} (h : is_clean_char c = true) :
    c ≠ '/' ∧ c ≠ '\\' ∧ c ≠ NUL ∧ c ≠ ' ' ∧ c ≠ '\t' := by
  simp only [is_clean_char, Bool.not_eq_true', Bool.or_eq_false_iff, beq_eq_false_iff_ne,
    ne_eq] at h
  tauto

theorem segment_char_clean {c : Char} (h : is_segment_char c = true) :
    is_clean_char c = true := by
  by_contra hc
  simp only [is_clean_char, Bool.not_eq_true', Bool.not_eq_false, Bool.or_eq_true,
    beq_iff_eq] at hc
  rcases hc with (((rfl | rfl) | rfl) | rfl) | rfl <;> revert h <;> decide

theorem ptb_name (name : List Char) (prev : Char) (tail : List Char)
    (hname : ∀ c ∈ name, is_clean_char c = true) (hp1 : prev ≠ ' ') (hp2 : prev ≠ '\t')
    (htail : ¬ (tail.head? = some '/' ∧ tail.tail.head? = some '/')) :
    ∃ prev1, prev1 ≠ ' ' ∧ prev1 ≠ '\t' ∧
      path_to_backslashes_from prev false (name ++ tail) =
        name ++ path_to_backslashes_from prev1 false tail := by
  induction name generalizing prev with
  | nil => exact ⟨prev, hp1, hp2, rfl⟩
  | cons c n ih =>
    obtain ⟨c1, c2, c3, c4, c5⟩ := clean_facts (hname c (List.mem_cons_self _ _))
    obtain ⟨prev1, q1, q2, q3⟩ := ih c (fun x hx => hname x (List.mem_cons_of_mem _ hx)) c4 c5
    refine ⟨prev1, q1, q2, ?_⟩
    have hcond : (c == ':' && (n ++ tail).head? == some '/' &&
        (n ++ tail).tail.head? == some '/') = false := by
      cases n with
      | nil =>
        simp only [List.nil_append]
        by_contra hne
        simp only [Bool.not_eq_false, Bool.and_eq_true, beq_iff_eq] at hne
        exact htail ⟨hne.1.2, hne.2⟩
      | cons a n2 =>
        have ha := (clean_facts (hname a (List.mem_cons_of_mem _ (List.mem_cons_self _ _)))).1
        simp [ha]
    simp only [List.cons_append]
    rw [path_to_backslashes_from]
    simp only [Bool.not_false, Bool.true_and, hcond, Bool.false_eq_true, ↓reduceIte, beq_iff_eq,
      c1, q3]

theorem tail_text_head (more : List (Char × List Char))
    (hmore : ∀ x ∈ more, is_separator x.1 = true ∧ x.2 ≠ [] ∧ ∀ c ∈ x.2, is_clean_char c = true) :
    ¬ ((tail_text more).head? = some '/' ∧ (tail_text more).tail.head? = some '/') := by
  cases more with
  | nil => simp [tail_text]
  | cons x rest =>
    obtain ⟨_, hne, hcl⟩ := hmore x (List.mem_cons_self _ _)
    rintro ⟨_, h2⟩
    cases hx : x.2 with
    | nil => exact hne hx
    | cons a t =>
      simp only [tail_text, hx, List.tail_cons, List.cons_append, List.head?_cons,
        Option.some.injEq] at h2
      exact (clean_facts (hcl a (by rw [hx]; exact List.mem_cons_self _ _))).1 h2

/-- The pairs with every separator written as a backslash. -/
theorem ptb_tail_text (more : List (Char × List Char)) (prev : Char)
    (hmore : ∀ x ∈ more, is_separator x.1 = true ∧ x.2 ≠ [] ∧ ∀ c ∈ x.2, is_clean_char c = true)
    (hp1 : prev ≠ ' ') (hp2 : prev ≠ '\t') :
    path_to_backslashes_from prev false (tail_text more) =
      tail_text (more.map (fun x => ('\\', x.2))) := by
  induction more generalizing prev with
  | nil => simp [tail_text, path_to_backslashes_from]
  | cons x rest ih =>
    obtain ⟨hsep, hne, hcl⟩ := hmore x (List.mem_cons_self _ _)
    have hrest : ∀ y ∈ rest, is_separator y.1 = true ∧ y.2 ≠ [] ∧
        ∀ c ∈ y.2, is_clean_char c = true := fun y hy => hmore y (List.mem_cons_of_mem _ hy)
    obtain ⟨prev1, q1, q2, q3⟩ := ptb_name x.2 '\\' (tail_text rest) hcl (by decide) (by decide)
      (tail_text_head rest hrest)
    simp only [tail_text, List.map_cons]
    rw [path_to_backslashes_from]
    have hx : x.1 = '/' ∨ x.1 = '\\' := by
      simpa [is_separator] using hsep
    have hblank : (prev == ' ' || prev == '\t') = false := by simp [hp1, hp2]
    rcases hx with h | h
    · rw [h]
      simp only [Bool.not_false, Bool.true_and, hblank, Bool.false_and, Bool.false_eq_true,
        ↓reduceIte, beq_self_eq_true, q3, ih prev1 hrest q1 q2]
      simp
    · rw [h]
      simp only [Bool.not_false, Bool.true_and, Bool.false_eq_true, ↓reduceIte, q3,
        ih prev1 hrest q1 q2]
      simp

theorem tail_text_back_join (first : List Char) (more : List (Char × List Char)) :
    first ++ tail_text (more.map (fun x => ('\\', x.2))) =
      join_with '\\' (first :: more.map Prod.snd) := by
  induction more generalizing first with
  | nil => simp [tail_text, join_with]
  | cons x rest ih =>
    simp only [List.map_cons, tail_text, join_with]
    rw [ih x.2]

theorem convert_make_path (lead : Option Char) (first : List Char)
    (more : List (Char × List Char))
    (hlead : ∀ c, lead = some c → is_separator c = true)
    (hfirst : first ≠ [] ∧ ∀ c ∈ first, is_clean_char c = true)
    (hmore : ∀ x ∈ more, is_separator x.1 = true ∧ x.2 ≠ [] ∧ ∀ c ∈ x.2, is_clean_char c = true) :
    path_to_backslashes (compose_path (make_path lead first more)) =
      ['C', ':', '\\'] ++ join_with '\\' (first :: more.map Prod.snd) := by
  obtain ⟨a, t, rfl⟩ : ∃ a t, first = a :: t := by
    cases first with
    | nil => exact absurd rfl hfirst.1
    | cons a t => exact ⟨a, t, rfl⟩
  obtain ⟨a1, a2, a3, a4, a5⟩ := clean_facts (hfirst.2 a (List.mem_cons_self _ _))
  have hcompose : ∃ sep, is_separator sep = true ∧
      compose_path (make_path lead (a :: t) more) =
        'C' :: ':' :: tail_text ((sep, a :: t) :: more) := by
    cases lead with
    | none =>
      refine ⟨'\\', by decide, ?_⟩
      simp [make_path, compose_path, tail_text, a1, a2]
    | some sep =>
      refine ⟨sep, hlead sep rfl, ?_⟩
      have hs : sep = '/' ∨ sep = '\\' := by
        simpa [is_separator] using hlead sep rfl
      simp only [make_path, Option.toList, List.singleton_append, List.cons_append, compose_path,
        tail_text]
      rcases hs with rfl | rfl <;> simp
  obtain ⟨sep, hsep, hc⟩ := hcompose
  rw [hc, path_to_backslashes, path_to_backslashes_from]
  simp only [Bool.not_false, Bool.true_and, Bool.false_eq_true, ↓reduceIte]
  have hC : (('C' : Char) == ':') = false := by decide
  have hC2 : (('C' : Char) == '/') = false := by decide
  simp only [hC, Bool.false_and, Bool.false_eq_true, ↓reduceIte, hC2]
  rw [path_to_backslashes_from]
  have hcond : ((':' : Char) == ':' && (tail_text ((sep, a :: t) :: more)).head? == some '/' &&
      (tail_text ((sep, a :: t) :: more)).tail.head? == some '/') = false := by
    simp [tail_text, a1]
  have hc3 : ((':' : Char) == '/') = false := by decide
  simp only [Bool.not_false, Bool.true_and, hcond, Bool.false_eq_true, ↓reduceIte, hc3]
  rw [ptb_tail_text ((sep, a :: t) :: more) ':' (by
      intro x hx
      rcases List.mem_cons.mp hx with rfl | hx
      · exact ⟨hsep, by simp, hfirst.2⟩
      · exact hmore x hx) (by decide) (by decide)]
  simp only [List.map_cons, tail_text]
  rw [tail_text_back_join]
  rfl

theorem scan_pairs_resolve (segs : List (List Char)) (p : Nat)
    (st : List (Nat × List Char)) (kept : List (List Char))
    (hne : ∀ s ∈ segs, s ≠ [])
    (hres : resolve_segments (st.map Prod.snd) segs = some kept)
    (hdepth : depth_within 128 st.length segs = true) :
    ∃ st1, scan_pairs segs p st = some st1 ∧ st1.map Prod.snd = kept := by
  induction segs generalizing p st with
  | nil =>
    simp only [resolve_segments, Option.some.injEq] at hres
    exact ⟨st, rfl, hres⟩
  | cons seg rest ih =>
    have hseg := hne seg (List.mem_cons_self _ _)
    have hrest : ∀ s ∈ rest, s ≠ [] := fun s hs => hne s (List.mem_cons_of_mem _ hs)
    rw [scan_pairs_cons]
    rw [resolve_segments] at hres
    rw [depth_within] at hdepth
    by_cases h1 : seg = ['.']
    · rw [if_pos h1] at hres hdepth
      rw [if_pos (Or.inr h1)]
      exact ih _ st hrest hres hdepth
    · rw [if_neg h1] at hres hdepth
      rw [if_neg (by tauto)]
      by_cases h2 : seg = ['.', '.']
      · rw [if_pos h2] at hres hdepth
        rw [if_pos h2]
        by_cases h3 : st.map Prod.snd = []
        · rw [if_pos h3] at hres
          simp at hres
        · rw [if_neg h3] at hres
          have h4 : ¬ st.length = 0 := by
            intro h0
            exact h3 (by rw [List.length_eq_zero.mp h0]; rfl)
          rw [if_neg h4]
          apply ih _ st.dropLast hrest
          · rw [List.map_dropLast]
            exact hres
          · rw [List.length_dropLast]
            exact hdepth
      · rw [if_neg h2] at hres hdepth
        rw [if_neg h2]
        simp only [Bool.and_eq_true, decide_eq_true_eq] at hdepth
        rw [if_neg (by omega)]
        apply ih _ (st ++ [(p, seg)]) hrest
        · simpa using hres
        · simpa using hdepth.2

theorem build_full_path_clean (lead : Option Char) (first : List Char)
    (more : List (Char × List Char)) (out_size : Nat)
    (hlead : ∀ c, lead = some c → is_separator c = true)
    (hfirst : first ≠ [] ∧ ∀ c ∈ first, is_clean_char c = true)
    (hmore : ∀ x ∈ more, is_separator x.1 = true ∧ x.2 ≠ [] ∧ ∀ c ∈ x.2, is_clean_char c = true)
    (hfit : (compose_path (make_path lead first more)).length < out_size) :
    build_full_path (make_path lead first more) out_size =
      (scan_pairs (first :: more.map Prod.snd) 3 []).map
        (fun st => ['C', ':', '\\'] ++ join_with '\\' (st.map Prod.snd)) := by
  have hnames : ∀ s ∈ first :: more.map Prod.snd, s ≠ [] ∧ ∀ c ∈ s, is_clean_char c = true := by
    intro s hs
    rcases List.mem_cons.mp hs with rfl | hs
    · exact hfirst
    · obtain ⟨x, hx, rfl⟩ := List.mem_map.mp hs
      exact ⟨(hmore x hx).2.1, (hmore x hx).2.2⟩
  have hsepfree : ∀ s ∈ first :: more.map Prod.snd, '\\' ∉ s := fun s hs hmem =>
    (clean_facts ((hnames s hs).2 _ hmem)).2.1 rfl
  have hnul : NUL ∉ join_with '\\' (first :: more.map Prod.snd) := by
    intro hmem
    rcases mem_join_with hmem with h | ⟨s, hs, hc⟩
    · revert h
      decide
    · exact (clean_facts ((hnames s hs).2 _ hc)).2.2.1 rfl
  unfold build_full_path
  simp only
  rw [if_neg (by omega), convert_make_path lead first more hlead hfirst hmore]
  have hsplit : split_on_backslash (join_with '\\' (first :: more.map Prod.snd)) =
      first :: more.map Prod.snd := split_join (by simp) hsepfree
  cases hrun : scan_pairs (first :: more.map Prod.snd) 3 [] with
  | none =>
    rw [normalize_path_scan ['C', ':', '\\'] _ 3 (Or.inl ⟨rfl, rfl⟩) hnul, hsplit, hrun]
    rfl
  | some st =>
    rw [← hsplit] at hrun
    rw [(normalize_path_rooted (fun _ => True) _ st hnul (fun _ _ => trivial) hrun).1]
    rfl

/-- C12 (as amended): for a path of non-empty segments of letters, digits, '_'
or '.', joined by single '/' or '\' separators, optionally after one leading
separator, that never pops below the root, never holds more than 128 kept
segments and whose composed text is shorter than the buffer,
`build_full_path` succeeds with "C:\" followed by the segments that remain
after dropping each "." and letting each ".." remove the last kept segment,
joined by '\'. -/
theorem build_full_path_resolves (lead : Option Char) (first : List Char)
    (more : List (Char × List Char)) (out_size : Nat) (kept : List (List Char))
    (hlead : ∀ c, lead = some c → is_separator c = true)
    (hfirst : first ≠ [] ∧ ∀ c ∈ first, is_segment_char c = true)
    (hmore : ∀ x ∈ more,
      is_separator x.1 = true ∧ x.2 ≠ [] ∧ ∀ c ∈ x.2, is_segment_char c = true)
    (hres : resolve_segments [] (first :: more.map Prod.snd) = some kept)
    (hdepth : depth_within 128 0 (first :: more.map Prod.snd) = true)
    (hfit : (compose_path (make_path lead first more)).length < out_size) :
    build_full_path (make_path lead first more) out_size =
      some ("C:\\".toList ++ join_with '\\' kept) := by
  have hne : ∀ s ∈ first :: more.map Prod.snd, s ≠ [] := by
    intro s hs
    rcases List.mem_cons.mp hs with rfl | hs
    · exact hfirst.1
    · obtain ⟨x, hx, rfl⟩ := List.mem_map.mp hs
      exact (hmore x hx).2.1
  obtain ⟨st1, hrun, hkept⟩ := scan_pairs_resolve (first :: more.map Prod.snd) 3 [] kept hne
    hres hdepth
  rw [build_full_path_clean lead first more out_size hlead
    ⟨hfirst.1, fun c hc => segment_char_clean (hfirst.2 c hc)⟩
    (fun x hx => ⟨(hmore x hx).1, (hmore x hx).2.1,
      fun c hc => segment_char_clean ((hmore x hx).2.2 c hc)⟩) hfit, hrun, Option.map_some',
    hkept]
  rfl

/-- Witness for C12: "foo/../bar" gives "C:\bar". -/
theorem build_full_path_resolves_witness :
    build_full_path "foo/../bar".toList MAX_PATH_LEN = some "C:\\bar".toList :=
  build_full_path_resolves none "foo".toList [('/', "..".toList), ('/', "bar".toList)]
    MAX_PATH_LEN ["bar".toList] (by decide) (by decide) (by decide) (by decide) (by decide)
    (by decide)

set_option maxRecDepth 100000 in
/-- C12 counterexample: 129 segments "a" joined by '/' never pop below the root
and fit the 512-byte buffer (the composed text has 260 bytes), and
`build_full_path` fails. -/
theorem build_full_path_deep_path_fails :
    resolve_segments [] ("a".toList :: (List.replicate 128 ('/', "a".toList)).map Prod.snd) =
        some (List.replicate 129 "a".toList) ∧
      (compose_path (make_path none "a".toList (List.replicate 128 ('/', "a".toList)))).length <
        MAX_PATH_LEN ∧
      build_full_path (make_path none "a".toList (List.replicate 128 ('/', "a".toList)))
        MAX_PATH_LEN = none := by
  decide

/-- When neither spelling of the header name occurs anywhere in the buffer,
`parse_content_length` finds no length. -/
theorem parse_content_length_absent {buffer : List Char}
    (h1 : strstr buffer "Content-Length:".toList = none)
    (h2 : strstr buffer "content-length:".toList = none) :
    parse_content_length buffer = -1 := by
  simp only [parse_content_length, h1, h2, Option.orElse]

/-- A text without NUL is its own C string. -/
theorem cstr_at_zero_of_no_nul (l : List Char) (h : ∀ x ∈ l, x ≠ NUL) : cstr_at l 0 = l := by
  simp only [cstr_at, List.drop_zero, List.takeWhile_eq_self_iff]
  intro x hx
  simpa using h x hx

/-- The head of a response without headers whose body starts with the text
"Content-Length: 5 ", spelled out. -/
theorem body_mention_head :
    "HTTP/1.1 200 OK\r\n\r\nContent-Length: 5 ".toList =
      ['H', 'T', 'T', 'P', '/', '1', '.', '1', ' ', '2', '0', '0', ' ', 'O', 'K', '\r', '\n', '\r', '\n', 'C', 'o', 'n', 't', 'e', 'n', 't', '-', 'L', 'e', 'n', 'g', 't', 'h', ':', ' ', '5', ' '] := by
  decide

/-- A response without headers whose body starts with "Content-Length: 5 " and
that fills the receive buffer is accepted as `OK`. -/
theorem http_response_full_buffer_ok (pad : List Char) (hnul : ∀ x ∈ pad, x ≠ NUL)
    (hlen : pad.length = 32730) (resp_size : Nat) (hresp : 5 < resp_size) :
    http_response ("HTTP/1.1 200 OK\r\n\r\nContent-Length: 5 ".toList ++ pad) resp_size =
      (HttpResult.HTTP_OK,
        strncpy ("Content-Length: 5 ".toList ++ pad) (resp_size - 1)) := by
  have hhead : ∀ y ∈ "HTTP/1.1 200 OK\r\n\r\nContent-Length: 5 ".toList, y ≠ NUL := by decide
  have hbuf : cstr_at ("HTTP/1.1 200 OK\r\n\r\nContent-Length: 5 ".toList ++ pad) 0 = "HTTP/1.1 200 OK\r\n\r\nContent-Length: 5 ".toList ++ pad := by
    apply cstr_at_zero_of_no_nul
    intro x hx
    rcases List.mem_append.mp hx with hx | hx
    · exact hhead x hx
    · exact hnul x hx
  have hhl : ("HTTP/1.1 200 OK\r\n\r\nContent-Length: 5 ".toList).length = 37 := by decide
  have htotal : ("HTTP/1.1 200 OK\r\n\r\nContent-Length: 5 ".toList ++ pad).length = 32767 := by
    rw [List.length_append, hlen, hhl]
  have hstatus : parse_http_status ("HTTP/1.1 200 OK\r\n\r\nContent-Length: 5 ".toList ++ pad) = 200 := by
    rw [body_mention_head]
    simp [parse_http_status, strchr, List.isPrefixOf, List.indexOf_cons, atoi, atoi_digits,
      isspace]
  have hsep : strstr ("HTTP/1.1 200 OK\r\n\r\nContent-Length: 5 ".toList ++ pad) "\r\n\r\n".toList = some 15 := by
    rw [body_mention_head]
    have hn : "\r\n\r\n".toList = ['\r', '\n', '\r', '\n'] := by decide
    rw [hn]
    simp [strstr, List.isPrefixOf]
  have hcl : parse_content_length ("HTTP/1.1 200 OK\r\n\r\nContent-Length: 5 ".toList ++ pad) = 5 := by
    rw [body_mention_head]
    have hn1 : "Content-Length:".toList =
        ['C', 'o', 'n', 't', 'e', 'n', 't', '-', 'L', 'e', 'n', 'g', 't', 'h', ':'] := by decide
    rw [parse_content_length, hn1]
    simp [strstr, List.isPrefixOf, atoi, atoi_digits, isspace, Option.orElse]
  have hdrop : ("HTTP/1.1 200 OK\r\n\r\nContent-Length: 5 ".toList ++ pad).drop (15 + 4) = "Content-Length: 5 ".toList ++ pad := by
    rw [body_mention_head]
    simp
  simp only [http_response, hbuf, htotal, hstatus, hsep, hcl, hdrop]
  have h1 : ¬ ((5 : Int) > 0 ∧ (5 : Int) ≥ (resp_size : Int)) := by omega
  have h2 : ¬ ((5 : Int) > 0 ∧ ((32767 : Nat) : Int) - ((15 + 4 : Nat) : Int) < 5) := by omega
  have h3 : ¬ ((5 : Int) ≤ 0 ∧ 32767 ≥ BUFFER_SIZE - 1) := by omega
  rw [if_neg (by decide), if_neg (by decide), if_neg h1, if_neg h2, if_neg h3]

/-- C14: `parse_content_length` searches the whole receive buffer, body
included.  Where the text "Content-Length:" (or "content-length:") occurs
nowhere, a 2xx response with terminated headers is `Truncated` when it fills
the buffer (32767 bytes) and `OK` with the body when it is shorter; but a
short response with no Content-Length header whose body mentions
"Content-Length: 99" is classified `Truncated` instead of `OK` (the header
block of that response, the text before the blank line, holds no length),
and a response without headers that fills the buffer and whose body starts
with "Content-Length: 5 " is classified `OK` instead of `Truncated`. -/
theorem http_response_length_text_in_body :
    (∀ (received : List Char) (resp_size k : Nat),
      200 ≤ parse_http_status (cstr_at received 0) →
      parse_http_status (cstr_at received 0) < 300 →
      strstr (cstr_at received 0) "\r\n\r\n".toList = some k →
      strstr (cstr_at received 0) "Content-Length:".toList = none →
      strstr (cstr_at received 0) "content-length:".toList = none →
      (received.length = BUFFER_SIZE - 1 →
        http_response received resp_size = (HttpResult.HTTP_ERR_TRUNCATED, [])) ∧
      (received.length < BUFFER_SIZE - 1 →
        http_response received resp_size =
          (HttpResult.HTTP_OK,
            strncpy ((cstr_at received 0).drop (k + 4)) (resp_size - 1)))) ∧
    strstr "HTTP/1.1 200 OK\r\nConnection: close\r\n\r\nContent-Length: 99".toList
      "\r\n\r\n".toList = some 34 ∧
    parse_content_length "HTTP/1.1 200 OK\r\nConnection: close".toList = -1 ∧
    parse_content_length
      "HTTP/1.1 200 OK\r\nConnection: close\r\n\r\nContent-Length: 99".toList = 99 ∧
    http_response
      "HTTP/1.1 200 OK\r\nConnection: close\r\n\r\nContent-Length: 99".toList BUFFER_SIZE =
        (HttpResult.HTTP_ERR_TRUNCATED, []) ∧
    ("HTTP/1.1 200 OK\r\n\r\nContent-Length: 5 ".toList ++ List.replicate 32730 'x').length =
      BUFFER_SIZE - 1 ∧
    parse_content_length "HTTP/1.1 200 OK".toList = -1 ∧
    http_response
      ("HTTP/1.1 200 OK\r\n\r\nContent-Length: 5 ".toList ++ List.replicate 32730 'x')
      BUFFER_SIZE =
        (HttpResult.HTTP_OK, "Content-Length: 5 ".toList ++ List.replicate 32730 'x') := by
  have hfull := http_response_full_buffer_ok (List.replicate 32730 'x')
    (fun x hx => by rw [List.eq_of_mem_replicate hx]; decide) (List.length_replicate _ _)
    BUFFER_SIZE (by decide)
  have hcopy : strncpy ("Content-Length: 5 ".toList ++ List.replicate 32730 'x')
      (BUFFER_SIZE - 1) = "Content-Length: 5 ".toList ++ List.replicate 32730 'x' := by
    have hl : "Content-Length: 5 ".toList.length = 18 := by decide
    apply List.take_of_length_le
    rw [List.length_append, List.length_replicate, hl]
    decide
  rw [hcopy] at hfull
  have hlen : ("HTTP/1.1 200 OK\r\n\r\nContent-Length: 5 ".toList ++
      List.replicate 32730 'x').length = BUFFER_SIZE - 1 := by
    have hl : "HTTP/1.1 200 OK\r\n\r\nContent-Length: 5 ".toList.length = 37 := by decide
    rw [List.length_append, List.length_replicate, hl]
    decide
  refine ⟨?_, by decide, by decide, by decide, by decide, hlen, by decide, hfull⟩
  intro received resp_size k hlo hhi hsep h1 h2
  have hcl := parse_content_length_absent h1 h2
  have hne : received.length ≠ 0 := by
    intro h0
    have hnil : received = [] := List.length_eq_zero.mp h0
    subst hnil
    simp [cstr_at, strstr] at hsep
  have hst : ¬ (parse_http_status (cstr_at received 0) < 200 ∨
      parse_http_status (cstr_at received 0) ≥ 300) := by omega
  constructor
  · intro hfull
    simp only [http_response, if_neg hne, if_neg hst, hsep, hcl]
    simp [hfull]
  · intro hshort
    simp only [http_response, if_neg hne, if_neg hst, hsep, hcl]
    have hb : ¬ (received.length ≥ BUFFER_SIZE - 1) := by omega
    simp [hb]

/-- C15: only the spellings "Content-Length:" and "content-length:" are
looked for.  A response that declares its length as "CONTENT-LENGTH: 5" or
"Content-length: 5" yields -1 where "Content-Length: 5" yields 5, and a body
cut short after 3 of the 5 declared bytes is then accepted as `OK` instead of
`Truncated`. -/
theorem parse_content_length_case_sensitive :
    parse_content_length "HTTP/1.1 200 OK\r\nContent-Length: 5\r\n\r\nhello".toList = 5 ∧
    parse_content_length "HTTP/1.1 200 OK\r\ncontent-length: 5\r\n\r\nhello".toList = 5 ∧
    parse_content_length "HTTP/1.1 200 OK\r\nCONTENT-LENGTH: 5\r\n\r\nhello".toList = -1 ∧
    parse_content_length "HTTP/1.1 200 OK\r\nContent-length: 5\r\n\r\nhello".toList = -1 ∧
    http_response "HTTP/1.1 200 OK\r\nContent-Length: 5\r\n\r\nhel".toList BUFFER_SIZE =
      (HttpResult.HTTP_ERR_TRUNCATED, []) ∧
    http_response "HTTP/1.1 200 OK\r\nCONTENT-LENGTH: 5\r\n\r\nhel".toList BUFFER_SIZE =
      (HttpResult.HTTP_OK, "hel".toList) := by
  refine ⟨by decide, by decide, by decide, by decide, by decide, by decide⟩

/-! ## C16: the command-length limits of the shell backends -/

/-- The temp-file name fits `temp_file[MAX_PATH]`. -/
theorem temp_file_path_length (getenv : List Char → Option (List Char)) :
    (temp_file_path getenv).length ≤ 259 := by
  simp only [temp_file_path, MAX_PATH, List.length_take]
  omega

/-- C16: each shell backend has a maximum command length `M`: 1007 for
`execute_command_nt`, 2029 minus the length of the temp-file name for
`execute_command_9x`.  A command of at most `M` bytes (so one of exactly `M`)
passes the pre-check: the composed command line is shorter than the internal
buffer (1024, 2048) and is handed over whole.  A longer command (so one of
`M + 1` bytes) is refused: nothing is run, the result is -1 with the output
"Command too long" (for an output buffer of more than 16 bytes). -/
theorem execute_command_length_limit (popen : List Char → Option (List Char × Int))
    (getenv : List Char → Option (List Char)) (system : List Char → Int × Option (List Char))
    (command : List Char) (output_size : Nat) (hout : 16 < output_size) :
    (command.length ≤ 1007 →
      ("cmd.exe /c ".toList ++ command ++ " 2>&1".toList).length < 1024 ∧
      (execute_command_nt popen command output_size).cmdlines =
        ["cmd.exe /c ".toList ++ command ++ " 2>&1".toList]) ∧
    (1007 < command.length →
      execute_command_nt popen command output_size =
        { exit_code := -1, output := "Command too long".toList, cmdlines := [] }) ∧
    (command.length ≤ 2029 - (temp_file_path getenv).length →
      ("command.com /c ".toList ++ command ++ " > ".toList ++ temp_file_path getenv).length <
        2048 ∧
      (execute_command_9x getenv system command output_size).cmdlines =
        ["command.com /c ".toList ++ command ++ " > ".toList ++ temp_file_path getenv]) ∧
    (2029 - (temp_file_path getenv).length < command.length →
      execute_command_9x getenv system command output_size =
        { exit_code := -1, output := "Command too long".toList, cmdlines := [] }) := by
  have ht := temp_file_path_length getenv
  have hmsg : strncpy "Command too long".toList (output_size - 1) = "Command too long".toList := by
    have hl : "Command too long".toList.length = 16 := by decide
    exact List.take_of_length_le (by omega)
  have hnt : ("cmd.exe /c ".length + 1) - 1 + (" 2>&1".length + 1) = 17 := by decide
  refine ⟨?_, ?_, ?_, ?_⟩
  · intro hle
    have hlen : ("cmd.exe /c ".toList ++ command ++ " 2>&1".toList).length < 1024 := by
      simp only [List.length_append]
      have h1 : "cmd.exe /c ".toList.length = 11 := by decide
      have h2 : " 2>&1".toList.length = 5 := by decide
      omega
    refine ⟨hlen, ?_⟩
    have hnot : ¬ (command.length > 1024 - 17) := by omega
    have htake : ("cmd.exe /c ".toList ++ command ++ " 2>&1".toList).take (1024 - 1) =
        "cmd.exe /c ".toList ++ command ++ " 2>&1".toList :=
      List.take_of_length_le (by omega)
    simp only [execute_command_nt, hnt, if_neg hnot, htake]
    cases popen ("cmd.exe /c ".toList ++ command ++ " 2>&1".toList) with
    | none => rfl
    | some r => rfl
  · intro hgt
    have hyes : command.length > 1024 - 17 := by omega
    simp only [execute_command_nt, hnt, if_pos hyes, hmsg]
  · intro hle
    have hlen : ("command.com /c ".toList ++ command ++ " > ".toList ++
        temp_file_path getenv).length < 2048 := by
      simp only [List.length_append]
      have h1 : "command.com /c ".toList.length = 15 := by decide
      have h2 : " > ".toList.length = 3 := by decide
      omega
    refine ⟨hlen, ?_⟩
    have hnot : ¬ (command.length > 2048 - 15 - 3 - (temp_file_path getenv).length - 1) := by
      omega
    have htake : ("command.com /c ".toList ++ command ++ " > ".toList ++
        temp_file_path getenv).take (2048 - 1) =
        "command.com /c ".toList ++ command ++ " > ".toList ++ temp_file_path getenv :=
      List.take_of_length_le (by omega)
    simp only [execute_command_9x, if_neg hnot, htake]
    cases (system ("command.com /c ".toList ++ command ++ " > ".toList ++
        temp_file_path getenv)).2 with
    | none => rfl
    | some r => rfl
  · intro hgt
    have hyes : command.length > 2048 - 15 - 3 - (temp_file_path getenv).length - 1 := by
      omega
    simp only [execute_command_9x, if_pos hyes, hmsg]

/-- C16 at concrete commands, with an output buffer of `BUFFER_SIZE` bytes and
no `TEMP` or `TMP` set (temp file "C:\CMDOUT.TMP", 13 bytes, `M` = 2016):
1007 and 2016 bytes pass whole, 1008 and 2017 bytes are refused. -/
theorem execute_command_length_limit_witness :
    16 < BUFFER_SIZE ∧
    (execute_command_nt (fun _ => some ([], 0)) (List.replicate 1007 'a') BUFFER_SIZE).cmdlines =
      ["cmd.exe /c ".toList ++ List.replicate 1007 'a' ++ " 2>&1".toList] ∧
    execute_command_nt (fun _ => some ([], 0)) (List.replicate 1008 'a') BUFFER_SIZE =
      { exit_code := -1, output := "Command too long".toList, cmdlines := [] } ∧
    (execute_command_9x (fun _ => none) (fun _ => (0, some [])) (List.replicate 2016 'a')
        BUFFER_SIZE).cmdlines =
      ["command.com /c ".toList ++ List.replicate 2016 'a' ++ " > ".toList ++
        "C:\\CMDOUT.TMP".toList] ∧
    execute_command_9x (fun _ => none) (fun _ => (0, some [])) (List.replicate 2017 'a')
        BUFFER_SIZE =
      { exit_code := -1, output := "Command too long".toList, cmdlines := [] } := by
  have hlim := execute_command_length_limit (fun _ => some ([], 0)) (fun _ => none)
    (fun _ => (0, some []))
  have htemp : temp_file_path (fun _ => none) = "C:\\CMDOUT.TMP".toList := by decide
  have hB : 16 < BUFFER_SIZE := by decide
  refine ⟨hB, ?_, ?_, ?_, ?_⟩
  · exact ((hlim (List.replicate 1007 'a') BUFFER_SIZE hB).1
      (by rw [List.length_replicate])).2
  · exact (hlim (List.replicate 1008 'a') BUFFER_SIZE hB).2.1
      (by rw [List.length_replicate]; decide)
  · have h := ((hlim (List.replicate 2016 'a') BUFFER_SIZE hB).2.2.1
      (by rw [htemp, List.length_replicate]; decide)).2
    rw [htemp] at h
    exact h
  · exact (hlim (List.replicate 2017 'a') BUFFER_SIZE hB).2.2.2
      (by rw [htemp, List.length_replicate]; decide)

/-! ## C17: `connected` and `session_id` -/

/-- One call keeps the relation, unless it is a connect whose reply names the
session with an empty id. -/
theorem session_inv_step (st : ClientState) (op : SessionOp) (hinv : session_inv st)
    (hop : op.names_session) : session_inv (session_step st op) := by
  unfold session_inv at *
  cases op with
  | connect reply tick =>
    simp only [session_step, session_connect]
    split_ifs with h1
    · exact hinv
    · cases reply with
      | none => exact hinv
      | some r =>
        simp only
        split_ifs with h2
        · exact hinv
        · cases hid : r.session_id with
          | none => exact hinv
          | some id =>
            simp only [SessionOp.names_session, hid, ne_eq, Option.some.injEq] at hop
            simp only [strncpy, ne_eq, List.take_eq_nil_iff, true_iff]
            intro h
            rcases h with h | h
            · omega
            · exact hop h
  | disconnect =>
    simp only [session_step, session_disconnect]
    split_ifs with h1
    · exact hinv
    · simp
  | poll_once reply =>
    simp only [session_step, session_poll_once]
    split_ifs with h1
    · exact hinv
    · cases reply with
      | none => exact hinv
      | some r =>
        simp only
        split_ifs
        · simp
        · exact hinv
  | thread_output reply =>
    simp only [session_step, poll_thread_output]
    cases reply with
    | none => exact hinv
    | some r =>
      simp only
      cases r.output with
      | none =>
        simp only
        split_ifs <;> exact hinv
      | some o =>
        simp only
        split_ifs <;> exact hinv
  | check_pending threaded =>
    simp only [session_step, check_pending_output, take_pending_output]
    split_ifs <;> first | exact hinv | simp
  | poll_output threaded reply =>
    simp only [session_step, session_poll_output, take_pending_output]
    split_ifs
    · exact hinv
    · simp
    · exact hinv
    · simp
    · exact hinv
    · cases reply with
      | none => exact hinv
      | some r =>
        simp only
        split_ifs
        · simp
        · exact hinv

/-- A sequence of calls keeps the relation, under the same proviso. -/
theorem session_inv_run (ops : List SessionOp) (st : ClientState) (hinv : session_inv st)
    (hops : ∀ op ∈ ops, op.names_session) : session_inv (session_run st ops) := by
  induction ops generalizing st with
  | nil => exact hinv
  | cons op rest ih =>
    simp only [session_run, List.foldl_cons]
    exact ih (session_step st op)
      (session_inv_step st op hinv (hops op (List.mem_cons_self _ _)))
      (fun o ho => hops o (List.mem_cons_of_mem _ ho))

/-- C17: `session_connect` tests that the `session_id` item of the `/start`
reply is a string, not that it holds text.  As long as no `/start` reply
names the session with an empty id, every state reached from program start
through `session_connect`, `session_disconnect`, `session_poll_once`, the poll
thread and the stop handling has `connected` set exactly when `session_id`
is non-empty.  After the reply `session_id: ""` the client is `connected`
with an empty `session_id`, and `session_disconnect` (which tests
`session_id`) leaves it so. -/
theorem session_connect_empty_id :
    (∀ (skip : Bool) (ops : List SessionOp), (∀ op ∈ ops, op.names_session) →
      session_inv (session_run (client_init skip) ops)) ∧
    (session_connect (client_init false) (some { error := none, session_id := some [] })
      7).connected = true ∧
    (session_connect (client_init false) (some { error := none, session_id := some [] })
      7).session_id = [] ∧
    ¬ session_inv (session_run (client_init false)
      [SessionOp.connect (some { error := none, session_id := some [] }) 7]) ∧
    ¬ session_inv (session_run (client_init false)
      [SessionOp.connect (some { error := none, session_id := some [] }) 7,
       SessionOp.disconnect]) := by
  refine ⟨?_, by decide, by decide, ?_, ?_⟩
  · intro skip ops hops
    exact session_inv_run ops (client_init skip) (by simp [session_inv, client_init]) hops
  · simp [session_inv, session_run, session_step, session_connect, client_init, strncpy]
  · simp [session_inv, session_run, session_step, session_connect, session_disconnect,
      client_init, strncpy]

/-! ## C18: approval in synchronous and in threaded mode -/

/-- C18: `handle_approval` never reads `skip_permissions`.  An idle client
with a session and `skip_permissions` clear, polled with a reply whose
`approval_id` is a non-empty string of at most 63 bytes (or no string at
all), POSTs the same bodies to `/approval/respond` in both modes.  With
`skip_permissions` set the modes differ: for the approval "a1" of tool "Bash"
and the key 'n', threaded mode auto-approves and POSTs `approved:true`
without a prompt, synchronous mode prompts and POSTs `approved:false`. -/
theorem handle_approval_ignores_skip_permissions :
    (∀ (st : ClientState) (r : ApprovalPoll) (key : Char),
      st.skip_permissions = false → st.session_id ≠ [] →
      st.has_pending_approval = false → st.approval_in_progress = false →
      (∀ id, r.approval_id = some id → id ≠ [] ∧ id.length ≤ 63) →
      respond_bodies (handle_approval st (some r) key).2 =
        respond_bodies (threaded_approval st (some r) key)) ∧
    respond_bodies (threaded_approval
        { client_init true with session_id := "s1".toList, connected := true }
        (some { has_pending := true, approval_id := some "a1".toList,
                tool_name := some "Bash".toList, tool_input := some "dir".toList }) 'n') =
      ["\x7b\"approval_id\":\"a1\",\"approved\":true\x7d".toList] ∧
    respond_bodies (handle_approval
        { client_init true with session_id := "s1".toList, connected := true }
        (some { has_pending := true, approval_id := some "a1".toList,
                tool_name := some "Bash".toList, tool_input := some "dir".toList }) 'n').2 =
      ["\x7b\"approval_id\":\"a1\",\"approved\":false\x7d".toList] ∧
    threaded_approval
        { client_init true with session_id := "s1".toList, connected := true }
        (some { has_pending := true, approval_id := some "a1".toList,
                tool_name := some "Bash".toList, tool_input := some "dir".toList }) 'n' =
      [Event.http_get "/approval/poll?session_id=s1".toList,
       Event.auto_approve "Bash".toList,
       Event.http_post "/approval/respond".toList
         "\x7b\"approval_id\":\"a1\",\"approved\":true\x7d".toList] ∧
    (handle_approval
        { client_init true with session_id := "s1".toList, connected := true }
        (some { has_pending := true, approval_id := some "a1".toList,
                tool_name := some "Bash".toList, tool_input := some "dir".toList }) 'n').2 =
      [Event.http_get "/approval/poll?session_id=s1".toList,
       Event.approval_prompt "Bash".toList "dir".toList,
       Event.http_post "/approval/respond".toList
         "\x7b\"approval_id\":\"a1\",\"approved\":false\x7d".toList] := by
  refine ⟨?_, by decide, by decide, by decide, by decide⟩
  intro st r key hskip hsid hpend hprog hid
  have hsid63 : ¬ (List.take 63 st.session_id = []) := by
    simp only [List.take_eq_nil_iff, not_or]
    exact ⟨by omega, hsid⟩
  cases hp : r.has_pending with
  | false =>
    simp [handle_approval, threaded_approval, poll_approval, poll_approval_check,
      poll_approval_latch, process_approval, process_approval_begin, hsid, hp, hpend, hprog,
      strncpy, hsid63, respond_bodies]
  | true =>
    cases ha : r.approval_id with
    | none =>
      simp [handle_approval, threaded_approval, poll_approval, poll_approval_check,
        poll_approval_latch, process_approval, process_approval_begin, process_approval_decide,
        process_approval_respond, process_approval_end, hsid, hp, hpend, hprog, hskip, ha,
        strncpy, hsid63, respond_bodies]
    | some id =>
      obtain ⟨hne, hlen⟩ := hid id ha
      have htake : List.take 63 id = id := List.take_of_length_le hlen
      simp [handle_approval, threaded_approval, poll_approval, poll_approval_check,
        poll_approval_latch, process_approval, process_approval_begin, process_approval_decide,
        process_approval_respond, process_approval_end, hsid, hp, hpend, hprog, hskip, ha,
        strncpy, hsid63, respond_bodies, htake, hne]

/-! ## C19: download completes exactly at the declared size -/

/-- The receive loop never takes `total` past `file_size`. -/
theorem download_loop_le (file_size : Nat) (events : List RecvEvent) (total : Nat)
    (h : total ≤ file_size) : download_loop file_size total events ≤ file_size := by
  induction events generalizing total with
  | nil => simpa only [download_loop] using h
  | cons e rest ih =>
    simp only [download_loop]
    split_ifs with hlt hsmall
    · cases e with
      | timeout => exact h
      | closed => exact h
      | data n write_ok =>
        simp only
        split_ifs
        · exact h
        · exact h
        · apply ih
          have := Nat.min_le_right n (file_size - total)
          omega
    · cases e with
      | timeout => exact h
      | closed => exact h
      | data n write_ok =>
        simp only
        split_ifs
        · exact h
        · exact h
        · apply ih
          have := Nat.min_le_right n 4096
          omega
    · exact h

/-- The ten digit characters and their values. -/
theorem digitChar_facts (d : Nat) (h : d < 10) :
    (Nat.digitChar d).isDigit = true ∧ (Nat.digitChar d).toNat - '0'.toNat = d := by
  interval_cases d <;> decide

/-- A digit is neither a blank nor a sign. -/
theorem digit_not_blank (c : Char) (h : c.isDigit = true) :
    isspace c = false ∧ c ≠ '-' ∧ c ≠ '+' := by
  refine ⟨?_, ?_, ?_⟩
  · cases hs : isspace c with
    | false => rfl
    | true =>
      exfalso
      simp only [isspace, Bool.or_eq_true, beq_iff_eq] at hs
      rcases hs with ((((hs | hs) | hs) | hs) | hs) | hs <;>
        · subst hs
          revert h
          decide
  · intro hc
    subst hc
    revert h
    decide
  · intro hc
    subst hc
    revert h
    decide

/-- What `Nat.toDigitsCore` puts in front of the digits it was given: a
non-empty run of digit characters whose value is `n`. -/
theorem toDigitsCore_value (fuel : Nat) : ∀ (n : Nat) (ds : List Char), n < fuel →
    ∃ pre, Nat.toDigitsCore 10 fuel n ds = pre ++ ds ∧ pre ≠ [] ∧
      (∀ c ∈ pre, c.isDigit = true) ∧
      ∀ acc, pre.foldl (fun acc c => acc * 10 + (c.toNat - '0'.toNat)) acc =
        acc * 10 ^ pre.length + n := by
  induction fuel with
  | zero => intro n ds h; omega
  | succ fuel ih =>
    intro n ds hn
    have hd := digitChar_facts (n % 10) (Nat.mod_lt _ (by decide))
    by_cases hq : n / 10 = 0
    · refine ⟨[Nat.digitChar (n % 10)], ?_, by simp, ?_, ?_⟩
      · simp [Nat.toDigitsCore, hq]
      · intro c hc
        simp only [List.mem_singleton] at hc
        subst hc
        exact hd.1
      · intro acc
        simp only [List.foldl_cons, List.foldl_nil, List.length_singleton, pow_one, hd.2]
        have := Nat.div_add_mod n 10
        omega
    · have hlt : n / 10 < fuel := by
        have := Nat.div_add_mod n 10
        omega
      obtain ⟨pre, heq, hne, hdig, hval⟩ := ih (n / 10) (Nat.digitChar (n % 10) :: ds) hlt
      refine ⟨pre ++ [Nat.digitChar (n % 10)], ?_, by simp, ?_, ?_⟩
      · simp only [Nat.toDigitsCore, hq, if_false, heq, List.append_assoc, List.singleton_append]
      · intro c hc
        simp only [List.mem_append, List.mem_singleton] at hc
        rcases hc with hc | hc
        · exact hdig c hc
        · subst hc
          exact hd.1
      · intro acc
        simp only [List.foldl_append, List.foldl_cons, List.foldl_nil, hval, hd.2,
          List.length_append, List.length_singleton, pow_succ]
        have := Nat.div_add_mod n 10
        nlinarith [this]

/-- The text `strtoul` sees behind "OK ": the decimal digits of `n`, then
something that is not a digit.  It reads `n` back (up to `ULONG_MAX`). -/
theorem strtoul_decimal (n : Nat) (rest : List Char) (hmax : n ≤ ULONG_MAX)
    (hrest : ∀ c, rest.head? = some c → c.isDigit = false) :
    strtoul (decimal n ++ rest) = some n := by
  obtain ⟨pre, heq, hne, hdig, hval⟩ := toDigitsCore_value (n + 1) n [] (Nat.lt_succ_self n)
  have hdec : decimal n = pre := by
    simp only [decimal, Nat.toDigits, heq, List.append_nil]
  rw [hdec]
  cases pre with
  | nil => exact absurd rfl hne
  | cons c cs =>
    have hc := digit_not_blank c (hdig c (List.mem_cons_self _ _))
    have hdrop : (c :: (cs ++ rest)).dropWhile isspace = c :: (cs ++ rest) := by
      simp [List.dropWhile, hc.1]
    have htw : (c :: (cs ++ rest)).takeWhile Char.isDigit = c :: cs := by
      have : c :: (cs ++ rest) = (c :: cs) ++ rest := rfl
      rw [this]
      clear hdrop hval hdec heq
      generalize c :: cs = l at hdig
      induction l with
      | nil =>
        cases rest with
        | nil => rfl
        | cons r rs =>
          have := hrest r rfl
          simp [List.takeWhile, this]
      | cons x xs ih =>
        have hx := hdig x (List.mem_cons_self _ _)
        simp only [List.cons_append, List.takeWhile_cons, hx, if_true]
        rw [ih (fun y hy => hdig y (List.mem_cons_of_mem _ hy))]
    have hv := hval 0
    simp only [zero_mul, zero_add] at hv
    have hsign : strtoul_sign (c :: (cs ++ rest)) = (false, c :: (cs ++ rest)) := by
      unfold strtoul_sign
      split
      · rename_i r heq2
        simp only [List.cons.injEq] at heq2
        exact absurd heq2.1 hc.2.1
      · rename_i r heq2
        simp only [List.cons.injEq] at heq2
        exact absurd heq2.1 hc.2.2
      · rfl
    have hnot : ¬ (n > ULONG_MAX) := by omega
    simp only [strtoul, List.cons_append, hdrop, hsign, htw, hv, if_neg hnot]
    simp

/-- C19 (as amended): for every reply "OK <size>" with a declared size from 1
to 2^32 - 1 (in decimal, followed by nothing or by a character that is not a
digit) and every course of the transfer, `transfer_download` returns 0 if and
only if the number of bytes received and written equals the declared size;
that number never exceeds the declared size, and the result is 0 or -1. -/
theorem transfer_download_complete (size : Nat) (rest : List Char) (fopen_ok : Bool)
    (events : List RecvEvent) (hpos : 0 < size) (hmax : size ≤ ULONG_MAX)
    (hrest : ∀ c, rest.head? = some c → c.isDigit = false) :
    ((transfer_download (some ("OK ".toList ++ decimal size ++ rest)) fopen_ok events).ret = 0 ↔
      (transfer_download (some ("OK ".toList ++ decimal size ++ rest)) fopen_ok events).total =
        size) ∧
    (transfer_download (some ("OK ".toList ++ decimal size ++ rest)) fopen_ok events).total ≤
      size ∧
    ((transfer_download (some ("OK ".toList ++ decimal size ++ rest)) fopen_ok events).ret = 0 ∨
      (transfer_download (some ("OK ".toList ++ decimal size ++ rest)) fopen_ok events).ret =
        -1) := by
  have hparse := strtoul_decimal size rest hmax hrest
  have hok : "OK ".toList = ['O', 'K', ' '] := by decide
  have herr : "ERROR ".toList = ['E', 'R', 'R', 'O', 'R', ' '] := by decide
  have hline : (['O', 'K', ' '] ++ decimal size ++ rest).drop 3 = decimal size ++ rest := by
    simp
  have hle := download_loop_le size events 0 (Nat.zero_le _)
  have hsz : size ≠ 0 := by omega
  simp only [transfer_download, hok, herr]
  have h1 : List.isPrefixOf ['E', 'R', 'R', 'O', 'R', ' ']
      (['O', 'K', ' '] ++ decimal size ++ rest) = false := by
    simp [List.isPrefixOf]
  have h2 : List.isPrefixOf ['O', 'K', ' '] (['O', 'K', ' '] ++ decimal size ++ rest) = true := by
    simp [List.isPrefixOf]
  simp only [h1, h2, hline, hparse, Bool.false_eq_true, if_false, Bool.not_true, if_neg hsz]
  cases fopen_ok with
  | false =>
    simp
    omega
  | true =>
    by_cases hall : download_loop size 0 events = size
    · simp [hall]
    · simp [hall]
      exact hle

/-- C19 at "OK 5": two rounds deliver 3 and 2 bytes (the second offers more
than is missing) and the download succeeds; a peer that closes after 3 bytes
makes it fail. -/
theorem transfer_download_complete_witness :
    0 < 5 ∧ 5 ≤ ULONG_MAX ∧
    (transfer_download (some "OK 5".toList) true
      [RecvEvent.data 3 true, RecvEvent.data 10 true]).ret = 0 ∧
    (transfer_download (some "OK 5".toList) true
      [RecvEvent.data 3 true, RecvEvent.data 10 true]).total = 5 ∧
    (transfer_download (some "OK 5".toList) true
      [RecvEvent.data 3 true, RecvEvent.closed]) = { ret := -1, total := 3 } ∧
    ((transfer_download (some ("OK ".toList ++ decimal 5 ++ [])) true
        [RecvEvent.data 3 true, RecvEvent.data 10 true]).ret = 0 ↔
      (transfer_download (some ("OK ".toList ++ decimal 5 ++ [])) true
        [RecvEvent.data 3 true, RecvEvent.data 10 true]).total = 5) :=
  ⟨by decide, by decide, by decide, by decide, by decide,
    (transfer_download_complete 5 [] true [RecvEvent.data 3 true, RecvEvent.data 10 true]
      (by decide) (by decide) (by simp)).1⟩

/-- C19 as stated fails at the declared size 0: for the reply "OK 0" the
number of bytes received and written is 0, the declared size, yet the result
is -1 ("Invalid file size"). -/
theorem transfer_download_zero_size_fails :
    strtoul "0".toList = some 0 ∧
    transfer_download (some "OK 0".toList) true [] = { ret := -1, total := 0 } ∧
    (transfer_download (some "OK 0".toList) true []).total = 0 ∧
    (transfer_download (some "OK 0".toList) true []).ret ≠ 0 := by
  refine ⟨by decide, by decide, by decide, by decide⟩

/-! ## C20: write, then read -/

/-- The in-memory host reads back what was written. -/
theorem mem_fs_reads_back : reads_back mem_fs := by
  intro fs fs1 p c hw
  simp only [mem_fs, Option.some.injEq, Prod.mk.injEq] at hw
  obtain ⟨hfs, _⟩ := hw
  subst hfs
  simp [mem_fs, List.lookup]

/-- C20 (as amended): over a host that reads back what a complete write
stored, let a write request for an accepted path (full path `fp`) with a
NUL-free content `c` be carried out completely, under an `op_id` the cache
does not hold.  A read request for the same path under an `op_id` for which
the cache holds no result afterwards opens `fp` and its result object is the
`op_id` and the content `c` cut to the read cap of `2 * BUFFER_SIZE - 1` =
65535 bytes (so `c` itself when it is within the cap); that object is what is
printed and POSTed to `/fs/result`. -/
theorem handle_fileop_write_then_read {σ : Type} (h : HostFs σ)
    (print : List ResultItem → Option (List Char)) (w : FsWorld σ)
    (id_w id_r path c fp : List Char) (fs1 : σ) (post1 post2 : HttpResult)
    (hback : reads_back h) (hnul : ∀ x ∈ c, x ≠ NUL)
    (hpath : build_full_path path MAX_PATH_LEN = some fp)
    (hfresh_w : cache_lookup w.fs_cache id_w = none)
    (hwrite : h.fopen_write w.fs fp c = some (fs1, c.length))
    (hfresh_r : cache_lookup
      (handle_fileop h print w (some (fs_request id_w "write".toList path (some c)))
        post1).1.fs_cache id_r = none) :
    Event.fs_write fp c ∈
      (handle_fileop h print w (some (fs_request id_w "write".toList path (some c)))
        post1).2.2 ∧
    (handle_fileop h print
      (handle_fileop h print w (some (fs_request id_w "write".toList path (some c))) post1).1
      (some (fs_request id_r "read".toList path none)) post2).2.2 =
      Event.fs_read fp ::
        (match print [ResultItem.op_id id_r, ResultItem.content (c.take (BUFFER_SIZE * 2 - 1))] with
          | some body => Event.http_post "/fs/result".toList body :: post_log post2
          | none => []) ∧
    (c.length ≤ BUFFER_SIZE * 2 - 1 → c.take (BUFFER_SIZE * 2 - 1) = c) := by
  have hwl : ¬ ("write".toList = "list".toList) := by decide
  have hwr : ¬ ("write".toList = "read".toList) := by decide
  have hrl : ¬ ("read".toList = "list".toList) := by decide
  have hfirst : (handle_fileop h print w (some (fs_request id_w "write".toList path (some c)))
        post1).1.fs = fs1 ∧
      Event.fs_write fp c ∈
        (handle_fileop h print w (some (fs_request id_w "write".toList path (some c)))
          post1).2.2 := by
    simp only [handle_fileop, fs_request, Bool.not_true, Bool.false_eq_true, if_false, hfresh_w,
      hpath, if_neg hwl, if_neg hwr, if_true, handle_write_op, hwrite, ne_eq, not_true_eq_false]
    cases print [ResultItem.op_id id_w] with
    | none => simp
    | some body => simp
  refine ⟨hfirst.2, ?_, fun hle => List.take_of_length_le hle⟩
  generalize (handle_fileop h print w (some (fs_request id_w "write".toList path (some c)))
        post1).1 = w1 at hfirst hfresh_r
  have hread : h.fopen_read w1.fs fp = some c := by
    rw [hfirst.1]
    exact hback w.fs fs1 fp c hwrite
  have hcut : cstr_at (c.take (BUFFER_SIZE * 2 - 1)) 0 = c.take (BUFFER_SIZE * 2 - 1) :=
    cstr_at_zero_of_no_nul _ (fun x hx => hnul x (List.mem_of_mem_take hx))
  simp only [handle_fileop, fs_request, Bool.not_true, Bool.false_eq_true, if_false, hfresh_r,
    hpath, if_neg hrl, if_true, handle_read_op, hread, hcut]
  cases print [ResultItem.op_id id_r, ResultItem.content (c.take (BUFFER_SIZE * 2 - 1))] with
  | none => simp
  | some body => simp

/-- C20 in memory: "hello" written to "/x.txt" under the id "W" at program
start and read under the id "R" comes back as the content "hello". -/
theorem handle_fileop_write_then_read_witness :
    (handle_fileop mem_fs content_print
      (handle_fileop mem_fs content_print mem_world
        (some (fs_request "W".toList "write".toList "/x.txt".toList (some "hello".toList)))
        HttpResult.HTTP_OK).1
      (some (fs_request "R".toList "read".toList "/x.txt".toList none))
      HttpResult.HTTP_OK).2.2 =
      [Event.fs_read "C:\\x.txt".toList,
       Event.http_post "/fs/result".toList
         "\x7b\"op_id\":\"R\",\"content\":\"hello\"\x7d".toList] := by
  have hthm := (handle_fileop_write_then_read mem_fs content_print mem_world "W".toList
    "R".toList "/x.txt".toList "hello".toList "C:\\x.txt".toList
    [("C:\\x.txt".toList, "hello".toList)] HttpResult.HTTP_OK HttpResult.HTTP_OK
    mem_fs_reads_back (by decide) (by decide) (by decide) (by decide) (by decide)).2.1
  rw [hthm]
  decide

/-- C20 as stated fails when the read's `op_id` is already in the cache: a
read of "/x.txt" under the id "R" before the file exists caches "File not
found"; after "hello" has been written under the id "W" (the write is
carried out and the file is there), a read under "R", an id different from
"W", opens no file and replays the cached error, while a read under the
fresh id "R2" returns "hello". -/
theorem handle_fileop_read_replays_stale_result :
    (handle_fileop mem_fs content_print
        (handle_fileop mem_fs content_print mem_world
          (some (fs_request "R".toList "read".toList "/x.txt".toList none))
          HttpResult.HTTP_OK).1
        (some (fs_request "W".toList "write".toList "/x.txt".toList (some "hello".toList)))
        HttpResult.HTTP_OK).1.fs = [("C:\\x.txt".toList, "hello".toList)] ∧
    (handle_fileop mem_fs content_print
      (handle_fileop mem_fs content_print
        (handle_fileop mem_fs content_print mem_world
          (some (fs_request "R".toList "read".toList "/x.txt".toList none))
          HttpResult.HTTP_OK).1
        (some (fs_request "W".toList "write".toList "/x.txt".toList (some "hello".toList)))
        HttpResult.HTTP_OK).1
      (some (fs_request "R".toList "read".toList "/x.txt".toList none))
      HttpResult.HTTP_OK).2.2 =
      [Event.http_post "/fs/result".toList
         "\x7b\"op_id\":\"R\",\"error\":\"File not found\"\x7d".toList] ∧
    (handle_fileop mem_fs content_print
      (handle_fileop mem_fs content_print
        (handle_fileop mem_fs content_print mem_world
          (some (fs_request "R".toList "read".toList "/x.txt".toList none))
          HttpResult.HTTP_OK).1
        (some (fs_request "W".toList "write".toList "/x.txt".toList (some "hello".toList)))
        HttpResult.HTTP_OK).1
      (some (fs_request "R2".toList "read".toList "/x.txt".toList none))
      HttpResult.HTTP_OK).2.2 =
      [Event.fs_read "C:\\x.txt".toList,
       Event.http_post "/fs/result".toList
         "\x7b\"op_id\":\"R2\",\"content\":\"hello\"\x7d".toList] := by
  refine ⟨by decide, by decide, by decide⟩

/-! ## C27: `path_to_backslashes` twice -/

/-- The loop never turns a byte into a forward slash. -/
theorem ptb_head_slash (prev : Char) (u : Bool) (s : List Char) (i : Nat)
    (h : (path_to_backslashes_from prev u s)[i]? = some '/') : s[i]? = some '/' := by
  have hlen := ptb_length prev u s
  have hi : i < s.length := by
    by_contra hge
    rw [List.getElem?_eq_none (by omega)] at h
    exact absurd h (by simp)
  obtain ⟨c, hc⟩ : ∃ c, s[i]? = some c := ⟨s[i], List.getElem?_eq_getElem hi⟩
  by_cases hs : c = '/'
  · rw [hc, hs]
  · rw [ptb_other prev u s i c hc hs] at h
    simp only [Option.some.injEq] at h
    exact absurd h hs

/-- The loop run over its own output, from the same locals, changes nothing. -/
theorem ptb_from_idem (s : List Char) : ∀ (prev : Char) (u : Bool),
    path_to_backslashes_from prev u (path_to_backslashes_from prev u s) =
      path_to_backslashes_from prev u s := by
  induction s with
  | nil => intro prev u; simp [path_to_backslashes_from]
  | cons c rest ih =>
    intro prev u
    by_cases h1 : (!u && c == ':' && rest.head? == some '/' && rest.tail.head? == some '/') = true
    · -- a URL starts here
      have hout : path_to_backslashes_from prev u (c :: rest) =
          c :: path_to_backslashes_from c true rest := by
        rw [path_to_backslashes_from, if_pos h1]
      simp only [Bool.and_eq_true, Bool.not_eq_true', beq_iff_eq] at h1
      obtain ⟨⟨⟨hu, hc⟩, hr1⟩, hr2⟩ := h1
      have hslash1 : (path_to_backslashes_from c true rest).head? = some '/' := by
        have h0 : rest[0]? = some '/' := by rw [← List.head?_eq_getElem?]; exact hr1
        have := ptb_in_url c true rest 0 '/' h0 (Or.inl ⟨rfl, fun k _ hk _ => by omega⟩)
        rw [List.head?_eq_getElem?]
        exact this
      have hslash2 : (path_to_backslashes_from c true rest).tail.head? = some '/' := by
        have h0 : rest[0]? = some '/' := by rw [← List.head?_eq_getElem?]; exact hr1
        have h1 : rest[1]? = some '/' := by
          cases rest with
          | nil => simp at hr1
          | cons a t =>
            simp only [List.tail_cons] at hr2
            rw [List.head?_eq_getElem?] at hr2
            simpa using hr2
        have := ptb_in_url c true rest 1 '/' h1 (Or.inl ⟨rfl, fun k d hk hd => by
          have hk0 : k = 0 := by omega
          subst hk0
          rw [h0] at hd
          simp only [Option.some.injEq] at hd
          subst hd
          decide⟩)
        cases hp : path_to_backslashes_from c true rest with
        | nil => rw [hp] at this; simp at this
        | cons a t =>
          rw [hp] at this
          simp only [List.tail_cons]
          rw [List.head?_eq_getElem?]
          simpa using this
      rw [hout, path_to_backslashes_from]
      have hcond : (!u && c == ':' && (path_to_backslashes_from c true rest).head? == some '/' &&
          (path_to_backslashes_from c true rest).tail.head? == some '/') = true := by
        rw [hslash1, hslash2, hu, hc]
        decide
      rw [if_pos hcond, ih c true]
    · have hout1 : path_to_backslashes_from prev u (c :: rest) =
          (if u then c :: path_to_backslashes_from c (!is_url_end c) rest
           else if c == '/' then
             if (prev == ' ' || prev == '\t') &&
                 (rest.head?.map is_switch_char).getD false then
               c :: path_to_backslashes_from c false rest
             else '\\' :: path_to_backslashes_from '\\' false rest
           else c :: path_to_backslashes_from c false rest) := by
        rw [path_to_backslashes_from, if_neg h1]
      cases u with
      | true =>
        rw [hout1]
        simp only [if_true]
        rw [path_to_backslashes_from]
        simp only [Bool.not_true, Bool.false_and, Bool.false_eq_true, if_false, if_true]
        rw [ih c (!is_url_end c)]
      | false =>
        rw [hout1]
        simp only [Bool.false_eq_true, if_false]
        by_cases hs : (c == '/') = true
        · rw [if_pos hs]
          have hc : c = '/' := by simpa using hs
          by_cases hsw : ((prev == ' ' || prev == '\t') &&
              (rest.head?.map is_switch_char).getD false) = true
          · -- a switch: the slash stays, and so does the switch character behind it
            rw [if_pos hsw]
            have hnext : ((path_to_backslashes_from c false rest).head?.map
                is_switch_char).getD false = true := by
              simp only [Bool.and_eq_true] at hsw
              cases rest with
              | nil => simp at hsw
              | cons a t =>
                have ha : is_switch_char a = true := by simpa using hsw.2
                have hane : a ≠ '/' := by
                  intro h
                  subst h
                  exact absurd ha (by decide)
                have := ptb_other c false (a :: t) 0 a (by simp) hane
                rw [List.head?_eq_getElem?, this]
                simpa using ha
            rw [path_to_backslashes_from]
            have hnot : ¬ ((!false && c == ':' &&
                (path_to_backslashes_from c false rest).head? == some '/' &&
                (path_to_backslashes_from c false rest).tail.head? == some '/') = true) := by
              subst hc
              simp
            rw [if_neg hnot]
            simp only [Bool.false_eq_true, if_false, if_pos hs]
            have hsw2 : ((prev == ' ' || prev == '\t') &&
                ((path_to_backslashes_from c false rest).head?.map is_switch_char).getD false) =
                true := by
              simp only [Bool.and_eq_true] at hsw ⊢
              exact ⟨hsw.1, hnext⟩
            rw [if_pos hsw2, ih c false]
          · rw [if_neg hsw, path_to_backslashes_from]
            simp only [Bool.not_false, Bool.true_and, Bool.false_eq_true, if_false]
            have hb1 : ¬ (('\\' == ':' &&
                (path_to_backslashes_from '\\' false rest).head? == some '/' &&
                (path_to_backslashes_from '\\' false rest).tail.head? == some '/') = true) := by
              simp
            have hb2 : ¬ (('\\' == '/') = true) := by decide
            rw [if_neg hb1, if_neg hb2, ih '\\' false]
        · rw [if_neg hs, path_to_backslashes_from]
          have hnot : ¬ ((!false && c == ':' &&
              (path_to_backslashes_from c false rest).head? == some '/' &&
              (path_to_backslashes_from c false rest).tail.head? == some '/') = true) := by
            intro hcond
            simp only [Bool.and_eq_true, Bool.not_eq_true', beq_iff_eq] at hcond
            obtain ⟨⟨⟨_, hc⟩, hr1⟩, hr2⟩ := hcond
            apply h1
            have h0 : rest[0]? = some '/' :=
              ptb_head_slash c false rest 0 (by rw [← List.head?_eq_getElem?]; exact hr1)
            have h1p : (path_to_backslashes_from c false rest)[1]? = some '/' := by
              cases hp : path_to_backslashes_from c false rest with
              | nil => rw [hp] at hr1; simp at hr1
              | cons a t =>
                rw [hp] at hr2
                simp only [List.tail_cons] at hr2
                rw [List.head?_eq_getElem?] at hr2
                simpa using hr2
            have h1r : rest[1]? = some '/' := ptb_head_slash c false rest 1 h1p
            cases rest with
            | nil => simp at h0
            | cons a t =>
              simp only [List.getElem?_cons_zero, Option.some.injEq] at h0
              simp only [List.getElem?_cons_succ] at h1r
              simp [hc, h0, List.head?_eq_getElem?, h1r]
          rw [if_neg hnot]
          simp only [Bool.false_eq_true, if_false, if_neg hs]
          rw [ih c false]

/-- C27: `path_to_backslashes` is idempotent and keeps the length: for every
string, applying it twice gives what applying it once gives, and the result
is as long as the string. -/
theorem path_to_backslashes_idempotent (s : List Char) :
    path_to_backslashes (path_to_backslashes s) = path_to_backslashes s ∧
    (path_to_backslashes s).length = s.length :=
  ⟨ptb_from_idem s ' ' false, ptb_length ' ' false s⟩

/-! ## C25: the two approval flags -/

/-- The invariant behind C25: while the scheduler waits for the poll reply both
flags are clear, and `approval_in_progress` is set exactly while the UI thread
is inside `process_approval`, where `has_pending_approval` is clear. -/
theorem approval_flags_step (s : Sys) (a : Act)
    (h1 : ∀ sid, s.sched = SchedPc.polling sid →
      s.st.has_pending_approval = false ∧ s.st.approval_in_progress = false)
    (h2 : s.ui ≠ UiPc.idle →
      s.st.approval_in_progress = true ∧ s.st.has_pending_approval = false)
    (h3 : s.ui = UiPc.idle → s.st.approval_in_progress = false) :
    (∀ sid, (sys_step s a).1.sched = SchedPc.polling sid →
      (sys_step s a).1.st.has_pending_approval = false ∧
        (sys_step s a).1.st.approval_in_progress = false) ∧
    ((sys_step s a).1.ui ≠ UiPc.idle →
      (sys_step s a).1.st.approval_in_progress = true ∧
        (sys_step s a).1.st.has_pending_approval = false) ∧
    ((sys_step s a).1.ui = UiPc.idle → (sys_step s a).1.st.approval_in_progress = false) := by
  obtain ⟨st, sched, ui⟩ := s
  simp only at h1 h2 h3
  cases a with
  | sched reply =>
    cases sched with
    | idle =>
      cases hc : poll_approval_check st with
      | none =>
        have hstep : (sys_step { st := st, sched := SchedPc.idle, ui := ui }
            (Act.sched reply)).1 = { st := st, sched := SchedPc.idle, ui := ui } := by
          simp only [sys_step, hc]
        rw [hstep]
        exact ⟨h1, h2, h3⟩
      | some sid =>
        have hstep : (sys_step { st := st, sched := SchedPc.idle, ui := ui }
            (Act.sched reply)).1 = { st := st, sched := SchedPc.polling sid, ui := ui } := by
          simp only [sys_step, hc]
        rw [hstep]
        have hflags : st.has_pending_approval = false ∧ st.approval_in_progress = false := by
          unfold poll_approval_check at hc
          by_cases hb : (st.has_pending_approval || st.approval_in_progress) = true
          · simp [hb] at hc
          · simpa using hb
        exact ⟨fun _ _ => hflags, h2, h3⟩
    | polling sid =>
      obtain ⟨hp, hi⟩ := h1 sid rfl
      have hidle : ui = UiPc.idle := by
        by_contra hne
        rw [(h2 hne).1] at hi
        exact absurd hi (by decide)
      subst hidle
      have hstep : (sys_step { st := st, sched := SchedPc.polling sid, ui := UiPc.idle }
          (Act.sched reply)).1 =
          { st := (poll_approval_latch st reply).1, sched := SchedPc.idle, ui := UiPc.idle } := by
        simp only [sys_step]
      rw [hstep]
      refine ⟨fun _ h => (by cases h), fun h => absurd rfl h, fun _ => ?_⟩
      show (poll_approval_latch st reply).1.approval_in_progress = false
      unfold poll_approval_latch
      cases reply with
      | none => exact hi
      | some r =>
        simp only
        split_ifs
        · exact hi
        · exact hi
  | ui key =>
    cases ui with
    | idle =>
      cases hb : process_approval_begin st with
      | none =>
        have hstep : (sys_step { st := st, sched := sched, ui := UiPc.idle } (Act.ui key)).1 =
            { st := st, sched := sched, ui := UiPc.idle } := by
          simp only [sys_step, hb]
        rw [hstep]
        exact ⟨h1, h2, h3⟩
      | some p =>
        obtain ⟨st1, loc⟩ := p
        have hstep : (sys_step { st := st, sched := sched, ui := UiPc.idle } (Act.ui key)).1 =
            { st := st1, sched := sched, ui := UiPc.deciding loc } := by
          simp only [sys_step, hb]
        rw [hstep]
        unfold process_approval_begin at hb
        by_cases hp : st.has_pending_approval = true
        · simp only [hp, Bool.not_true, Bool.false_eq_true, if_false, Option.some.injEq,
            Prod.mk.injEq] at hb
          obtain ⟨hst1, _⟩ := hb
          subst hst1
          refine ⟨fun sid hs => ?_, fun _ => ⟨rfl, rfl⟩, fun h => by cases h⟩
          rw [(h1 sid hs).1] at hp
          exact absurd hp (by decide)
        · simp [hp] at hb
    | deciding loc =>
      have hstep : (sys_step { st := st, sched := sched, ui := UiPc.deciding loc }
          (Act.ui key)).1 =
          { st := st, sched := sched,
            ui := UiPc.responding loc (process_approval_decide st.skip_permissions loc key).1 } := by
        simp only [sys_step]
      rw [hstep]
      have h2p := h2 (by simp)
      exact ⟨h1, fun _ => h2p, fun h => by cases h⟩
    | responding loc approved =>
      have hstep : (sys_step { st := st, sched := sched, ui := UiPc.responding loc approved }
          (Act.ui key)).1 = { st := st, sched := sched, ui := UiPc.finishing } := by
        simp only [sys_step]
      rw [hstep]
      have h2p := h2 (by simp)
      exact ⟨h1, fun _ => h2p, fun h => by cases h⟩
    | finishing =>
      have hstep : (sys_step { st := st, sched := sched, ui := UiPc.finishing }
          (Act.ui key)).1 =
          { st := process_approval_end st, sched := sched, ui := UiPc.idle } := by
        simp only [sys_step]
      rw [hstep]
      have h2p := h2 (by simp)
      refine ⟨fun sid hs => ?_, fun h => absurd rfl h, fun _ => rfl⟩
      have := (h1 sid hs).2
      rw [h2p.1] at this
      exact absurd this (by decide)

/-- The invariant holds along every interleaving. -/
theorem approval_flags_run (acts : List Act) (s : Sys)
    (h1 : ∀ sid, s.sched = SchedPc.polling sid →
      s.st.has_pending_approval = false ∧ s.st.approval_in_progress = false)
    (h2 : s.ui ≠ UiPc.idle →
      s.st.approval_in_progress = true ∧ s.st.has_pending_approval = false)
    (h3 : s.ui = UiPc.idle → s.st.approval_in_progress = false) :
    ¬ ((sys_run s acts).1.st.has_pending_approval = true ∧
      (sys_run s acts).1.st.approval_in_progress = true) := by
  induction acts generalizing s with
  | nil =>
    simp only [sys_run]
    rintro ⟨hp, hi⟩
    by_cases hu : s.ui = UiPc.idle
    · rw [h3 hu] at hi
      exact absurd hi (by decide)
    · rw [(h2 hu).2] at hp
      exact absurd hp (by decide)
  | cons a rest ih =>
    simp only [sys_run]
    obtain ⟨g1, g2, g3⟩ := approval_flags_step s a h1 h2 h3
    exact ih (sys_step s a).1 g1 g2 g3

/-- C25: from a state with `approval_in_progress` clear (so from one with both
flags clear) and both threads outside the approval code, every interleaving of the atomic steps of `poll_approval`
(check, latch) on the scheduler thread and of `process_approval` (begin,
decision, answer, end) on the UI thread, with any poll replies and keys,
ends in a state where `has_pending_approval` and `approval_in_progress` are
not both set. -/
theorem approval_flags_exclusive (st : ClientState) (acts : List Act)
    (hi : st.approval_in_progress = false) :
    ¬ ((sys_run (sys_init st) acts).1.st.has_pending_approval = true ∧
      (sys_run (sys_init st) acts).1.st.approval_in_progress = true) := by
  apply approval_flags_run acts (sys_init st)
  · intro sid hs
    simp [sys_init] at hs
  · intro h
    simp [sys_init] at h
  · intro _
    exact hi

/-- C25 on a run that latches an approval, starts the prompt and polls again
while the prompt is open: the flags go (set, clear) and then (clear, set). -/
theorem approval_flags_exclusive_witness :
    sample_client.approval_in_progress = false ∧
    ((sys_run (sys_init sample_client)
        [Act.sched none, Act.sched (some (sample_reply (some "a1".toList)))]).1.st.has_pending_approval,
      (sys_run (sys_init sample_client)
        [Act.sched none, Act.sched (some (sample_reply (some "a1".toList)))]).1.st.approval_in_progress) =
      (true, false) ∧
    ((sys_run (sys_init sample_client)
        [Act.sched none, Act.sched (some (sample_reply (some "a1".toList))), Act.ui 'y',
         Act.sched none]).1.st.has_pending_approval,
      (sys_run (sys_init sample_client)
        [Act.sched none, Act.sched (some (sample_reply (some "a1".toList))), Act.ui 'y',
         Act.sched none]).1.st.approval_in_progress) = (false, true) ∧
    ¬ ((sys_run (sys_init sample_client)
        [Act.sched none, Act.sched (some (sample_reply (some "a1".toList))), Act.ui 'y',
         Act.sched none]).1.st.has_pending_approval = true ∧
      (sys_run (sys_init sample_client)
        [Act.sched none, Act.sched (some (sample_reply (some "a1".toList))), Act.ui 'y',
         Act.sched none]).1.st.approval_in_progress = true) :=
  ⟨by decide, by decide, by decide,
    approval_flags_exclusive sample_client
      [Act.sched none, Act.sched (some (sample_reply (some "a1".toList))), Act.ui 'y',
       Act.sched none] (by decide)⟩

/-! ## C24: the order of calls in one scheduler round -/

/-- A draining loop whose handler returns 1 `n` times and then 0 makes `n + 1`
calls. -/
theorem drain_spec (call : SchedCall) (n : Nat) (rest : List Bool) :
    drain call (List.replicate n true ++ false :: rest) =
      some (List.replicate (n + 1) call) := by
  induction n with
  | zero => rfl
  | succ k ih =>
    show (drain call (List.replicate k true ++ false :: rest)).map (fun calls => call :: calls) =
      some (List.replicate (k + 1 + 1) call)
    rw [ih]
    rfl

/-- In a list made of a block of `a`, a block of `b` and two last calls `c`,
`d`, an element that satisfies `later` comes after every element that
satisfies `earlier`, when the blocks are sorted that way. -/
theorem calls_ordered_blocks (earlier later : SchedCall → Bool) (xs ys : List SchedCall)
    (hx : ∀ a ∈ xs, later a = false) (hy : ∀ b ∈ ys, earlier b = false) :
    calls_ordered earlier later (xs ++ ys) := by
  intro i j a b hi hj hla heb
  by_cases hix : i < xs.length
  · rw [List.getElem?_append_left hix] at hi
    have := hx a (List.getElem?_mem hi)
    rw [this] at hla
    exact absurd hla (by decide)
  · by_contra hji
    have hjx : xs.length ≤ j := by omega
    rw [List.getElem?_append_right hjx] at hj
    have := hy b (List.getElem?_mem hj)
    rw [this] at heb
    exact absurd heb (by decide)

/-- C24: in a scheduler round with a non-empty session id, where
`handle_fileop` returns 1 `n` times and then 0 and `handle_command` returns 1
`m` times and then 0, the calls of `poll_thread_func` are `n + 1` times
`handle_fileop`, `m + 1` times `handle_command`, `poll_approval`, then the
output fetch, and those of `poll_sync` the same with `handle_approval` as the
approval step.  In both, every `/fs/poll` comes before every `/cmd/poll` and
every `/cmd/poll` before the `/approval/poll`. -/
theorem scheduler_round_order (session_id : List Char) (n m : Nat)
    (fs_rest cmd_rest : List Bool) (hsid : session_id ≠ []) :
    poll_thread_func session_id (List.replicate n true ++ false :: fs_rest)
        (List.replicate m true ++ false :: cmd_rest) =
      some (List.replicate (n + 1) SchedCall.handle_fileop ++
        List.replicate (m + 1) SchedCall.handle_command ++
        [SchedCall.poll_approval, SchedCall.get_output]) ∧
    poll_sync session_id (List.replicate n true ++ false :: fs_rest)
        (List.replicate m true ++ false :: cmd_rest) =
      some (List.replicate (n + 1) SchedCall.handle_fileop ++
        List.replicate (m + 1) SchedCall.handle_command ++
        [SchedCall.handle_approval, SchedCall.get_output]) ∧
    (∀ calls,
      poll_thread_func session_id (List.replicate n true ++ false :: fs_rest)
          (List.replicate m true ++ false :: cmd_rest) = some calls ∨
      poll_sync session_id (List.replicate n true ++ false :: fs_rest)
          (List.replicate m true ++ false :: cmd_rest) = some calls →
      calls_ordered (fun c => c.poll_path == "/fs/poll".toList)
          (fun c => c.poll_path == "/cmd/poll".toList) calls ∧
        calls_ordered (fun c => c.poll_path == "/cmd/poll".toList)
          (fun c => c.poll_path == "/approval/poll".toList) calls ∧
        calls_ordered (fun c => c.poll_path == "/approval/poll".toList)
          (fun c => c.poll_path == "/output".toList) calls) := by
  have ht : poll_thread_func session_id (List.replicate n true ++ false :: fs_rest)
        (List.replicate m true ++ false :: cmd_rest) =
      some (List.replicate (n + 1) SchedCall.handle_fileop ++
        List.replicate (m + 1) SchedCall.handle_command ++
        [SchedCall.poll_approval, SchedCall.get_output]) := by
    simp only [poll_thread_func, if_neg hsid, drain_spec]
  have hs : poll_sync session_id (List.replicate n true ++ false :: fs_rest)
        (List.replicate m true ++ false :: cmd_rest) =
      some (List.replicate (n + 1) SchedCall.handle_fileop ++
        List.replicate (m + 1) SchedCall.handle_command ++
        [SchedCall.handle_approval, SchedCall.get_output]) := by
    simp only [poll_sync, if_neg hsid, drain_spec]
  refine ⟨ht, hs, ?_⟩
  have key : ∀ (appr : SchedCall), appr.poll_path = "/approval/poll".toList →
      calls_ordered (fun c => c.poll_path == "/fs/poll".toList)
          (fun c => c.poll_path == "/cmd/poll".toList)
          (List.replicate (n + 1) SchedCall.handle_fileop ++
            List.replicate (m + 1) SchedCall.handle_command ++ [appr, SchedCall.get_output]) ∧
        calls_ordered (fun c => c.poll_path == "/cmd/poll".toList)
          (fun c => c.poll_path == "/approval/poll".toList)
          (List.replicate (n + 1) SchedCall.handle_fileop ++
            List.replicate (m + 1) SchedCall.handle_command ++ [appr, SchedCall.get_output]) ∧
        calls_ordered (fun c => c.poll_path == "/approval/poll".toList)
          (fun c => c.poll_path == "/output".toList)
          (List.replicate (n + 1) SchedCall.handle_fileop ++
            List.replicate (m + 1) SchedCall.handle_command ++ [appr, SchedCall.get_output]) := by
    intro appr happr
    have hfs : "/approval/poll".toList ≠ "/fs/poll".toList := by decide
    have hcmd : "/approval/poll".toList ≠ "/cmd/poll".toList := by decide
    have hout : "/approval/poll".toList ≠ "/output".toList := by decide
    refine ⟨?_, ?_, ?_⟩
    · rw [List.append_assoc]
      apply calls_ordered_blocks
      · intro a ha
        rw [List.eq_of_mem_replicate ha]
        decide
      · intro b hb
        rcases List.mem_append.mp hb with hb | hb
        · rw [List.eq_of_mem_replicate hb]
          decide
        · simp only [List.mem_cons, List.mem_singleton, List.not_mem_nil, or_false] at hb
          rcases hb with rfl | rfl
          · simp [happr]
          · decide
    · apply calls_ordered_blocks
      · intro a ha
        rcases List.mem_append.mp ha with ha | ha
        · rw [List.eq_of_mem_replicate ha]
          decide
        · rw [List.eq_of_mem_replicate ha]
          decide
      · intro b hb
        simp only [List.mem_cons, List.mem_singleton, List.not_mem_nil, or_false] at hb
        rcases hb with rfl | rfl
        · simp [happr]
        · decide
    · have hsplit : List.replicate (n + 1) SchedCall.handle_fileop ++
          List.replicate (m + 1) SchedCall.handle_command ++ [appr, SchedCall.get_output] =
          (List.replicate (n + 1) SchedCall.handle_fileop ++
            List.replicate (m + 1) SchedCall.handle_command ++ [appr]) ++
            [SchedCall.get_output] := by simp
      rw [hsplit]
      apply calls_ordered_blocks
      · intro a ha
        rcases List.mem_append.mp ha with ha | ha
        · rcases List.mem_append.mp ha with ha | ha
          · rw [List.eq_of_mem_replicate ha]
            decide
          · rw [List.eq_of_mem_replicate ha]
            decide
        · simp only [List.mem_singleton] at ha
          subst ha
          simp [happr]
      · intro b hb
        simp only [List.mem_singleton] at hb
        subst hb
        decide
  intro calls hcalls
  rcases hcalls with h | h
  · rw [ht] at h
    simp only [Option.some.injEq] at h
    subst h
    exact key SchedCall.poll_approval rfl
  · rw [hs] at h
    simp only [Option.some.injEq] at h
    subst h
    exact key SchedCall.handle_approval rfl

/-- C24 on a round with two pending file operations and one pending command. -/
theorem scheduler_round_order_witness :
    "s1".toList ≠ [] ∧
    poll_thread_func "s1".toList [true, true, false] [true, false] =
      some [SchedCall.handle_fileop, SchedCall.handle_fileop, SchedCall.handle_fileop,
        SchedCall.handle_command, SchedCall.handle_command, SchedCall.poll_approval,
        SchedCall.get_output] ∧
    poll_sync "s1".toList [true, true, false] [true, false] =
      some [SchedCall.handle_fileop, SchedCall.handle_fileop, SchedCall.handle_fileop,
        SchedCall.handle_command, SchedCall.handle_command, SchedCall.handle_approval,
        SchedCall.get_output] :=
  ⟨by decide,
    (scheduler_round_order "s1".toList 2 1 [] [] (by decide)).1,
    (scheduler_round_order "s1".toList 2 1 [] [] (by decide)).2.1⟩

/-! ## C23: the heartbeat interval -/

/-- C23 (as amended): `session_heartbeat` treats `last_heartbeat = 0` as "no
heartbeat sent yet".  With a non-empty `session_id` and a non-zero
`last_heartbeat` it POSTs `/heartbeat` exactly when the difference
`now - last_heartbeat`, taken modulo 2^32, is at least 30000; with
`last_heartbeat = 0` it POSTs at every call; with an empty `session_id` it
never POSTs.  The timestamp moves to `now` exactly when the POST succeeds. -/
theorem session_heartbeat_interval (st : ClientState) (now : Nat) (post_ret : HttpResult)
    (hnow : now < 2 ^ 32) (hlast : st.last_heartbeat < 2 ^ 32) :
    (st.session_id ≠ [] → st.last_heartbeat ≠ 0 →
      ((session_heartbeat st now post_ret).2 =
          [Event.http_post "/heartbeat".toList (heartbeat_body st.session_id)] ↔
        HEARTBEAT_INTERVAL_MS ≤ (now + 2 ^ 32 - st.last_heartbeat) % 2 ^ 32) ∧
      ((session_heartbeat st now post_ret).2 = [] ↔
        (now + 2 ^ 32 - st.last_heartbeat) % 2 ^ 32 < HEARTBEAT_INTERVAL_MS)) ∧
    (st.session_id ≠ [] → st.last_heartbeat = 0 →
      (session_heartbeat st now post_ret).2 =
        [Event.http_post "/heartbeat".toList (heartbeat_body st.session_id)]) ∧
    (st.session_id = [] → session_heartbeat st now post_ret = (st, [])) ∧
    ((session_heartbeat st now post_ret).2 ≠ [] → post_ret = HttpResult.HTTP_OK →
      (session_heartbeat st now post_ret).1.last_heartbeat = now) ∧
    ((session_heartbeat st now post_ret).2 = [] ∨ post_ret ≠ HttpResult.HTTP_OK →
      (session_heartbeat st now post_ret).1 = st) := by
  have hmod : now % 2 ^ 32 = now := Nat.mod_eq_of_lt hnow
  have hsub : dword_sub now st.last_heartbeat = (now + 2 ^ 32 - st.last_heartbeat) % 2 ^ 32 := by
    simp only [dword_sub, hmod, Nat.mod_eq_of_lt hlast]
  refine ⟨?_, ?_, ?_, ?_, ?_⟩
  · intro hsid h0
    simp only [session_heartbeat, if_neg hsid, hmod, hsub]
    by_cases hlt : (now + 2 ^ 32 - st.last_heartbeat) % 2 ^ 32 < HEARTBEAT_INTERVAL_MS
    · rw [if_pos ⟨h0, hlt⟩]
      simp only [hlt, iff_true]
      constructor
      · constructor
        · intro h
          cases h
        · intro h
          omega
      · trivial
    · rw [if_neg (fun h => hlt h.2)]
      simp only [hlt, iff_false]
      constructor
      · constructor
        · intro _
          omega
        · intro _
          trivial
      · intro h
        cases h
  · intro hsid h0
    simp only [session_heartbeat, if_neg hsid]
    rw [if_neg (fun h => h.1 h0)]
  · intro hsid
    simp only [session_heartbeat, if_pos hsid]
  · intro hpost hok
    by_cases hsid : st.session_id = []
    · simp only [session_heartbeat, if_pos hsid] at hpost
      exact absurd rfl hpost
    · simp only [session_heartbeat, if_neg hsid, hmod] at hpost ⊢
      split_ifs at hpost ⊢ with hq
      · exact absurd rfl hpost
      · rfl
  · intro h
    by_cases hsid : st.session_id = []
    · simp only [session_heartbeat, if_pos hsid]
    · simp only [session_heartbeat, if_neg hsid, hmod] at h ⊢
      split_ifs at h ⊢ with hq hok
      · rfl
      · rcases h with h | h
        · cases h
        · exact absurd hok h
      · rfl

/-- C23 with session "s1" and `last_heartbeat` = 1000: no POST at tick 30999, a
POST at tick 31000, and a POST at tick 904 after the counter has wrapped
from 4294938200 (30000 ms later modulo 2^32). -/
theorem session_heartbeat_interval_witness :
    (31000 : Nat) < 2 ^ 32 ∧
    (session_heartbeat { sample_client with last_heartbeat := 1000 } 30999
      HttpResult.HTTP_OK).2 = [] ∧
    (session_heartbeat { sample_client with last_heartbeat := 1000 } 31000
      HttpResult.HTTP_OK).2 =
      [Event.http_post "/heartbeat".toList "\x7b\"session_id\":\"s1\"\x7d".toList] ∧
    (session_heartbeat { sample_client with last_heartbeat := 4294938200 } 904
      HttpResult.HTTP_OK).2 =
      [Event.http_post "/heartbeat".toList "\x7b\"session_id\":\"s1\"\x7d".toList] ∧
    ((session_heartbeat { sample_client with last_heartbeat := 1000 } 31000
        HttpResult.HTTP_OK).2 =
        [Event.http_post "/heartbeat".toList
          (heartbeat_body ({ sample_client with last_heartbeat := 1000 } : ClientState).session_id)] ↔
      HEARTBEAT_INTERVAL_MS ≤
        (31000 + 2 ^ 32 -
          ({ sample_client with last_heartbeat := 1000 } : ClientState).last_heartbeat) % 2 ^ 32) :=
  ⟨by decide, by decide, by decide, by decide,
    ((session_heartbeat_interval { sample_client with last_heartbeat := 1000 } 31000
      HttpResult.HTTP_OK (by decide) (by decide)).1 (by decide) (by decide)).1⟩

/-- C23 as stated fails for `last_heartbeat` = 0: at tick 5 only 5 ms have
elapsed since `last_heartbeat`, far less than 30000, and `session_heartbeat`
POSTs `/heartbeat`. -/
theorem session_heartbeat_zero_stamp_posts :
    (5 + 2 ^ 32 - ({ sample_client with last_heartbeat := 0 } : ClientState).last_heartbeat) %
        2 ^ 32 < HEARTBEAT_INTERVAL_MS ∧
    (session_heartbeat { sample_client with last_heartbeat := 0 } 5 HttpResult.HTTP_OK).2 =
      [Event.http_post "/heartbeat".toList "\x7b\"session_id\":\"s1\"\x7d".toList] := by
  refine ⟨by decide, by decide⟩

/-! ## C26: a lookup returns only what was stored under the id -/

/-- A hit of the search names a slot with a non-empty id equal to the one
looked for. -/
theorem cache_lookup_from_some {l : List CacheEntry} {id r : List Char}
    (h : cache_lookup_from l id = some r) :
    ∃ e ∈ l, e.id ≠ [] ∧ e.id = id ∧ e.result = some r := by
  induction l with
  | nil => simp [cache_lookup_from] at h
  | cons x rest ih =>
    unfold cache_lookup_from at h
    by_cases hx : x.id ≠ [] ∧ x.id = id
    · rw [if_pos hx] at h
      exact ⟨x, List.mem_cons_self _ _, hx.1, hx.2, h⟩
    · rw [if_neg hx] at h
      obtain ⟨e, he, hrest⟩ := ih h
      exact ⟨e, List.mem_cons_of_mem _ he, hrest⟩

/-- Every slot after a run of `cache_store` calls is an old slot or the slot
one of the calls wrote. -/
theorem cache_store_all_entries (c : List CacheEntry × Nat)
    (stores : List (List Char × List Char)) :
    ∀ e ∈ (cache_store_all c stores).1,
      e ∈ c.1 ∨ ∃ s ∈ stores, e = { id := strncpy s.1 63, result := some s.2 } := by
  induction stores generalizing c with
  | nil => intro e he; exact Or.inl he
  | cons x rest ih =>
    obtain ⟨id, r⟩ := x
    intro e he
    simp only [cache_store_all] at he
    rcases ih _ e he with h | ⟨s, hs, hse⟩
    · rcases List.mem_or_eq_of_mem_set h with h1 | h1
      · exact Or.inl h1
      · exact Or.inr ⟨(id, r), List.mem_cons_self _ _, h1⟩
    · exact Or.inr ⟨s, List.mem_cons_of_mem _ hs, hse⟩

/-- C26 (as amended): after any sequence of `cache_store` calls from program
start, a result that `cache_lookup` returns for an id was stored by a call
whose id, cut to the 63 bytes of the `id` field, is that id; when every id
stored has at most 63 bytes, it was stored by a call with exactly that id. -/
theorem cache_lookup_only_stored (stores : List (List Char × List Char)) (id r : List Char)
    (hlook : cache_lookup (cache_store_all (cache_init, 0) stores).1 id = some r) :
    (∃ s ∈ stores, strncpy s.1 63 = id ∧ s.2 = r) ∧
    ((∀ s ∈ stores, s.1.length ≤ 63) → (id, r) ∈ stores) := by
  have hex : ∃ s ∈ stores, strncpy s.1 63 = id ∧ s.2 = r := by
    unfold cache_lookup at hlook
    obtain ⟨e, he, hne, hid, hres⟩ := cache_lookup_from_some hlook
    rcases cache_store_all_entries (cache_init, 0) stores e (List.mem_of_mem_take he) with
      h | ⟨s, hs, hse⟩
    · simp only [cache_init, List.mem_replicate] at h
      rw [h.2] at hne
      exact absurd rfl hne
    · subst hse
      simp only [Option.some.injEq] at hres
      exact ⟨s, hs, hid, hres⟩
  refine ⟨hex, fun hlen => ?_⟩
  obtain ⟨s, hs, hid, hres⟩ := hex
  have : strncpy s.1 63 = s.1 := List.take_of_length_le (hlen s hs)
  rw [this] at hid
  obtain ⟨a, b⟩ := s
  simp only at hid hres
  subst hid
  subst hres
  exact hs

/-- C26 after two stores: the lookup of "b" returns what was stored under "b". -/
theorem cache_lookup_only_stored_witness :
    cache_lookup (cache_store_all (cache_init, 0)
      [("a".toList, "ra".toList), ("b".toList, "rb".toList)]).1 "b".toList =
        some "rb".toList ∧
    ("b".toList, "rb".toList) ∈ [("a".toList, "ra".toList), ("b".toList, "rb".toList)] :=
  ⟨by decide,
    (cache_lookup_only_stored [("a".toList, "ra".toList), ("b".toList, "rb".toList)]
      "b".toList "rb".toList (by decide)).2 (by decide)⟩

/-- C26 as stated fails for an id of 64 bytes: after the single call
`cache_store` with the id "A" repeated 64 times, the lookup of "A" repeated 63
times, a different id under which nothing was stored, returns that result. -/
theorem cache_lookup_returns_other_id :
    List.replicate 63 'A' ≠ List.replicate 64 'A' ∧
    cache_lookup (cache_store_all (cache_init, 0)
      [(List.replicate 64 'A', "r".toList)]).1 (List.replicate 63 'A') = some "r".toList ∧
    cache_lookup (cache_store_all (cache_init, 0)
      [(List.replicate 64 'A', "r".toList)]).1 (List.replicate 64 'A') = none := by
  refine ⟨by decide, by decide, by decide⟩

/-! ## The command handler and its backends -/

/-- A text without a forward slash passes the conversion unchanged. -/
theorem ptb_id_of_no_slash (prev : Char) (u : Bool) (s : List Char) (h : '/' ∉ s) :
    path_to_backslashes_from prev u s = s := by
  apply List.ext_getElem?
  intro i
  cases hi : s[i]? with
  | none =>
    have hlen := ptb_length prev u s
    have : s.length ≤ i := by
      by_contra hlt
      rw [List.getElem?_eq_getElem (by omega)] at hi
      exact absurd hi (by simp)
    exact List.getElem?_eq_none (by omega)
  | some c =>
    apply ptb_other prev u s i c hi
    intro hc
    subst hc
    exact h (List.getElem?_mem hi)

/-- The copy in `cmd_copy[1024]` holds at most 1023 bytes. -/
theorem command_copy_length (command : List Char) :
    (command_copy command).length = min 1023 command.length := by
  simp only [command_copy, path_to_backslashes, ptb_length, strncpy, List.length_take]

/-- A command of at most 1023 bytes is copied whole. -/
theorem command_copy_whole (command : List Char) (h : command.length ≤ 1023) :
    command_copy command = path_to_backslashes command := by
  simp only [command_copy, strncpy]
  rw [List.take_of_length_le (by omega)]

/-- On an NT host a command of more than 1007 bytes is refused. -/
theorem execute_command_refused (sh : ShellHost) (command : List Char)
    (hmajor : 5 ≤ sh.major) (hlong : 1007 < command.length) :
    execute_command sh (command_copy command) =
      { exit_code := -1, output := "Command too long".toList, cmdlines := [] } := by
  have hlen := command_copy_length command
  have hnt : ("cmd.exe /c ".length + 1) - 1 + (" 2>&1".length + 1) = 17 := by decide
  have hyes : (command_copy command).length > 1024 - 17 := by
    rw [hlen]
    omega
  have hmsg : strncpy "Command too long".toList (MAX_CMD_OUTPUT - 1) =
      "Command too long".toList := by decide
  simp only [execute_command, if_pos (show sh.major ≥ 5 from hmajor), execute_command_nt, hnt,
    if_pos hyes, hmsg]

/-- On an NT host a command of at most 1007 bytes is handed over whole. -/
theorem execute_command_nt_whole (sh : ShellHost) (command : List Char)
    (hmajor : 5 ≤ sh.major) (hshort : command.length ≤ 1007) :
    (execute_command sh (command_copy command)).cmdlines =
      ["cmd.exe /c ".toList ++ path_to_backslashes command ++ " 2>&1".toList] := by
  have hcopy := command_copy_whole command (by omega)
  have hlen : (path_to_backslashes command).length = command.length := ptb_length _ _ _
  have hnt : ("cmd.exe /c ".length + 1) - 1 + (" 2>&1".length + 1) = 17 := by decide
  have hnot : ¬ ((path_to_backslashes command).length > 1024 - 17) := by
    rw [hlen]
    omega
  have h1 : "cmd.exe /c ".toList.length = 11 := by decide
  have h2 : " 2>&1".toList.length = 5 := by decide
  have htake : ("cmd.exe /c ".toList ++ path_to_backslashes command ++ " 2>&1".toList).take
      (1024 - 1) = "cmd.exe /c ".toList ++ path_to_backslashes command ++ " 2>&1".toList := by
    apply List.take_of_length_le
    simp only [List.length_append, h1, h2, hlen]
    omega
  simp only [execute_command, if_pos (show sh.major ≥ 5 from hmajor), execute_command_nt, hnt,
    hcopy, if_neg hnot, htake]
  cases sh.popen ("cmd.exe /c ".toList ++ path_to_backslashes command ++ " 2>&1".toList) with
  | none => rfl
  | some r => rfl

/-- On a 9x host the copy always passes the length check of the backend and
is handed to `system`. -/
theorem execute_command_9x_copy (sh : ShellHost) (command : List Char)
    (hmajor : sh.major < 5) :
    (execute_command sh (command_copy command)).cmdlines =
      ["command.com /c ".toList ++ command_copy command ++ " > ".toList ++
        temp_file_path sh.getenv] := by
  have hlen := command_copy_length command
  have ht := temp_file_path_length sh.getenv
  have hnot : ¬ ((command_copy command).length >
      2048 - 15 - 3 - (temp_file_path sh.getenv).length - 1) := by
    rw [hlen]
    omega
  have h1 : "command.com /c ".toList.length = 15 := by decide
  have h2 : " > ".toList.length = 3 := by decide
  have htake : ("command.com /c ".toList ++ command_copy command ++ " > ".toList ++
      temp_file_path sh.getenv).take (2048 - 1) =
      "command.com /c ".toList ++ command_copy command ++ " > ".toList ++
        temp_file_path sh.getenv := by
    apply List.take_of_length_le
    simp only [List.length_append, h1, h2, hlen]
    omega
  have hver : ¬ (sh.major ≥ 5) := by omega
  simp only [execute_command, if_neg hver, execute_command_9x, if_neg hnot, htake]
  cases (sh.system ("command.com /c ".toList ++ command_copy command ++ " > ".toList ++
      temp_file_path sh.getenv)).2 with
  | none => rfl
  | some r => rfl

/-- What `handle_command` does with a pending, well-formed request that
misses the cache: it runs the copy of the command through the selected
backend, builds the four-field result and POSTs its printed form. -/
theorem handle_command_fresh (sh : ShellHost)
    (print : List (List Char × JsonValue) → Option (List Char)) (w : CmdWorld) (r : CmdPoll)
    (post_ret : HttpResult) (cmd_id command : List Char)
    (hpend : r.has_pending = true) (hid : r.cmd_id = some cmd_id)
    (hcmd : r.command = some command) (hmiss : cache_lookup w.cmd_cache cmd_id = none) :
    (handle_command sh print w (some r) post_ret).cmdlines =
      (execute_command sh (command_copy command)).cmdlines ∧
    (handle_command sh print w (some r) post_ret).result =
      some [("command_id".toList, JsonValue.str cmd_id),
        ("stdout".toList, JsonValue.str (execute_command sh (command_copy command)).output),
        ("stderr".toList, JsonValue.str []),
        ("exit_code".toList,
          JsonValue.num (execute_command sh (command_copy command)).exit_code)] ∧
    (handle_command sh print w (some r) post_ret).did_work = true ∧
    (∀ body,
      print [("command_id".toList, JsonValue.str cmd_id),
        ("stdout".toList, JsonValue.str (execute_command sh (command_copy command)).output),
        ("stderr".toList, JsonValue.str []),
        ("exit_code".toList,
          JsonValue.num (execute_command sh (command_copy command)).exit_code)] = some body →
      (handle_command sh print w (some r) post_ret).events =
        (change_directory sh r.working_directory).1 ++
          Event.http_post "/cmd/result".toList body :: cmd_post_log post_ret) := by
  simp only [handle_command, hpend, hid, hcmd, hmiss, Bool.not_true, Bool.false_eq_true, if_false]
  cases hp : print [("command_id".toList, JsonValue.str cmd_id),
        ("stdout".toList, JsonValue.str (execute_command sh (command_copy command)).output),
        ("stderr".toList, JsonValue.str []),
        ("exit_code".toList,
          JsonValue.num (execute_command sh (command_copy command)).exit_code)] with
  | none => simp
  | some s => simp

/-! ## C21, C22: a rejected path -/

/-- A pending, well-formed request that misses the cache and whose path
`build_full_path` rejects: the handler logs one line and returns 0. -/
theorem handle_fileop_rejected {σ : Type} (h : HostFs σ)
    (print : List ResultItem → Option (List Char)) (w : FsWorld σ) (r : FsPoll)
    (post_ret : HttpResult) (op_id op filepath : List Char)
    (hpend : r.has_pending = true) (hid : r.op_id = some op_id)
    (hop : r.operation = some op) (hpath : r.path = some filepath)
    (hmiss : cache_lookup w.fs_cache op_id = none)
    (hrej : build_full_path filepath MAX_PATH_LEN = none) :
    handle_fileop h print w (some r) post_ret =
      (w, false, [Event.log_error "handle_fileop".toList
        "path too long or traversal rejected".toList]) := by
  simp only [handle_fileop, hpend, hid, hop, hpath, hmiss, hrej, Bool.not_true,
    Bool.false_eq_true, if_false]

/-- C22: for every reply to `/fs/poll` whose path `build_full_path` rejects and
whose `op_id` has no result in the fs cache, `handle_fileop` drops the
request: file system, cache and cache index stay as they were, the return
value is 0, no event is a file-system operation and none is a POST. -/
theorem handle_fileop_drops_rejected {σ : Type} (h : HostFs σ)
    (print : List ResultItem → Option (List Char)) (w : FsWorld σ) (r : FsPoll)
    (post_ret : HttpResult) (filepath : List Char)
    (hpath : r.path = some filepath)
    (hrej : build_full_path filepath MAX_PATH_LEN = none)
    (hmiss : ∀ id, r.op_id = some id → cache_lookup w.fs_cache id = none) :
    (handle_fileop h print w (some r) post_ret).1 = w ∧
    (handle_fileop h print w (some r) post_ret).2.1 = false ∧
    (∀ e ∈ (handle_fileop h print w (some r) post_ret).2.2, e.is_fs = false) ∧
    (∀ path body, Event.http_post path body ∉ (handle_fileop h print w (some r) post_ret).2.2) := by
  cases hp : r.has_pending with
  | false =>
    have hrun : handle_fileop h print w (some r) post_ret = (w, false, []) := by
      simp only [handle_fileop, hp, Bool.not_false, if_true]
    rw [hrun]
    simp
  | true =>
    cases hid : r.op_id with
    | none =>
      have hrun : handle_fileop h print w (some r) post_ret = (w, false,
          [Event.log_error "handle_fileop".toList
            "malformed file operation request".toList]) := by
        simp only [handle_fileop, hp, hid, Bool.not_true, Bool.false_eq_true, if_false]
      rw [hrun]
      simp [Event.is_fs]
    | some id =>
      cases hop : r.operation with
      | none =>
        have hrun : handle_fileop h print w (some r) post_ret = (w, false,
            [Event.log_error "handle_fileop".toList
              "malformed file operation request".toList]) := by
          simp only [handle_fileop, hp, hid, hop, Bool.not_true, Bool.false_eq_true, if_false]
        rw [hrun]
        simp [Event.is_fs]
      | some op =>
        rw [handle_fileop_rejected h print w r post_ret id op filepath hp hid hop hpath
          (hmiss id hid) hrej]
        simp [Event.is_fs]

/-- C22 on the request "read .." at program start over the in-memory host:
nothing but the log line. -/
theorem handle_fileop_drops_rejected_witness :
    build_full_path "..".toList MAX_PATH_LEN = none ∧
    (handle_fileop mem_fs content_print mem_world
      (some (fs_request "A".toList "read".toList "..".toList none)) HttpResult.HTTP_OK).2 =
      (false, [Event.log_error "handle_fileop".toList
        "path too long or traversal rejected".toList]) ∧
    (handle_fileop mem_fs content_print mem_world
      (some (fs_request "A".toList "read".toList "..".toList none))
      HttpResult.HTTP_OK).2.1 = false :=
  ⟨by decide, by decide,
    (handle_fileop_drops_rejected mem_fs content_print mem_world
      (fs_request "A".toList "read".toList "..".toList none) HttpResult.HTTP_OK "..".toList
      rfl (by decide)
      (fun id hid => by
        simp only [fs_request, Option.some.injEq] at hid
        subst hid
        decide)).2.1⟩

/-! ## C21: where path and shell errors end up -/

/-- C21 (as amended): a pending, well-formed fs request that misses the cache
and whose path `build_full_path` rejects gets no result at all: the handler
writes one log line and POSTs nothing.  A pending, well-formed cmd request
that misses the cache and whose command the NT backend refuses as too long
(more than 1007 bytes) runs nothing and gets a result for its `command_id`
with `stdout` "Command too long", an empty `stderr` and `exit_code` -1, which
is what is printed and POSTed to `/cmd/result`; the result has no `error`
field. -/
theorem rejected_request_results {σ : Type} (h : HostFs σ)
    (fs_print : List ResultItem → Option (List Char)) (w : FsWorld σ) (fr : FsPoll)
    (op_id op filepath : List Char) (sh : ShellHost)
    (print : List (List Char × JsonValue) → Option (List Char)) (cw : CmdWorld) (cr : CmdPoll)
    (cmd_id command : List Char) (post_ret : HttpResult)
    (hfpend : fr.has_pending = true) (hfid : fr.op_id = some op_id)
    (hfop : fr.operation = some op) (hfpath : fr.path = some filepath)
    (hfmiss : cache_lookup w.fs_cache op_id = none)
    (hrej : build_full_path filepath MAX_PATH_LEN = none)
    (hcpend : cr.has_pending = true) (hcid : cr.cmd_id = some cmd_id)
    (hccmd : cr.command = some command)
    (hcmiss : cache_lookup cw.cmd_cache cmd_id = none)
    (hmajor : 5 ≤ sh.major) (hlong : 1007 < command.length) :
    (handle_fileop h fs_print w (some fr) post_ret).2.2 =
      [Event.log_error "handle_fileop".toList "path too long or traversal rejected".toList] ∧
    (∀ path body,
      Event.http_post path body ∉ (handle_fileop h fs_print w (some fr) post_ret).2.2) ∧
    (handle_command sh print cw (some cr) post_ret).cmdlines = [] ∧
    (handle_command sh print cw (some cr) post_ret).result =
      some [("command_id".toList, JsonValue.str cmd_id),
        ("stdout".toList, JsonValue.str "Command too long".toList),
        ("stderr".toList, JsonValue.str []),
        ("exit_code".toList, JsonValue.num (-1))] ∧
    (∀ fields, (handle_command sh print cw (some cr) post_ret).result = some fields →
      ∀ kv ∈ fields, kv.1 ≠ "error".toList) ∧
    (∀ body,
      print [("command_id".toList, JsonValue.str cmd_id),
        ("stdout".toList, JsonValue.str "Command too long".toList),
        ("stderr".toList, JsonValue.str []),
        ("exit_code".toList, JsonValue.num (-1))] = some body →
      (handle_command sh print cw (some cr) post_ret).events =
        (change_directory sh cr.working_directory).1 ++
          Event.http_post "/cmd/result".toList body :: cmd_post_log post_ret) := by
  have hfs := handle_fileop_rejected h fs_print w fr post_ret op_id op filepath hfpend hfid hfop
    hfpath hfmiss hrej
  obtain ⟨hlines, hres, _, hev⟩ := handle_command_fresh sh print cw cr post_ret cmd_id command
    hcpend hcid hccmd hcmiss
  have href := execute_command_refused sh command hmajor hlong
  rw [href] at hlines hres hev
  refine ⟨by rw [hfs], ?_, hlines, hres, ?_, hev⟩
  · intro path body hmem
    rw [hfs] at hmem
    simp at hmem
  · intro fields hf kv hkv
    rw [hres] at hf
    simp only [Option.some.injEq] at hf
    subst hf
    simp only [List.mem_cons, List.mem_singleton, List.not_mem_nil, or_false] at hkv
    rcases hkv with rfl | rfl | rfl | rfl
    · exact (by decide : "command_id".toList ≠ "error".toList)
    · exact (by decide : "stdout".toList ≠ "error".toList)
    · exact (by decide : "stderr".toList ≠ "error".toList)
    · exact (by decide : "exit_code".toList ≠ "error".toList)

/-- C21 on the fs request "read .." and on a command of 1008 bytes for an XP
host, both at program start. -/
theorem rejected_request_results_witness :
    build_full_path "..".toList MAX_PATH_LEN = none ∧
    1007 < (List.replicate 1008 'a').length ∧
    (handle_fileop mem_fs content_print mem_world
      (some (fs_request "A".toList "read".toList "..".toList none)) HttpResult.HTTP_OK).2.2 =
      [Event.log_error "handle_fileop".toList "path too long or traversal rejected".toList] ∧
    (handle_command winxp_host cmd_print cmd_world
      (some (cmd_request "c1".toList (List.replicate 1008 'a'))) HttpResult.HTTP_OK).result =
      some [("command_id".toList, JsonValue.str "c1".toList),
        ("stdout".toList, JsonValue.str "Command too long".toList),
        ("stderr".toList, JsonValue.str []),
        ("exit_code".toList, JsonValue.num (-1))] ∧
    (handle_command winxp_host cmd_print cmd_world
      (some (cmd_request "c1".toList (List.replicate 1008 'a'))) HttpResult.HTTP_OK).events =
      [Event.http_post "/cmd/result".toList
        "\x7b\"command_id\":\"c1\",\"stdout\":\"Command too long\",\"stderr\":\"\",\"exit_code\":-1\x7d".toList] := by
  have hlen : 1007 < (List.replicate 1008 'a').length := by
    rw [List.length_replicate]
    decide
  have hthm := rejected_request_results mem_fs content_print mem_world
    (fs_request "A".toList "read".toList "..".toList none) "A".toList "read".toList "..".toList
    winxp_host cmd_print cmd_world (cmd_request "c1".toList (List.replicate 1008 'a'))
    "c1".toList (List.replicate 1008 'a') HttpResult.HTTP_OK rfl rfl rfl rfl (by decide)
    (by decide) rfl rfl rfl (by decide) (by decide) hlen
  refine ⟨by decide, hlen, hthm.1, hthm.2.2.2.1, ?_⟩
  rw [hthm.2.2.2.2.2
    "\x7b\"command_id\":\"c1\",\"stdout\":\"Command too long\",\"stderr\":\"\",\"exit_code\":-1\x7d".toList
    (by decide)]
  decide

/-- C21 as stated fails on the fs side: for the pending request "read .."
with the id "A" the path is rejected and the handler POSTs nothing, so no
result with an `error` field reaches the agent; the same request with the
path "x.txt" does get its error ("File not found") POSTed. -/
theorem rejected_path_posts_nothing :
    build_full_path "..".toList MAX_PATH_LEN = none ∧
    handle_fileop mem_fs content_print mem_world
      (some (fs_request "A".toList "read".toList "..".toList none)) HttpResult.HTTP_OK =
      (mem_world, false,
        [Event.log_error "handle_fileop".toList
          "path too long or traversal rejected".toList]) ∧
    (handle_fileop mem_fs content_print mem_world
      (some (fs_request "A".toList "read".toList "x.txt".toList none)) HttpResult.HTTP_OK).2.2 =
      [Event.fs_read "C:\\x.txt".toList,
       Event.http_post "/fs/result".toList
         "\x7b\"op_id\":\"A\",\"error\":\"File not found\"\x7d".toList] := by
  refine ⟨by decide, ?_, by decide⟩
  exact handle_fileop_rejected mem_fs content_print mem_world
    (fs_request "A".toList "read".toList "..".toList none) HttpResult.HTTP_OK "A".toList
    "read".toList "..".toList rfl rfl rfl rfl (by decide) (by decide)

/-! ## C28: the command is copied before its length is checked -/

/-- C28: `handle_command` copies the command into `cmd_copy[1024]` with
`strncpy` before the backend checks its length.  On an NT host that does no
harm: a pending, well-formed request that misses the cache either has its
whole converted command handed to `_popen` (at most 1007 bytes) or is
refused with "Command too long" and nothing is run.  On a 9x host a command
of at most 1023 bytes is handed to `system` whole, but of a longer command
the converted first 1023 bytes, a strict prefix, are handed to `system`,
because the limit of that backend is at least 1770 bytes; so for the command
"a" repeated 1100 times the 9x host runs "a" repeated 1023 times and reports
no refusal. -/
theorem handle_command_runs_truncated_copy :
    (∀ (sh : ShellHost) (print : List (List Char × JsonValue) → Option (List Char))
        (w : CmdWorld) (r : CmdPoll) (post_ret : HttpResult) (cmd_id command : List Char),
      r.has_pending = true → r.cmd_id = some cmd_id → r.command = some command →
      cache_lookup w.cmd_cache cmd_id = none → 5 ≤ sh.major →
      (handle_command sh print w (some r) post_ret).cmdlines =
          ["cmd.exe /c ".toList ++ path_to_backslashes command ++ " 2>&1".toList] ∨
        ((handle_command sh print w (some r) post_ret).cmdlines = [] ∧
          (handle_command sh print w (some r) post_ret).result =
            some [("command_id".toList, JsonValue.str cmd_id),
              ("stdout".toList, JsonValue.str "Command too long".toList),
              ("stderr".toList, JsonValue.str []),
              ("exit_code".toList, JsonValue.num (-1))])) ∧
    (∀ (sh : ShellHost) (print : List (List Char × JsonValue) → Option (List Char))
        (w : CmdWorld) (r : CmdPoll) (post_ret : HttpResult) (cmd_id command : List Char),
      r.has_pending = true → r.cmd_id = some cmd_id → r.command = some command →
      cache_lookup w.cmd_cache cmd_id = none → sh.major < 5 →
      (command.length ≤ 1023 →
        (handle_command sh print w (some r) post_ret).cmdlines =
          ["command.com /c ".toList ++ path_to_backslashes command ++ " > ".toList ++
            temp_file_path sh.getenv]) ∧
      (1023 < command.length →
        (handle_command sh print w (some r) post_ret).cmdlines =
          ["command.com /c ".toList ++ path_to_backslashes (command.take 1023) ++
            " > ".toList ++ temp_file_path sh.getenv] ∧
        (command.take 1023).length < command.length)) ∧
    (handle_command win98_host cmd_print cmd_world
      (some (cmd_request "c1".toList (List.replicate 1100 'a'))) HttpResult.HTTP_OK).cmdlines =
      ["command.com /c ".toList ++ List.replicate 1023 'a' ++ " > C:\\CMDOUT.TMP".toList] ∧
    (handle_command win98_host cmd_print cmd_world
      (some (cmd_request "c1".toList (List.replicate 1100 'a'))) HttpResult.HTTP_OK).result =
      some [("command_id".toList, JsonValue.str "c1".toList),
        ("stdout".toList, JsonValue.str []),
        ("stderr".toList, JsonValue.str []),
        ("exit_code".toList, JsonValue.num 0)] := by
  have h9x : ∀ (sh : ShellHost) (print : List (List Char × JsonValue) → Option (List Char))
        (w : CmdWorld) (r : CmdPoll) (post_ret : HttpResult) (cmd_id command : List Char),
      r.has_pending = true → r.cmd_id = some cmd_id → r.command = some command →
      cache_lookup w.cmd_cache cmd_id = none → sh.major < 5 →
      (handle_command sh print w (some r) post_ret).cmdlines =
          ["command.com /c ".toList ++ command_copy command ++ " > ".toList ++
            temp_file_path sh.getenv] := by
    intro sh print w r post_ret cmd_id command hpend hid hcmd hmiss hmajor
    rw [(handle_command_fresh sh print w r post_ret cmd_id command hpend hid hcmd hmiss).1]
    exact execute_command_9x_copy sh command hmajor
  have hcopy : command_copy (List.replicate 1100 'a') = List.replicate 1023 'a' := by
    have hno : '/' ∉ List.replicate 1023 'a' := by
      intro hmem
      have := List.eq_of_mem_replicate hmem
      exact absurd this (by decide)
    simp only [command_copy, strncpy, List.take_replicate, path_to_backslashes]
    exact ptb_id_of_no_slash _ _ _ hno
  refine ⟨?_, ?_, ?_, ?_⟩
  · intro sh print w r post_ret cmd_id command hpend hid hcmd hmiss hmajor
    obtain ⟨hlines, hres, _, _⟩ :=
      handle_command_fresh sh print w r post_ret cmd_id command hpend hid hcmd hmiss
    by_cases hlong : 1007 < command.length
    · right
      rw [execute_command_refused sh command hmajor hlong] at hlines hres
      exact ⟨hlines, hres⟩
    · left
      rw [hlines]
      exact execute_command_nt_whole sh command hmajor (by omega)
  · intro sh print w r post_ret cmd_id command hpend hid hcmd hmiss hmajor
    have hrun := h9x sh print w r post_ret cmd_id command hpend hid hcmd hmiss hmajor
    constructor
    · intro hshort
      rw [hrun, command_copy_whole command hshort]
    · intro hlong
      refine ⟨hrun, ?_⟩
      rw [List.length_take]
      omega
  · rw [h9x win98_host cmd_print cmd_world (cmd_request "c1".toList (List.replicate 1100 'a'))
      HttpResult.HTTP_OK "c1".toList (List.replicate 1100 'a') rfl rfl rfl (by decide)
      (by decide), hcopy]
    have ht : temp_file_path win98_host.getenv = "C:\\CMDOUT.TMP".toList := by decide
    have hj : " > C:\\CMDOUT.TMP".toList = " > ".toList ++ "C:\\CMDOUT.TMP".toList := by decide
    rw [ht, hj]
    simp only [List.append_assoc]
  · rw [(handle_command_fresh win98_host cmd_print cmd_world
      (cmd_request "c1".toList (List.replicate 1100 'a')) HttpResult.HTTP_OK "c1".toList
      (List.replicate 1100 'a') rfl rfl rfl (by decide)).2.1, hcopy]
    have hver : ¬ (win98_host.major ≥ 5) := by decide
    have hlen : ¬ ((List.replicate 1023 'a').length >
        2048 - 15 - 3 - (temp_file_path win98_host.getenv).length - 1) := by
      rw [List.length_replicate]
      decide
    simp only [execute_command, if_neg hver, execute_command_9x, if_neg hlen]
    rfl

/-! ## C29: the body of the approval answer as JSON -/

/-- A text of plain characters, closed by a quote, reads back as itself. -/
theorem json_string_tail_plain (id rest : List Char) (h : ∀ c ∈ id, json_plain c = true) :
    json_string_tail (id ++ '"' :: rest) = some (id, rest) := by
  induction id with
  | nil => simp [json_string_tail]
  | cons c cs ih =>
    have hc := h c (List.mem_cons_self _ _)
    simp only [json_plain, Bool.and_eq_true, bne_iff_ne, ne_eq, decide_eq_true_eq] at hc
    obtain ⟨⟨hq, hb⟩, h32⟩ := hc
    have ih1 := ih (fun x hx => h x (List.mem_cons_of_mem _ hx))
    have hstep : json_string_tail (c :: (cs ++ '"' :: rest)) =
        (if c.toNat < 32 then none
         else (json_string_tail (cs ++ '"' :: rest)).map (fun r => (c :: r.1, r.2))) := by
      cases hs : cs ++ '"' :: rest with
      | nil => simp at hs
      | cons e t =>
        conv_lhs => unfold json_string_tail
        split
        · rename_i heq; cases heq
        · rename_i heq
          simp only [List.cons.injEq] at heq
          exact absurd heq.1 hq
        · rename_i heq
          simp only [List.cons.injEq] at heq
          exact absurd heq.1 hb
        · rename_i heq
          simp only [List.cons.injEq] at heq
          exact absurd heq.1 hb
        · rename_i heq
          simp only [List.cons.injEq] at heq
          exact absurd heq.1 hb
        · rename_i heq
          simp only [List.cons.injEq] at heq
          obtain ⟨h1, h2⟩ := heq
          subst h1
          subst h2
          rfl
    rw [List.cons_append, hstep, if_neg (by omega), ih1]
    rfl

/-- The answer body built for a plain id of at most 63 bytes reads back as
that id and the decision. -/
theorem approval_body_reading (id : List Char) (approved : Bool) (hlen : id.length ≤ 63)
    (hplain : ∀ c ∈ id, json_plain c = true) :
    respond_body_reading (approval_body id approved) = some (id, approved) := by
  have h1 : "\x7b\"approval_id\":\"".toList.length = 16 := by decide
  have h2 : "\",\"approved\":".toList.length = 13 := by decide
  have h3 : (if approved then "true".toList else "false".toList).length ≤ 5 := by
    cases approved <;> decide
  have h4 : "\x7d".toList.length = 1 := by decide
  have hbody : approval_body id approved =
      "\x7b\"approval_id\":\"".toList ++ (id ++ '"' ::
        (",\"approved\":".toList ++ (if approved then "true".toList else "false".toList) ++
          "\x7d".toList)) := by
    unfold approval_body
    rw [List.take_of_length_le (by simp only [List.length_append, h1, h2, h4]; omega)]
    have hq : "\",\"approved\":".toList = '"' :: ",\"approved\":".toList := by decide
    rw [hq]
    simp only [List.append_assoc, List.cons_append]
  have hpre : after_text "\x7b\"approval_id\":\"".toList (approval_body id approved) =
      some (id ++ '"' ::
        (",\"approved\":".toList ++ (if approved then "true".toList else "false".toList) ++
          "\x7d".toList)) := by
    rw [hbody]
    unfold after_text
    rw [if_pos (List.isPrefixOf_iff_prefix.mpr (List.prefix_append _ _)), List.drop_left]
  unfold respond_body_reading
  rw [hpre]
  simp only
  rw [json_string_tail_plain id _ hplain]
  cases approved with
  | true =>
    simp only [if_true]
    have : ",\"approved\":".toList ++ "true".toList ++ "\x7d".toList =
        ",\"approved\":true\x7d".toList := by decide
    rw [this, if_pos rfl]
  | false =>
    simp only [Bool.false_eq_true, if_false]
    have : ",\"approved\":".toList ++ "false".toList ++ "\x7d".toList =
        ",\"approved\":false\x7d".toList := by decide
    rw [this, if_neg (by decide), if_pos rfl]

/-- C29: `poll_approval` cuts the id to 63 bytes and `process_approval` puts it
into the body with `snprintf("%s")`, without JSON escaping.  For an id of 1
to 63 plain characters (no quote, no backslash, no control character) the
body POSTed to `/approval/respond` reads as the object with that
`approval_id` and the decision as `approved`.  For the id `a"b` the body is
`{"approval_id":"a"b","approved":true}`, which is not well-formed JSON, and
for the id "A" repeated 64 times the body carries only 63 of them. -/
theorem approval_body_not_escaped :
    (∀ (st : ClientState) (r : ApprovalPoll) (key : Char) (id : List Char),
      st.session_id ≠ [] → st.has_pending_approval = false →
      st.approval_in_progress = false → r.has_pending = true → r.approval_id = some id →
      id ≠ [] → id.length ≤ 63 → (∀ c ∈ id, json_plain c = true) →
      ∃ body, respond_bodies (threaded_approval st (some r) key) = [body] ∧
        respond_body_reading body =
          some (id, st.skip_permissions || (key == 'y' || key == 'Y'))) ∧
    respond_bodies (threaded_approval sample_client
        (some (sample_reply (some ['a', '"', 'b']))) 'y') =
      ["\x7b\"approval_id\":\"a\"b\",\"approved\":true\x7d".toList] ∧
    respond_body_reading "\x7b\"approval_id\":\"a\"b\",\"approved\":true\x7d".toList = none ∧
    respond_bodies (threaded_approval sample_client
        (some (sample_reply (some (List.replicate 64 'A')))) 'y') =
      ["\x7b\"approval_id\":\"".toList ++ List.replicate 63 'A' ++
        "\",\"approved\":true\x7d".toList] ∧
    respond_body_reading ("\x7b\"approval_id\":\"".toList ++ List.replicate 63 'A' ++
        "\",\"approved\":true\x7d".toList) = some (List.replicate 63 'A', true) := by
  refine ⟨?_, by decide, by decide, by decide, by decide⟩
  intro st r key id hsid hpend hprog hp ha hne hlen hplain
  have hsid63 : ¬ (List.take 63 st.session_id = []) := by
    simp only [List.take_eq_nil_iff, not_or]
    exact ⟨by omega, hsid⟩
  have htake : List.take 63 id = id := List.take_of_length_le hlen
  cases hskip : st.skip_permissions with
  | true =>
    refine ⟨approval_body id true, ?_, ?_⟩
    · simp [threaded_approval, poll_approval, poll_approval_check, poll_approval_latch,
        process_approval, process_approval_begin, process_approval_decide,
        process_approval_respond, process_approval_end, hsid, hp, hpend, hprog, hskip, ha,
        strncpy, hsid63, respond_bodies, htake, hne]
    · rw [approval_body_reading id true hlen hplain]
      simp
  | false =>
    refine ⟨approval_body id (key == 'y' || key == 'Y'), ?_, ?_⟩
    · simp [threaded_approval, poll_approval, poll_approval_check, poll_approval_latch,
        process_approval, process_approval_begin, process_approval_decide,
        process_approval_respond, process_approval_end, hsid, hp, hpend, hprog, hskip, ha,
        strncpy, hsid63, respond_bodies, htake, hne]
    · rw [approval_body_reading id _ hlen hplain]
      simp

/-! ## C30: output parked for the UI thread -/

/-- C30: the poll thread's output step stores a non-empty output into
`pending_output` and sets `has_pending_output` without looking at the flag.
When the UI thread prints between two fetches nothing is lost: an output
fetched while the flag is clear is printed (cut to `BUFFER_SIZE - 1` bytes) by
the next `check_pending_output` or round of `session_poll_output`.  When the
poll thread fetches "A" and then "B" before the UI thread looks, the second
fetch replaces `pending_output` while `has_pending_output` is still set, and
only "B" is ever printed. -/
theorem pending_output_overwritten :
    (∀ (st : ClientState) (o : List Char), o ≠ [] → st.session_id ≠ [] →
      session_prints st [fetch_output o, SessionOp.check_pending true] =
        [strncpy o (BUFFER_SIZE - 1)] ∧
      session_prints st [fetch_output o, SessionOp.poll_output true none] =
        [strncpy o (BUFFER_SIZE - 1)] ∧
      (session_run st [fetch_output o, SessionOp.check_pending true]).has_pending_output =
        false) ∧
    (session_run sample_client [fetch_output "A".toList]).has_pending_output = true ∧
    (session_run sample_client [fetch_output "A".toList]).pending_output = "A".toList ∧
    (session_run sample_client
      [fetch_output "A".toList, fetch_output "B".toList]).pending_output = "B".toList ∧
    session_prints sample_client
      [fetch_output "A".toList, fetch_output "B".toList, SessionOp.check_pending true,
       SessionOp.check_pending true, SessionOp.poll_output true none] = ["B".toList] ∧
    session_prints sample_client
      [fetch_output "A".toList, fetch_output "B".toList, SessionOp.poll_output true none,
       SessionOp.check_pending true] = ["B".toList] := by
  refine ⟨?_, by decide, by decide, by decide, by decide, by decide⟩
  intro st o ho hsid
  refine ⟨?_, ?_, ?_⟩
  · simp [session_prints, session_print, session_step, fetch_output, poll_thread_output,
      OutputReply.stopped, pending_print, ho]
  · simp [session_prints, session_print, session_step, fetch_output, poll_thread_output,
      OutputReply.stopped, pending_print, ho, hsid]
  · simp only [session_run, List.foldl_cons, List.foldl_nil, session_step, fetch_output,
      poll_thread_output, OutputReply.stopped, check_pending_output, take_pending_output]
    simp [ho]
    split_ifs <;> rfl

end ClaudeWin9x
